import Mathlib

/-!
# COtt: rule dispatcher and state-space explorer

A shallow embedding of `language_semantics.h`, `small_step_semantics.h` and of the
finite CCS example (`examples/finite_ccs.cpp`) of the COtt repository.

Conventions of the embedding.

* A `std::shared_ptr<T>` is an `Option T`: `none` is the null pointer, `some v` a pointer
  to the value `v`. A pointer is thereby the object it points to, as when equal objects are
  always one shared object. The code reads the address of a pointer in one place, the
  comparison of two successor sets in `finite_ccs::operator==`; there the pointers carry
  their addresses: in the section on the MultiPrefix case of `operator==` (`located_ptr`)
  and in the finite CCS terms with addresses (`located_ccs`), on which the whole operator
  is followed.
* A `std::vector` is a `List`.
* The `Rec*` handle a transform receives is used only to call `rec->operator()`; it is
  embedded as that callable, a function from terms to outcome sequences. A dispatcher call
  is therefore a function of the rule list, of the handle and of the term; the dispatcher
  of a rule list is a handle that is equal to its own dispatcher call.
* `std::unordered_set` and `std::unordered_map` are insertion-ordered lists; a lookup scans
  for the first stored key that the relation under which the container finds its keys
  accepts for the given key, and a key is inserted when there is none. The functions of the
  containers and of the explorer take that relation as their argument `eq`. A container of
  the code finds a key by its hash code (`KeyHasher`) and then by the key equality
  (`KeyEqualizer`): its relation is `hashed_eq hash eq`, "the same hash code and equal".
  When the hash gives equal keys equal values, as the containers require, `hashed_eq hash eq`
  is `eq` itself (`hashed_eq_of_consistent`). The hash of finite CCS does not (`a.0` and
  `a.0 + a.0`): the statements on the exploration of finite CCS are made for the relation
  `hashed_eq (finite_ccs.hash H) finite_ccs.operator_eq`, for every hash `H` of strings, or
  come with a lemma that carries them over to it (section "the explorations of finite CCS
  above, with the keys looked up by hash code").
* A loop that may run forever takes a number of iterations it may use (`fuel`) and returns
  `none` when that number does not suffice.
-/

namespace COtt

set_option linter.unusedSectionVars false

/-! ## language_semantics.h -/

/-- The value returned by a dispatcher call or a transform:
`std::vector<std::pair<TransitionType, std::shared_ptr<ResultType>>>`. -/
abbrev Outcomes (TransitionType ResultType : Type) : Type :=
  List (TransitionType × Option ResultType)

/-- The callable behind a `Rec*` handle: `rec->operator()`. -/
abbrev RecHandle (InputType TransitionType ResultType : Type) : Type :=
  Option InputType → Outcomes TransitionType ResultType

/-- A rule is the pair of an applicability test and a transform (`semantics_rule`). -/
abbrev semantics_rule (InputType TransitionType ResultType : Type) : Type :=
  (Option InputType → Bool) ×
    (RecHandle InputType TransitionType ResultType → Option InputType →
      Outcomes TransitionType ResultType)

/-- The dispatcher object: its only data member is `rules_by_priority`. -/
structure language_semantics (InputType TransitionType ResultType : Type) where
  rules_by_priority : List (semantics_rule InputType TransitionType ResultType)

namespace language_semantics

variable {InputType TransitionType ResultType : Type}

/-- A freshly constructed dispatcher has no rule. -/
def fresh : language_semantics InputType TransitionType ResultType :=
  { rules_by_priority := [] }

/-- The method `add_rule(f1, f2)`: `rules_by_priority.emplace_back(f1, f2)`. -/
def add_rule (self : language_semantics InputType TransitionType ResultType)
    (f1 : Option InputType → Bool)
    (f2 : RecHandle InputType TransitionType ResultType → Option InputType →
      Outcomes TransitionType ResultType) :
    language_semantics InputType TransitionType ResultType :=
  { rules_by_priority := self.rules_by_priority ++ [(f1, f2)] }

/-- The `for` loop of `operator()` over the rules that are still to be tried. -/
def scan_rules (this : RecHandle InputType TransitionType ResultType) :
    List (semantics_rule InputType TransitionType ResultType) → Option InputType →
      Outcomes TransitionType ResultType
  | [], _ => []
  | (test, transform) :: rest, t =>
    if test t then transform this t else scan_rules this rest t

/-- The method `operator()(t)`. The argument `this` is the handle that is passed on to the
selected transform. -/
def operator_call (self : language_semantics InputType TransitionType ResultType)
    (this : RecHandle InputType TransitionType ResultType) (t : Option InputType) :
    Outcomes TransitionType ResultType :=
  scan_rules this self.rules_by_priority t

end language_semantics

/-! ## small_step_semantics.h: key equality -/

/-- The expression `*__x == *__y` of `KeyEqualizer`. It is only reached when both pointers
are present. -/
def derefEq {Key : Type} (eq : Key → Key → Bool) : Option Key → Option Key → Bool
  | some a, some b => eq a b
  | _, _ => false

/-- The functor `KeyEqualizer<Key>`, over the `operator==` of `Key`:
`((bool) x == (bool) y) && (!((bool) x) || *x == *y)`. -/
def KeyEqualizer {Key : Type} (eq : Key → Key → Bool) (x y : Option Key) : Bool :=
  (x.isSome == y.isSome) && (!x.isSome || derefEq eq x y)

/-! ## small_step_semantics.h: containers -/

/-- The type `transition_node_set<TransitionNode>`: an unordered set of shared pointers, in
insertion order. -/
abbrev transition_node_set (TransitionNode : Type) : Type := List (Option TransitionNode)

namespace transition_node_set

variable {TransitionNode : Type}

/-- The method `contains(x)`: some stored key is accepted for `x` by the relation `eq` under
which the set finds its keys. For the set of the code, which looks in the bucket of the hash
code of `x` and compares hash codes before it calls `KeyEqualizer`, `eq` is
`hashed_eq hash eq0`, with `hash` the hash and `eq0` the `operator==` of the terms. -/
def contains (eq : TransitionNode → TransitionNode → Bool)
    (s : transition_node_set TransitionNode) (x : Option TransitionNode) : Bool :=
  s.any (fun y => KeyEqualizer eq x y)

/-- The method `emplace(x)`: inserts `x` unless the set finds a stored key for it
(`contains`). -/
def emplace (eq : TransitionNode → TransitionNode → Bool)
    (s : transition_node_set TransitionNode) (x : Option TransitionNode) :
    transition_node_set TransitionNode :=
  if contains eq s x then s else s ++ [x]

end transition_node_set

/-- Access `m[k]` of an unordered map followed by the update `f` of the mapped value: the
entry of the first stored key that the relation `keq`, under which the map finds its keys,
accepts for `k` is updated; when there is none, an entry with the default value `dflt` is
created for `k` and updated. For a map keyed by `KeyHasher` and `KeyEqualizer`, `keq` is
`KeyEqualizer (hashed_eq hash eq0)`, the same hash code and equal; for a `std::map` or a map
keyed by labels it is the equality of the keys. -/
def map_update {K V : Type} (keq : K → K → Bool) (dflt : V) (f : V → V) (k : K) :
    List (K × V) → List (K × V)
  | [] => [(k, f dflt)]
  | (k', v) :: rest =>
    if keq k k' then (k', f v) :: rest else (k', v) :: map_update keq dflt f k rest

/-- Read-only lookup `m.find(k)` of an unordered map. -/
def map_find {K V : Type} (keq : K → K → Bool) (k : K) (m : List (K × V)) : Option V :=
  (m.find? (fun e => keq k e.1)).map (fun e => e.2)

/-- The `operator==` of the label type, taken to be equality of values (as it is for
`std::string` and for `std::pair<bool, std::string>`). -/
def label_eq {TransitionLabel : Type} [DecidableEq TransitionLabel]
    (a b : TransitionLabel) : Bool :=
  decide (a = b)

/-- The inner map of the transition graph: label to successor set. -/
abbrev adjacency (TransitionNode TransitionLabel : Type) : Type :=
  List (TransitionLabel × transition_node_set TransitionNode)

/-- The type of `forward_transition_graph`. -/
abbrev transition_graph (TransitionNode TransitionLabel : Type) : Type :=
  List (Option TransitionNode × adjacency TransitionNode TransitionLabel)

section Graph

variable {TransitionNode TransitionLabel : Type} [DecidableEq TransitionLabel]

/-- The three statements that record an edge in `visit`:
`adjList = forward_transition_graph[top]; dstPlace = adjList[label]; dstPlace.emplace(dst)`.
The outer map and the successor sets find their keys under the same relation `eq`
(`hashed_eq hash eq0` for the containers of the code). -/
def record_edge (eq : TransitionNode → TransitionNode → Bool)
    (g : transition_graph TransitionNode TransitionLabel)
    (top : Option TransitionNode) (label : TransitionLabel) (dst : Option TransitionNode) :
    transition_graph TransitionNode TransitionLabel :=
  map_update (KeyEqualizer eq) []
    (fun adjList => map_update label_eq []
      (fun dstPlace => transition_node_set.emplace eq dstPlace dst) label adjList) top g

/-- Query: `t` is a source state of the graph, up to structural equality. -/
def has_source (eq : TransitionNode → TransitionNode → Bool)
    (g : transition_graph TransitionNode TransitionLabel) (t : Option TransitionNode) : Bool :=
  (map_find (KeyEqualizer eq) t g).isSome

/-- Query: the source `t` has an entry for the label `l`. -/
def has_label (eq : TransitionNode → TransitionNode → Bool)
    (g : transition_graph TransitionNode TransitionLabel)
    (t : Option TransitionNode) (l : TransitionLabel) : Bool :=
  (map_find label_eq l ((map_find (KeyEqualizer eq) t g).getD [])).isSome

end Graph

/-! ## small_step_semantics.h: the explorer -/

/-- The data members of `small_step_semantics`. The inherited dispatcher is passed to
`visit` as the callable `this->operator()`. -/
structure small_step_semantics (TransitionNode TransitionLabel : Type) where
  forward_transition_graph : transition_graph TransitionNode TransitionLabel
  visited_nodes : transition_node_set TransitionNode

/-- The state of the `while` loop of `visit`: the worklist `S` (next element to pop first),
the two data members, and the sequence `calls` of the arguments on which the dispatcher has
been invoked so far (a trace, not read by the loop). -/
structure visit_state (TransitionNode TransitionLabel : Type) where
  S : List (Option TransitionNode)
  forward_transition_graph : transition_graph TransitionNode TransitionLabel
  visited_nodes : transition_node_set TransitionNode
  calls : List (Option TransitionNode)

section Explorer

variable {TransitionNode TransitionLabel : Type} [DecidableEq TransitionLabel]

/-- The state at loop entry: both containers cleared, `start` on the stack. -/
def visit_init (_self : small_step_semantics TransitionNode TransitionLabel)
    (start : Option TransitionNode) : visit_state TransitionNode TransitionLabel :=
  { S := [start], forward_transition_graph := [], visited_nodes := [], calls := [] }

/-- One iteration of the inner `for` loop: record the edge, push `dst` on the stack. -/
def visit_edge (eq : TransitionNode → TransitionNode → Bool) (top : Option TransitionNode)
    (st : visit_state TransitionNode TransitionLabel)
    (e : TransitionLabel × Option TransitionNode) :
    visit_state TransitionNode TransitionLabel :=
  { st with
    forward_transition_graph := record_edge eq st.forward_transition_graph top e.1 e.2
    S := e.2 :: st.S }

/-- One iteration of the `while` loop, `S` being non-empty; `result_of top` is the vector
the `for` loop runs over. -/
def visit_iteration (eq : TransitionNode → TransitionNode → Bool)
    (result_of : RecHandle TransitionNode TransitionLabel TransitionNode)
    (st : visit_state TransitionNode TransitionLabel) :
    visit_state TransitionNode TransitionLabel :=
  match st.S with
  | [] => st
  | top :: rest =>
    if transition_node_set.contains eq st.visited_nodes top then
      { st with S := rest }
    else
      (result_of top).foldl (visit_edge eq top)
        { S := rest
          forward_transition_graph := st.forward_transition_graph
          visited_nodes := transition_node_set.emplace eq st.visited_nodes top
          calls := st.calls ++ [top] }

/-- One full iteration of the `while` loop with the dispatcher `dispatch`. -/
def visit_step (dispatch : RecHandle TransitionNode TransitionLabel TransitionNode)
    (eq : TransitionNode → TransitionNode → Bool)
    (st : visit_state TransitionNode TransitionLabel) :
    visit_state TransitionNode TransitionLabel :=
  visit_iteration eq dispatch st

/-- The `while (!S.empty())` loop, run for at most `fuel` iterations: `none` when the
worklist is still non-empty after `fuel` iterations. -/
def visit_loop (dispatch : RecHandle TransitionNode TransitionLabel TransitionNode)
    (eq : TransitionNode → TransitionNode → Bool) :
    Nat → visit_state TransitionNode TransitionLabel →
      Option (visit_state TransitionNode TransitionLabel)
  | 0, st => if st.S.isEmpty then some st else none
  | fuel + 1, st =>
    if st.S.isEmpty then some st else visit_loop dispatch eq fuel (visit_step dispatch eq st)

/-- The loop of `visit(start)` from its entry state. -/
def visit_run (dispatch : RecHandle TransitionNode TransitionLabel TransitionNode)
    (eq : TransitionNode → TransitionNode → Bool) (fuel : Nat)
    (self : small_step_semantics TransitionNode TransitionLabel)
    (start : Option TransitionNode) : Option (visit_state TransitionNode TransitionLabel) :=
  visit_loop dispatch eq fuel (visit_init self start)

/-- The method `visit(start)` on the explorer `self`: the explorer it leaves behind. -/
def visit (dispatch : RecHandle TransitionNode TransitionLabel TransitionNode)
    (eq : TransitionNode → TransitionNode → Bool) (fuel : Nat)
    (self : small_step_semantics TransitionNode TransitionLabel)
    (start : Option TransitionNode) :
    Option (small_step_semantics TransitionNode TransitionLabel) :=
  (visit_run dispatch eq fuel self start).map (fun st =>
    { forward_transition_graph := st.forward_transition_graph
      visited_nodes := st.visited_nodes })

/-- A freshly constructed explorer: both containers empty. -/
def small_step_semantics.fresh : small_step_semantics TransitionNode TransitionLabel :=
  { forward_transition_graph := [], visited_nodes := [] }

/-! ### The same explorer with a first-in first-out worklist -/

/-- The inner `for` loop body when the worklist is a queue: `dst` is pushed at the back. -/
def visit_edge_fifo (eq : TransitionNode → TransitionNode → Bool)
    (top : Option TransitionNode) (st : visit_state TransitionNode TransitionLabel)
    (e : TransitionLabel × Option TransitionNode) :
    visit_state TransitionNode TransitionLabel :=
  { st with
    forward_transition_graph := record_edge eq st.forward_transition_graph top e.1 e.2
    S := st.S ++ [e.2] }

/-- One iteration of the `while` loop when the worklist is a queue: the front element is
popped. -/
def visit_step_fifo (dispatch : RecHandle TransitionNode TransitionLabel TransitionNode)
    (eq : TransitionNode → TransitionNode → Bool)
    (st : visit_state TransitionNode TransitionLabel) :
    visit_state TransitionNode TransitionLabel :=
  match st.S with
  | [] => st
  | top :: rest =>
    if transition_node_set.contains eq st.visited_nodes top then
      { st with S := rest }
    else
      (dispatch top).foldl (visit_edge_fifo eq top)
        { S := rest
          forward_transition_graph := st.forward_transition_graph
          visited_nodes := transition_node_set.emplace eq st.visited_nodes top
          calls := st.calls ++ [top] }

/-- The `while` loop of the queue explorer, with fuel. -/
def visit_loop_fifo (dispatch : RecHandle TransitionNode TransitionLabel TransitionNode)
    (eq : TransitionNode → TransitionNode → Bool) :
    Nat → visit_state TransitionNode TransitionLabel →
      Option (visit_state TransitionNode TransitionLabel)
  | 0, st => if st.S.isEmpty then some st else none
  | fuel + 1, st =>
    if st.S.isEmpty then some st
    else visit_loop_fifo dispatch eq fuel (visit_step_fifo dispatch eq st)

/-- The queue explorer: `visit` with the stack replaced by a queue. -/
def visit_fifo (dispatch : RecHandle TransitionNode TransitionLabel TransitionNode)
    (eq : TransitionNode → TransitionNode → Bool) (fuel : Nat)
    (self : small_step_semantics TransitionNode TransitionLabel)
    (start : Option TransitionNode) :
    Option (small_step_semantics TransitionNode TransitionLabel) :=
  (visit_loop_fifo dispatch eq fuel (visit_init self start)).map (fun st =>
    { forward_transition_graph := st.forward_transition_graph
      visited_nodes := st.visited_nodes })

/-! ### Notions used to state the properties of the explorer -/

/-- The term `t` is reachable from `root` by zero or more dispatcher steps. -/
inductive Reach (dispatch : RecHandle TransitionNode TransitionLabel TransitionNode)
    (root : Option TransitionNode) : Option TransitionNode → Prop
  | root : Reach dispatch root root
  | step {t s : Option TransitionNode} {l : TransitionLabel} :
      Reach dispatch root t → (l, s) ∈ dispatch t → Reach dispatch root s

/-- The operator `==` of the term type is an equivalence relation. -/
structure EqIsEquivalence (eq : TransitionNode → TransitionNode → Bool) : Prop where
  refl : ∀ a, eq a a = true
  symm : ∀ a b, eq a b = true → eq b a = true
  trans : ∀ a b c, eq a b = true → eq b c = true → eq a c = true

/-- No two elements of the list are structurally equal. -/
def distinct_nodes (eq : TransitionNode → TransitionNode → Bool)
    (s : List (Option TransitionNode)) : Prop :=
  s.Pairwise (fun a b => KeyEqualizer eq a b = false ∧ KeyEqualizer eq b a = false)

end Explorer

/-! ### A worklist explorer generic in the push discipline

Both the stack explorer and the queue explorer are instances of it; it is used to reason
about the two at once. -/

section Worklist

variable {TransitionNode TransitionLabel : Type} [DecidableEq TransitionLabel]

/-- The inner loop body, `push` being the way a successor enters the worklist. -/
def worklist_edge (push : List (Option TransitionNode) → Option TransitionNode →
      List (Option TransitionNode))
    (eq : TransitionNode → TransitionNode → Bool) (top : Option TransitionNode)
    (st : visit_state TransitionNode TransitionLabel)
    (e : TransitionLabel × Option TransitionNode) :
    visit_state TransitionNode TransitionLabel :=
  { st with
    forward_transition_graph := record_edge eq st.forward_transition_graph top e.1 e.2
    S := push st.S e.2 }

/-- One iteration of the outer loop of the generic worklist explorer. -/
def worklist_step (push : List (Option TransitionNode) → Option TransitionNode →
      List (Option TransitionNode))
    (dispatch : RecHandle TransitionNode TransitionLabel TransitionNode)
    (eq : TransitionNode → TransitionNode → Bool)
    (st : visit_state TransitionNode TransitionLabel) :
    visit_state TransitionNode TransitionLabel :=
  match st.S with
  | [] => st
  | top :: rest =>
    if transition_node_set.contains eq st.visited_nodes top then
      { st with S := rest }
    else
      (dispatch top).foldl (worklist_edge push eq top)
        { S := rest
          forward_transition_graph := st.forward_transition_graph
          visited_nodes := transition_node_set.emplace eq st.visited_nodes top
          calls := st.calls ++ [top] }

/-- The outer loop of the generic worklist explorer, with fuel. -/
def worklist_loop (push : List (Option TransitionNode) → Option TransitionNode →
      List (Option TransitionNode))
    (dispatch : RecHandle TransitionNode TransitionLabel TransitionNode)
    (eq : TransitionNode → TransitionNode → Bool) :
    Nat → visit_state TransitionNode TransitionLabel →
      Option (visit_state TransitionNode TransitionLabel)
  | 0, st => if st.S.isEmpty then some st else none
  | fuel + 1, st =>
    if st.S.isEmpty then some st
    else worklist_loop push dispatch eq fuel (worklist_step push dispatch eq st)

/-- The edges recorded while expanding the terms of `calls`, in recording order. -/
def edges_of (dispatch : RecHandle TransitionNode TransitionLabel TransitionNode)
    (calls : List (Option TransitionNode)) :
    List (Option TransitionNode × TransitionLabel × Option TransitionNode) :=
  calls.flatMap (fun v => (dispatch v).map (fun e => (v, e.1, e.2)))

/-- Recording a sequence of edges, one after the other. -/
def record_all (eq : TransitionNode → TransitionNode → Bool)
    (g : transition_graph TransitionNode TransitionLabel)
    (es : List (Option TransitionNode × TransitionLabel × Option TransitionNode)) :
    transition_graph TransitionNode TransitionLabel :=
  es.foldl (fun g e => record_edge eq g e.1 e.2.1 e.2.2) g

/-- The invariant of the outer loop of the worklist explorer started on `root`. -/
structure WorklistInv (dispatch : RecHandle TransitionNode TransitionLabel TransitionNode)
    (eq : TransitionNode → TransitionNode → Bool) (root : Option TransitionNode)
    (st : visit_state TransitionNode TransitionLabel) : Prop where
  S_reach : ∀ x ∈ st.S, Reach dispatch root x
  visited_reach : ∀ v ∈ st.visited_nodes, Reach dispatch root v
  visited_distinct : distinct_nodes eq st.visited_nodes
  calls_eq : st.calls = st.visited_nodes
  root_covered : root ∈ st.S ∨ transition_node_set.contains eq st.visited_nodes root = true
  closed : ∀ v ∈ st.visited_nodes, ∀ e ∈ dispatch v,
    e.2 ∈ st.S ∨ transition_node_set.contains eq st.visited_nodes e.2 = true
  graph_eq : st.forward_transition_graph = record_all eq [] (edges_of dispatch st.calls)

end Worklist

/-! ## examples/finite_ccs.cpp -/

/-- The inductive cases of finite CCS (`enum finite_ccs_process_cases`). -/
inductive finite_ccs_process_cases where
  | NIL
  | MultiPrefix
  | ParallelComposition
  | Restriction
  deriving DecidableEq, Repr

/-- The structure `finite_ccs`: the case tag and the three vectors. -/
inductive finite_ccs where
  | mk (casus : finite_ccs_process_cases) (restr_label : List String)
      (parallel_compose : List (Option finite_ccs))
      ( multi_prefix : List ((Bool × String) × Option finite_ccs))

namespace finite_ccs

/-- Field `casus`. -/
def casus : finite_ccs → finite_ccs_process_cases
  | mk c _ _ _ => c

/-- Field `restr_label`. -/
def restr_label : finite_ccs → List String
  | mk _ r _ _ => r

/-- Field `parallel_compose`. -/
def parallel_compose : finite_ccs → List (Option finite_ccs)
  | mk _ _ p _ => p

/-- Field `multi_prefix`. -/
def multi_prefix : finite_ccs → List ((Bool × String) × Option finite_ccs)
  | mk _ _ _ m => m

/-- Constructor `finite_ccs()`: the deadlock `0`. -/
def nil : finite_ccs := mk .NIL [] [] []

/-- Constructor `finite_ccs(std::vector<std::shared_ptr<finite_ccs>> v)`. -/
def parallel (v : List (Option finite_ccs)) : finite_ccs := mk .ParallelComposition [] v []

/-- Constructor `finite_ccs(multialt ls)`. -/
def prefixes (ls : List ((Bool × String) × Option finite_ccs)) : finite_ccs :=
  mk .MultiPrefix [] [] ls

/-- Constructor `finite_ccs(label, lhs)`. -/
def restriction (label : List String) (lhs : Option finite_ccs) : finite_ccs :=
  mk .Restriction label [lhs] []

/-- The copy `*op` with `parallel_compose[i] = val`. -/
def set_component (op : finite_ccs) (i : Nat) (val : Option finite_ccs) : finite_ccs :=
  mk op.casus op.restr_label (op.parallel_compose.set i val) ( multi_prefix op)

mutual
/-- Height of a term tree; bounds the depth of the recursion of `operator==` and of the
rules. -/
def depth : finite_ccs → Nat
  | mk _ _ p m => 1 + max (depth_components p) (depth_branches m)
/-- Largest height among the components. -/
def depth_components : List (Option finite_ccs) → Nat
  | [] => 0
  | none :: rest => depth_components rest
  | some t :: rest => max (depth t) (depth_components rest)
/-- Largest height among the continuations of the branches. -/
def depth_branches : List ((Bool × String) × Option finite_ccs) → Nat
  | [] => 0
  | (_, none) :: rest => depth_branches rest
  | (_, some t) :: rest => max (depth t) (depth_branches rest)
end

/-- Height of the term behind a pointer (`0` for the null pointer). -/
def depth_ptr : Option finite_ccs → Nat
  | none => 0
  | some t => depth t

/-- The subscript `v[i]` of a vector of pointers. Reading past the end is undefined in the
source; here it yields the null pointer. -/
def component (v : List (Option finite_ccs)) (i : Nat) : Option finite_ccs :=
  (v[i]?).getD none

/-- The `std::set` of the labels of a branch list (`LS`, `RS`), without repetition. -/
def label_set (mp : List ((Bool × String) × Option finite_ccs)) : List (Bool × String) :=
  mp.foldl (fun LS e => if LS.contains e.1 then LS else LS ++ [e.1]) []

/-- Comparison `LS != RS` negated: the two sets have the same elements. -/
def label_set_eq (LS RS : List (Bool × String)) : Bool :=
  LS.all (fun k => RS.contains k) && RS.all (fun k => LS.contains k)

/-- The map `multimapLHS` (`multimapRHS`): for each `(k, v)`, `multimap[k].emplace(v)`. The
sets find their keys under `eq`; the map whose sets find them by hash code as well is
`located_ccs.multimap`. -/
def multimap (eq : finite_ccs → finite_ccs → Bool)
    (mp : List ((Bool × String) × Option finite_ccs)) :
    List ((Bool × String) × transition_node_set finite_ccs) :=
  mp.foldl (fun m e =>
    map_update label_eq [] (fun set => transition_node_set.emplace eq set e.2) e.1 m) []

/-- Comparison of two `transition_node_set`s, negation of `!=`: same size, and every member
of the first has an equal member in the second. A pointer being here the term it points to,
the members are compared as terms: this is the comparison of the code on terms whose equal
parts are shared, the code matching the stored pointers by address. On terms whose pointers
carry their addresses the comparison is `located_ccs.node_set_eq`, and the operator
`located_ccs.operator_eq`. -/
def node_set_eq (eq : finite_ccs → finite_ccs → Bool)
    (a b : transition_node_set finite_ccs) : Bool :=
  a.length == b.length && a.all (fun x => transition_node_set.contains eq b x)

/-- The body of `finite_ccs::operator==`; `eq` stands for the recursive calls of the
operator, which all go through `KeyEqualizer<finite_ccs>`. -/
def eq_body (eq : finite_ccs → finite_ccs → Bool) (lhs rhs : finite_ccs) : Bool :=
  if lhs.casus ≠ rhs.casus then false
  else
    match lhs.casus with
    | .NIL => true
    | .MultiPrefix =>
      let LS := label_set ( multi_prefix lhs)
      let RS := label_set ( multi_prefix rhs)
      let multimapLHS := multimap eq ( multi_prefix lhs)
      let multimapRHS := multimap eq ( multi_prefix rhs)
      if !label_set_eq LS RS then false
      else
        LS.all (fun k =>
          node_set_eq eq
            ((map_find label_eq k multimapLHS).getD [])
            ((map_find label_eq k multimapRHS).getD []))
    | .ParallelComposition =>
      if !KeyEqualizer eq
          (component lhs.parallel_compose 0) (component rhs.parallel_compose 0) then false
      else
        KeyEqualizer eq
          (component lhs.parallel_compose 1) (component rhs.parallel_compose 1)
    | .Restriction =>
      if lhs.restr_label ≠ rhs.restr_label then false
      else
        KeyEqualizer eq
          (component lhs.parallel_compose 0) (component rhs.parallel_compose 0)

/-- The operator `finite_ccs::operator==` with its recursion limited to depth `fuel`. -/
def eq_fuel : Nat → finite_ccs → finite_ccs → Bool
  | 0, _, _ => false
  | fuel + 1, lhs, rhs => eq_body (eq_fuel fuel) lhs rhs

/-- The pointers `operator==` dereferences in a term: the first two components and the
continuations of the branches. -/
def children (t : finite_ccs) : List (Option finite_ccs) :=
  [component t.parallel_compose 0, component t.parallel_compose 1] ++
    List.map Prod.snd ( multi_prefix t)

/-- The operator `finite_ccs::operator==`: the recursion goes as deep as the taller of the
two terms. -/
def operator_eq (lhs rhs : finite_ccs) : Bool :=
  eq_fuel (max (depth lhs) (depth rhs)) lhs rhs

end finite_ccs

/-- The string `tau` of `main`. -/
def tau : String := "."

/-- The label `tauPair` of `main`. -/
def tauPair : Bool × String := (false, tau)

/-- The map of the parallel rule: channel name to the offers of polarity `true` and the
offers of polarity `false`, each with the index of its component. Entries are kept in
insertion order. -/
abbrev offer_map : Type :=
  List (String × (List (Nat × Option finite_ccs) × List (Nat × Option finite_ccs)))

/-- Test of the MultiPrefix rule. -/
def multi_prefix_test (op : Option finite_ccs) : Bool :=
  match op with
  | none => false
  | some t => t.casus == .MultiPrefix && !List.isEmpty ( finite_ccs.multi_prefix t)

/-- Transform of the MultiPrefix rule: `return op->multi_prefix`. -/
def multi_prefix_transform (_rec : RecHandle finite_ccs (Bool × String) finite_ccs)
    (op : Option finite_ccs) : Outcomes (Bool × String) finite_ccs :=
  match op with
  | none => []
  | some t => finite_ccs.multi_prefix t

/-- Test of the parallel composition rule. -/
def parallel_test (op : Option finite_ccs) : Bool :=
  match op with
  | none => false
  | some t => t.casus == .ParallelComposition && !t.parallel_compose.isEmpty

/-- Body of the inner loop of the first phase of the parallel rule, for the outcome
`(key, val)` of component `i`: the offer is filed in the map unless it is on `tau`, and the
interleaved outcome is appended to the result. -/
def parallel_outcome (t : finite_ccs) (i : Nat)
    (acc : offer_map × Outcomes (Bool × String) finite_ccs)
    (e : (Bool × String) × Option finite_ccs) :
    offer_map × Outcomes (Bool × String) finite_ccs :=
  let map :=
    if e.1.2 ≠ tau then
      if e.1.1 then
        map_update label_eq ([], []) (fun p => (p.1 ++ [(i, e.2)], p.2)) e.1.2 acc.1
      else
        map_update label_eq ([], []) (fun p => (p.1, p.2 ++ [(i, e.2)])) e.1.2 acc.1
    else acc.1
  (map, acc.2 ++ [(e.1, some (t.set_component i e.2))])

/-- First phase of the parallel rule: the loop over the components `i = 0 .. N-1`. -/
def parallel_interleave (rec : RecHandle finite_ccs (Bool × String) finite_ccs)
    (t : finite_ccs) : offer_map × Outcomes (Bool × String) finite_ccs :=
  (List.range t.parallel_compose.length).foldl (fun acc i =>
    (rec (finite_ccs.component t.parallel_compose i)).foldl (parallel_outcome t i) acc)
    ([], [])

/-- Second phase of the parallel rule: for each channel of the map, each offer `i` of
polarity `true` and each offer `j` of polarity `false` from another component gives a
`tauPair` outcome. -/
def parallel_synchronise (t : finite_ccs) (map : offer_map) :
    Outcomes (Bool × String) finite_ccs :=
  map.flatMap (fun x =>
    x.2.1.flatMap (fun i =>
      x.2.2.flatMap (fun j =>
        if i.1 ≠ j.1 then
          [(tauPair, some ((t.set_component i.1 i.2).set_component j.1 j.2))]
        else [])))

/-- Transform of the parallel composition rule. -/
def parallel_transform (rec : RecHandle finite_ccs (Bool × String) finite_ccs)
    (op : Option finite_ccs) : Outcomes (Bool × String) finite_ccs :=
  match op with
  | none => []
  | some t =>
    let phase1 := parallel_interleave rec t
    phase1.2 ++ parallel_synchronise t phase1.1

/-- Test of the restriction rule. -/
def restriction_test (op : Option finite_ccs) : Bool :=
  match op with
  | none => false
  | some t =>
    t.casus == .Restriction && t.parallel_compose.length == 1 && !t.restr_label.isEmpty

/-- Transform of the restriction rule. -/
def restriction_transform (rec : RecHandle finite_ccs (Bool × String) finite_ccs)
    (op : Option finite_ccs) : Outcomes (Bool × String) finite_ccs :=
  match op with
  | none => []
  | some t =>
    let par := (rec (finite_ccs.component t.parallel_compose 0)).filter
      (fun x => !t.restr_label.contains x.1.2)
    par.map (fun ref => (ref.1, some (t.set_component 0 ref.2)))

/-- The rule table registered in `main` on `finiteCCS_graph_Semantics`. -/
def finiteCCS_rules : language_semantics finite_ccs (Bool × String) finite_ccs :=
  ((language_semantics.fresh.add_rule multi_prefix_test multi_prefix_transform).add_rule
    parallel_test parallel_transform).add_rule restriction_test restriction_transform

/-- The dispatcher of `finiteCCS_graph_Semantics` with its recursive calls limited to depth
`fuel`. -/
def finiteCCS_call_fuel : Nat → RecHandle finite_ccs (Bool × String) finite_ccs
  | 0 => fun _ => []
  | fuel + 1 => fun t => finiteCCS_rules.operator_call (finiteCCS_call_fuel fuel) t

/-- The call `finiteCCS_graph_Semantics(t)`: the recursion of the rules goes as deep as the
term. -/
def finiteCCS_call : RecHandle finite_ccs (Bool × String) finite_ccs :=
  fun t => finiteCCS_call_fuel (finite_ccs.depth_ptr t + 1) t

/-! ### The terms built in `main`, and two ternary compositions -/

/-- The deadlock `nil` of `main`. -/
def nil : Option finite_ccs := some finite_ccs.nil

/-- Untagged label `a`. -/
def a : Bool × String := (false, "a")

/-- Untagged label `b`. -/
def b : Bool × String := (false, "b")

/-- The term `a.0`. -/
def a_nil : Option finite_ccs := some (finite_ccs.prefixes [(a, nil)])

/-- The term `b.0`. -/
def b_nil : Option finite_ccs := some (finite_ccs.prefixes [(b, nil)])

/-- The term `a.b.0 + b.a.0`. -/
def abnil_banil : Option finite_ccs := some (finite_ccs.prefixes [(a, b_nil), (b, a_nil)])

/-- The term `a.0 | b.0`. -/
def anil_parall_bnil : Option finite_ccs := some (finite_ccs.parallel [a_nil, b_nil])

/-- The composition `0 | 0 | a.0` of three components, built with the vector
constructor. -/
def nil_nil_anil : Option finite_ccs := some (finite_ccs.parallel [nil, nil, a_nil])

/-- The composition `0 | 0 | 0` of three components. -/
def nil_nil_nil : Option finite_ccs := some (finite_ccs.parallel [nil, nil, nil])

/-! ## Structural hashing -/

/-- Arithmetic on `std::size_t`: results are taken modulo `2 ^ 64`. -/
def wrap (n : Nat) : Nat := n % 2 ^ 64

/-- The functor `KeyHasher<Key>`, over the `std::hash` of `Key`: `0` for the null pointer,
`hash(*k) * 2 + 1` otherwise. -/
def KeyHasher {Key : Type} (hash : Key → Nat) (k : Option Key) : Nat :=
  match k with
  | none => 0
  | some v => wrap (wrap (wrap (hash v) * 2) + 1)

/-- The specialisation `std::hash<std::vector<std::string>>`; `H` is `std::hash<std::string>`. -/
def hash_string_vector (H : String → Nat) (v : List String) : Nat :=
  v.foldl (fun compose k => wrap (compose + wrap (wrap (H k) * 7))) 31

mutual
/-- The specialisation `std::hash<finite_ccs>`; `H` is `std::hash<std::string>`. -/
def finite_ccs.hash (H : String → Nat) : finite_ccs → Nat
  | .mk c r p m =>
    match c with
    | .NIL => 1
    | .MultiPrefix => wrap (wrap (finite_ccs.hash_branches H 13 m * 8) + 4)
    | .ParallelComposition =>
      wrap (wrap ((((finite_ccs.hash_components H p)[0]?).getD 0 ^^^
        ((finite_ccs.hash_components H p)[1]?).getD 0) * 8) + 3)
    | .Restriction =>
      wrap (wrap ((hash_string_vector H r ^^^
        ((finite_ccs.hash_components H p)[0]?).getD 0) * 8) + 2)
/-- The values `operator()(*x.parallel_compose[i])`, for each index `i`. Dereferencing a null
pointer, and reading past the end, are undefined in the source; here they give `0`. -/
def finite_ccs.hash_components (H : String → Nat) : List (Option finite_ccs) → List Nat
  | [] => []
  | none :: rest => 0 :: finite_ccs.hash_components H rest
  | some t :: rest => finite_ccs.hash H t :: finite_ccs.hash_components H rest
/-- The loop of the MultiPrefix case over the branches still to be added to `base_case`. -/
def finite_ccs.hash_branches (H : String → Nat) (base_case : Nat) :
    List ((Bool × String) × Option finite_ccs) → Nat
  | [] => base_case
  | (k, none) :: rest =>
    finite_ccs.hash_branches H
      (wrap (base_case +
        wrap ((wrap (wrap (wrap (H k.2) * 2) + (if k.1 then 1 else 0)) ^^^ 0) * 7))) rest
  | (k, some t) :: rest =>
    finite_ccs.hash_branches H
      (wrap (base_case +
        wrap ((wrap (wrap (wrap (H k.2) * 2) + (if k.1 then 1 else 0)) ^^^
          finite_ccs.hash H t) * 7))) rest
end

mutual
/-- Well-formed finite CCS terms: every ParallelComposition has at least two components and
every Restriction has one body, in the term and in all the terms it points to. -/
def finite_ccs.well_formed : finite_ccs → Bool
  | .mk c _ p m =>
    (match c with
      | .ParallelComposition => decide (2 ≤ p.length)
      | .Restriction => decide (p.length = 1)
      | _ => true) &&
    finite_ccs.well_formed_components p && finite_ccs.well_formed_branches m
/-- All the components that are present are well-formed. -/
def finite_ccs.well_formed_components : List (Option finite_ccs) → Bool
  | [] => true
  | none :: rest => finite_ccs.well_formed_components rest
  | some t :: rest => finite_ccs.well_formed t && finite_ccs.well_formed_components rest
/-- All the continuations that are present are well-formed. -/
def finite_ccs.well_formed_branches : List ((Bool × String) × Option finite_ccs) → Bool
  | [] => true
  | (_, none) :: rest => finite_ccs.well_formed_branches rest
  | (_, some t) :: rest => finite_ccs.well_formed t && finite_ccs.well_formed_branches rest
end

/-- The term `a.0 + a.0`: the branch of `a.0` listed twice. -/
def anil_anil : finite_ccs := finite_ccs.prefixes [(a, nil), (a, nil)]

/-! ### Structural equality of finite CCS terms, as a specification -/

/-- The continuations of the branches of `mp` that carry the label `k`, in order. -/
def finite_ccs.continuations (k : Bool × String)
    (mp : List ((Bool × String) × Option finite_ccs)) : List (Option finite_ccs) :=
  (mp.filter (fun e => decide (e.1 = k))).map Prod.snd

/-- Every branch of `mp` has a branch of `mp'` with the same label and a structurally equal
continuation. -/
def finite_ccs.simulates (eq : finite_ccs → finite_ccs → Bool)
    (mp mp' : List ((Bool × String) × Option finite_ccs)) : Prop :=
  ∀ e ∈ mp, ∃ e' ∈ mp', e'.1 = e.1 ∧ KeyEqualizer eq e.2 e'.2 = true

/-- What `operator==` decides when the recursive calls decide `eq`: the case tags match and,
for MultiPrefix, the two branch lists hold the same branches up to `eq`; for
ParallelComposition, the first two components are pairwise equal; for Restriction, the label
lists are the same and the bodies are equal. -/
def finite_ccs.eq_spec (eq : finite_ccs → finite_ccs → Bool) (lhs rhs : finite_ccs) : Prop :=
  lhs.casus = rhs.casus ∧
  match lhs.casus with
  | .NIL => True
  | .MultiPrefix =>
    finite_ccs.simulates eq ( finite_ccs.multi_prefix lhs) ( finite_ccs.multi_prefix rhs) ∧
    finite_ccs.simulates eq ( finite_ccs.multi_prefix rhs) ( finite_ccs.multi_prefix lhs)
  | .ParallelComposition =>
    KeyEqualizer eq (finite_ccs.component lhs.parallel_compose 0)
      (finite_ccs.component rhs.parallel_compose 0) = true ∧
    KeyEqualizer eq (finite_ccs.component lhs.parallel_compose 1)
      (finite_ccs.component rhs.parallel_compose 1) = true
  | .Restriction =>
    lhs.restr_label = rhs.restr_label ∧
    KeyEqualizer eq (finite_ccs.component lhs.parallel_compose 0)
      (finite_ccs.component rhs.parallel_compose 0) = true

/-- The relation that agrees with `eq` on the terms of height at most `n` and puts all the
taller terms in one more class. -/
def finite_ccs.eq_upto (eq : finite_ccs → finite_ccs → Bool) (n : Nat)
    (x y : finite_ccs) : Bool :=
  if finite_ccs.depth x ≤ n ∧ finite_ccs.depth y ≤ n then eq x y
  else decide (n < finite_ccs.depth x) && decide (n < finite_ccs.depth y)

/-! ## examples/uint_arithmetics.cpp -/

/-- The inductive cases for unsigned expressions (`enum op_type`). -/
inductive op_type where
  | PLUS
  | MINUS
  | DIV
  | TIMES
  | VAL
  | EXPR
  deriving DecidableEq, Repr

/-- The structure `num_op`: value, operands, case tag. -/
inductive num_op where
  | mk (val : Nat) (left right : Option num_op) (casus : op_type)

namespace num_op

/-- Field `val`. -/
def val : num_op → Nat
  | mk v _ _ _ => v

/-- Field `left`. -/
def left : num_op → Option num_op
  | mk _ l _ _ => l

/-- Field `right`. -/
def right : num_op → Option num_op
  | mk _ _ r _ => r

/-- Field `casus`. -/
def casus : num_op → op_type
  | mk _ _ _ c => c

/-- Constructor `num_op(size_t val)`. -/
def number (val : Nat) : num_op := mk val none none .VAL

/-- Constructor `num_op(std::shared_ptr<num_op> arg)`; the field `val` is left
uninitialised by the source and is the parameter `junk` here. -/
def expr (junk : Nat) (arg : Option num_op) : num_op := mk junk arg none .EXPR

/-- Constructor `num_op(left, op, right)`; the field `val` is left uninitialised by the source
and is the parameter `junk` here. -/
def binary (junk : Nat) (left : Option num_op) (op : op_type) (right : Option num_op) :
    num_op :=
  mk junk left right op

/-- Height of an expression tree. -/
def depth : num_op → Nat
  | mk _ none none _ => 1
  | mk _ (some l) none _ => 1 + depth l
  | mk _ none (some r) _ => 1 + depth r
  | mk _ (some l) (some r) _ => 1 + max (depth l) (depth r)

/-- Height of the expression behind a pointer (`0` for the null pointer). -/
def depth_ptr : Option num_op → Nat
  | none => 0
  | some t => depth t

/-- The operator `num_op::operator==`. In the source expression `&&` binds tighter than
`?:`, which associates to the right, so that the expression reads
`(val == rhs.val && (left both-or-neither && left)) ? (*left == *rhs.left) :
 ((false && (right both-or-neither && right)) ? (*right == *rhs.right) :
 (false && casus == rhs.casus))`. -/
def operator_eq : num_op → num_op → Bool
  | mk val left right casus, rhs =>
    if (val == rhs.val && ((left.isSome == rhs.left.isSome) && left.isSome)) then
      (match left, rhs.left with
        | some l, some rl => operator_eq l rl
        | _, _ => false)
    else if (false && ((right.isSome == rhs.right.isSome) && right.isSome)) then
      (match right, rhs.right with
        | some r, some rr => operator_eq r rr
        | _, _ => false)
    else (false && casus == rhs.casus)

end num_op

/-! ### The rule table of `main` in uint_arithmetics.cpp -/

/-- The value `*L[0].second` of a non-empty result vector. The pointer is never null in the
results of the rules below; a null pointer (and an empty vector) give `0` here. -/
def first_value (L : Outcomes String Nat) : Nat :=
  match L with
  | [] => 0
  | e :: _ => e.2.getD 0

/-- Test of the none rule: `!arg`. -/
def none_test (arg : Option num_op) : Bool := arg.isNone

/-- Transform of the none rule. -/
def none_transform (_rec : RecHandle num_op String Nat) (_arg : Option num_op) :
    Outcomes String Nat :=
  [("none", some 0)]

/-- Test of the base case rule: `(arg) && arg->casus == VAL`. -/
def val_test (arg : Option num_op) : Bool :=
  match arg with
  | none => false
  | some t => t.casus == .VAL

/-- Transform of the base case rule. -/
def val_transform (_rec : RecHandle num_op String Nat) (arg : Option num_op) :
    Outcomes String Nat :=
  match arg with
  | none => []
  | some t => [("val", some t.val)]

/-- Test of the parenthesis rule: `(arg) && (arg->left) && arg->casus == EXPR`. -/
def expr_test (arg : Option num_op) : Bool :=
  match arg with
  | none => false
  | some t => t.left.isSome && t.casus == .EXPR

/-- Transform of the parenthesis rule: `return rec->operator()(arg->left)`. -/
def expr_transform (rec : RecHandle num_op String Nat) (arg : Option num_op) :
    Outcomes String Nat :=
  match arg with
  | none => []
  | some t => rec t.left

/-- Test shared by the four binary rules:
`(arg) && (arg->left) && (arg->right) && arg->casus == op`. -/
def binary_test (op : op_type) (arg : Option num_op) : Bool :=
  match arg with
  | none => false
  | some t => t.left.isSome && t.right.isSome && t.casus == op

/-- Transform of the PLUS rule. -/
def plus_transform (rec : RecHandle num_op String Nat) (arg : Option num_op) :
    Outcomes String Nat :=
  match arg with
  | none => []
  | some t =>
    let L := rec t.left
    let R := rec t.right
    if !L.isEmpty && !R.isEmpty then
      [("PLUS", some (wrap (first_value L + first_value R)))]
    else []

/-- Transform of the TIMES rule. -/
def times_transform (rec : RecHandle num_op String Nat) (arg : Option num_op) :
    Outcomes String Nat :=
  match arg with
  | none => []
  | some t =>
    let L := rec t.left
    let R := rec t.right
    if !L.isEmpty && !R.isEmpty then
      [("TIMES", some (wrap (first_value L * first_value R)))]
    else []

/-- Transform of the MINUS rule. -/
def minus_transform (rec : RecHandle num_op String Nat) (arg : Option num_op) :
    Outcomes String Nat :=
  match arg with
  | none => []
  | some t =>
    let L := rec t.left
    let R := rec t.right
    if !L.isEmpty && !R.isEmpty && decide (first_value L ≥ first_value R) then
      [("MINUS", some (first_value L - first_value R))]
    else []

/-- Transform of the DIV rule; its output label is the string `"MINUS"`, as in the source. -/
def div_transform (rec : RecHandle num_op String Nat) (arg : Option num_op) :
    Outcomes String Nat :=
  match arg with
  | none => []
  | some t =>
    let L := rec t.left
    let R := rec t.right
    if !L.isEmpty && !R.isEmpty && decide (first_value R > 0) then
      [("MINUS", some (first_value L / first_value R))]
    else []

/-- The rule table registered in `main` on `transformer`. -/
def transformer_rules : language_semantics num_op String Nat :=
  ((((((language_semantics.fresh.add_rule none_test none_transform).add_rule
    val_test val_transform).add_rule
    expr_test expr_transform).add_rule
    (binary_test .PLUS) plus_transform).add_rule
    (binary_test .TIMES) times_transform).add_rule
    (binary_test .MINUS) minus_transform).add_rule
    (binary_test .DIV) div_transform

/-- The dispatcher `transformer` with its recursive calls limited to depth `fuel`. -/
def transformer_fuel : Nat → RecHandle num_op String Nat
  | 0 => fun _ => []
  | fuel + 1 => fun t => transformer_rules.operator_call (transformer_fuel fuel) t

/-- The call `transformer(t)`: the recursion of the rules goes as deep as the expression. -/
def transformer : RecHandle num_op String Nat :=
  fun t => transformer_fuel (num_op.depth_ptr t + 1) t

/-! ### The expressions built in `main`, and the value of an expression -/

/-- The expression `one`. -/
def one : Option num_op := some (num_op.number 1)

/-- The expression `two`. -/
def two : Option num_op := some (num_op.number 2)

/-- The expression `three`. -/
def three : Option num_op := some (num_op.number 3)

/-- The expression `four`. -/
def four : Option num_op := some (num_op.number 4)

/-- The expression `zero`. -/
def zero : Option num_op := some (num_op.number 0)

/-- The expression `1 + 2`, whose field `val` is `junk`. -/
def one_plus_two (junk : Nat) : Option num_op := some (num_op.binary junk one .PLUS two)

/-- The expression `op1`: `(1 + 2) * 3`. -/
def op1 (junk junk' : Nat) : Option num_op :=
  some (num_op.binary junk' (one_plus_two junk) .TIMES three)

/-- The expression `op2`: `(1 + 2) / 3`. -/
def op2 (junk junk' : Nat) : Option num_op :=
  some (num_op.binary junk' (one_plus_two junk) .DIV three)

/-- The expression `op3`: `(1 + 2) - 3`. -/
def op3 (junk junk' : Nat) : Option num_op :=
  some (num_op.binary junk' (one_plus_two junk) .MINUS three)

/-- The expression `op4`: `(1 + 2) - 4`. -/
def op4 (junk junk' : Nat) : Option num_op :=
  some (num_op.binary junk' (one_plus_two junk) .MINUS four)

/-- The expression `op5`: `(1 + 2) / 0`. -/
def op5 (junk junk' : Nat) : Option num_op :=
  some (num_op.binary junk' (one_plus_two junk) .DIV zero)

/-- Well-formed expressions: `VAL` leaves holding a `size_t`, `EXPR` with a present
well-formed operand, binary nodes with two present well-formed operands. -/
def num_op.well_formed : num_op → Bool
  | .mk v none none c => c == .VAL && decide (v < 2 ^ 64)
  | .mk _ (some l) none c => c == .EXPR && num_op.well_formed l
  | .mk _ none (some _) _ => false
  | .mk _ (some l) (some r) c =>
    (c == .PLUS || c == .TIMES || c == .MINUS || c == .DIV) &&
      num_op.well_formed l && num_op.well_formed r

/-- The partial value of an expression in unsigned 64-bit arithmetic: a number is its value,
a parenthesis is its operand, `PLUS` and `TIMES` are taken modulo `2 ^ 64`, `MINUS` is
defined when the left value is at least the right one, `DIV` is the integer quotient and is
defined when the divisor is not zero. -/
def num_op.denote : num_op → Option Nat
  | .mk v none none .VAL => some v
  | .mk _ (some l) none .EXPR => num_op.denote l
  | .mk _ (some l) (some r) .PLUS =>
    match num_op.denote l, num_op.denote r with
    | some x, some y => some ((x + y) % 2 ^ 64)
    | _, _ => none
  | .mk _ (some l) (some r) .TIMES =>
    match num_op.denote l, num_op.denote r with
    | some x, some y => some ((x * y) % 2 ^ 64)
    | _, _ => none
  | .mk _ (some l) (some r) .MINUS =>
    match num_op.denote l, num_op.denote r with
    | some x, some y => if y ≤ x then some (x - y) else none
    | _, _ => none
  | .mk _ (some l) (some r) .DIV =>
    match num_op.denote l, num_op.denote r with
    | some x, some y => if 0 < y then some (x / y) else none
    | _, _ => none
  | _ => none

/-- The label of the outcome of an expression: `"val"` for a number, the label of its operand
for a parenthesis, `"PLUS"`, `"TIMES"`, `"MINUS"` for the operators of these names and
`"MINUS"` for `DIV`. -/
def num_op.label : num_op → String
  | .mk _ (some l) _ .EXPR => num_op.label l
  | .mk _ _ _ .EXPR => "val"
  | .mk _ _ _ .VAL => "val"
  | .mk _ _ _ .PLUS => "PLUS"
  | .mk _ _ _ .TIMES => "TIMES"
  | .mk _ _ _ .MINUS => "MINUS"
  | .mk _ _ _ .DIV => "MINUS"

/-! ### More finite CCS terms -/

/-- The term `0 | b.0`. -/
def nil_parall_bnil : Option finite_ccs := some (finite_ccs.parallel [nil, b_nil])

/-- The term `a.0 | 0`. -/
def anil_parall_nil : Option finite_ccs := some (finite_ccs.parallel [a_nil, nil])

/-- The term `0 | 0`. -/
def nil_parall_nil : Option finite_ccs := some (finite_ccs.parallel [nil, nil])

/-- The tagged label `a'`, complementary to `a`. -/
def a_bar : Bool × String := (true, "a")

/-- The term `a'.0`. -/
def abar_nil : Option finite_ccs := some (finite_ccs.prefixes [(a_bar, nil)])

/-- The term `0 | a'.0`. -/
def nil_parall_abarnil : Option finite_ccs := some (finite_ccs.parallel [nil, abar_nil])

/-- The term `a.0 | a'.0`. -/
def anil_parall_abarnil : Option finite_ccs := some (finite_ccs.parallel [a_nil, abar_nil])

/-! ### The synchronisation policy of the parallel rule, as a specification -/

/-- An offer: the index of a component together with one outcome of that component. -/
abbrev offer : Type := Nat × ((Bool × String) × Option finite_ccs)

/-- All the offers of a composition: for each component index `i` in increasing order, the
outcomes of component `i` in the order the dispatcher returns them. -/
def parallel_offers (rec : RecHandle finite_ccs (Bool × String) finite_ccs)
    (t : finite_ccs) : List offer :=
  (List.range t.parallel_compose.length).flatMap (fun i =>
    (rec (finite_ccs.component t.parallel_compose i)).map (fun e => (i, e)))

/-- The interleaved outcomes: each offer `(i, (l, s))` gives the outcome `l` to the term
with component `i` replaced by `s`. -/
def interleavings (t : finite_ccs) (offers : List offer) :
    Outcomes (Bool × String) finite_ccs :=
  offers.map (fun o => (o.2.1, some (t.set_component o.1 o.2.2)))

/-- The channel names other than `tau` that occur in the offers, each once, in the order of
their first occurrence. -/
def offered_names (offers : List offer) : List String :=
  offers.foldl (fun ns o => if o.2.1.2 ≠ tau ∧ o.2.1.2 ∉ ns then ns ++ [o.2.1.2] else ns) []

/-- The offers of polarity `p` on the channel `n`: component index and successor. -/
def offers_on (p : Bool) (n : String) (offers : List offer) :
    List (Nat × Option finite_ccs) :=
  (offers.filter (fun o => decide (o.2.1 = (p, n)))).map (fun o => (o.1, o.2.2))

/-- The synchronisations: one `tauPair` outcome for each channel name `n` other than `tau`,
each offer `((true, n), s_i)` of a component `i` and each offer `((false, n), s_j)` of a
component `j` different from `i`; its successor has component `i` replaced by `s_i` and
component `j` replaced by `s_j`. -/
def synchronisations (t : finite_ccs) (offers : List offer) :
    Outcomes (Bool × String) finite_ccs :=
  (offered_names offers).flatMap (fun n =>
    (offers_on true n offers).flatMap (fun i =>
      (offers_on false n offers).flatMap (fun j =>
        if i.1 ≠ j.1 then
          [(tauPair, some ((t.set_component i.1 i.2).set_component j.1 j.2))]
        else [])))

/-- The offers filed under their channel names: the map the first phase of the parallel rule
is to build. -/
def grouped_offers (offers : List offer) : offer_map :=
  (offered_names offers).map (fun n =>
    (n, (offers_on true n offers, offers_on false n offers)))

/-- Filing one offer in the map, as the first phase of the parallel rule does. -/
def file_offer (m : offer_map) (o : offer) : offer_map :=
  if o.2.1.2 ≠ tau then
    if o.2.1.1 then
      map_update label_eq ([], []) (fun p => (p.1 ++ [(o.1, o.2.2)], p.2)) o.2.1.2 m
    else
      map_update label_eq ([], []) (fun p => (p.1, p.2 ++ [(o.1, o.2.2)])) o.2.1.2 m
  else m

/-! ### Terms with a restriction, and a composition of one component -/

/-- The term `(a.0 | a'.0) \ {a}`, built with the restriction constructor. -/
def restricted_sync : Option finite_ccs :=
  some (finite_ccs.restriction ["a"] anil_parall_abarnil)

/-- The term `(0 | 0) \ {a}`. -/
def restricted_done : Option finite_ccs :=
  some (finite_ccs.restriction ["a"] nil_parall_nil)

/-- The composition of the single component `a.0`, built with the vector constructor:
`finite_ccs(multiparall{a_nil})`. -/
def single_anil : Option finite_ccs := some (finite_ccs.parallel [a_nil])

/-- The composition of the single component `0`. -/
def single_nil : Option finite_ccs := some (finite_ccs.parallel [nil])

/-! ### Hashing and comparing with the subscripts checked -/

/-- The call `std::hash<finite_ccs>()(x)` with the subscripts `x.parallel_compose[i]` of the
outermost call checked against the size of the vector: `none` when a subscript is past the
end, the hash value otherwise. -/
def finite_ccs.hash_checked (H : String → Nat) (x : finite_ccs) : Option Nat :=
  match x.casus with
  | .NIL => some (finite_ccs.hash H x)
  | .MultiPrefix => some (finite_ccs.hash H x)
  | .ParallelComposition =>
    match x.parallel_compose[0]?, x.parallel_compose[1]? with
    | some _, some _ => some (finite_ccs.hash H x)
    | _, _ => none
  | .Restriction =>
    match x.parallel_compose[0]? with
    | some _ => some (finite_ccs.hash H x)
    | none => none

/-- The call `lhs == rhs` of `finite_ccs::operator==` with the subscripts
`parallel_compose[i]` of the outermost call checked against the sizes of the two vectors:
`none` when a subscript that is evaluated is past the end, the result otherwise. -/
def finite_ccs.eq_checked (lhs rhs : finite_ccs) : Option Bool :=
  if lhs.casus ≠ rhs.casus then some false
  else
    match lhs.casus with
    | .NIL => some true
    | .MultiPrefix => some (finite_ccs.operator_eq lhs rhs)
    | .ParallelComposition =>
      match lhs.parallel_compose[0]?, rhs.parallel_compose[0]? with
      | some l0, some r0 =>
        if !KeyEqualizer finite_ccs.operator_eq l0 r0 then some false
        else
          match lhs.parallel_compose[1]?, rhs.parallel_compose[1]? with
          | some l1, some r1 => some (KeyEqualizer finite_ccs.operator_eq l1 r1)
          | _, _ => none
      | _, _ => none
    | .Restriction =>
      if lhs.restr_label ≠ rhs.restr_label then some false
      else
        match lhs.parallel_compose[0]?, rhs.parallel_compose[0]? with
        | some l0, some r0 => some (KeyEqualizer finite_ccs.operator_eq l0 r0)
        | _, _ => none


/-! ### The size of a finite CCS term -/

mutual
/-- The number of prefix branches occurring in a term, counted over the whole term tree:
the branches of the term itself, those of the continuations of its branches and those of its
components. -/
def finite_ccs.branch_count : finite_ccs → Nat
  | .mk _ _ p m => finite_ccs.branch_count_components p + finite_ccs.branch_count_branches m
/-- The prefix branches occurring in the components that are present. -/
def finite_ccs.branch_count_components : List (Option finite_ccs) → Nat
  | [] => 0
  | none :: rest => finite_ccs.branch_count_components rest
  | some t :: rest => finite_ccs.branch_count t + finite_ccs.branch_count_components rest
/-- The branches of a branch list, with the prefix branches occurring in their
continuations. -/
def finite_ccs.branch_count_branches : List ((Bool × String) × Option finite_ccs) → Nat
  | [] => 0
  | (_, none) :: rest => 1 + finite_ccs.branch_count_branches rest
  | (_, some t) :: rest =>
    1 + finite_ccs.branch_count t + finite_ccs.branch_count_branches rest
end

/-- The number of prefix branches of the term behind a pointer (`0` for the null
pointer). -/
def finite_ccs.branch_count_ptr : Option finite_ccs → Nat
  | none => 0
  | some t => finite_ccs.branch_count t

/-! ### The MultiPrefix case of `operator==` with the addresses of the pointers

The comparison `multimapLHS[k] != multimapRHS[k]` of two `transition_node_set`s is the
`operator==` of `std::unordered_set`: it looks, for each element of one set, for an element
of the other set that is `==` to it as a `std::shared_ptr`, that is, that holds the same
address. Elsewhere in this development a pointer is the term it points to; here it also
carries its address, so that this comparison can be evaluated on pointers that point to equal
terms at different addresses. -/

/-- A `std::shared_ptr<finite_ccs>` together with the address it holds: the value of `get()`
and the term it points to. -/
abbrev located_ptr : Type := Nat × Option finite_ccs

/-- A branch list whose continuations carry their addresses. -/
abbrev located_branches : Type := List ((Bool × String) × located_ptr)

/-- The branch list without the addresses, as it is embedded elsewhere. -/
def forget_addresses (mp : located_branches) : List ((Bool × String) × Option finite_ccs) :=
  mp.map (fun e => (e.1, e.2.2))

/-- The method `emplace(x)` of a `transition_node_set` on located pointers: `KeyEqualizer`
reads the terms pointed to. -/
def located_emplace (eq : finite_ccs → finite_ccs → Bool) (s : List located_ptr)
    (x : located_ptr) : List located_ptr :=
  if s.any (fun y => KeyEqualizer eq x.2 y.2) then s else s ++ [x]

/-- The map `multimapLHS` (`multimapRHS`) on located pointers. -/
def located_multimap (eq : finite_ccs → finite_ccs → Bool) (mp : located_branches) :
    List ((Bool × String) × List located_ptr) :=
  mp.foldl (fun m e =>
    map_update label_eq [] (fun set => located_emplace eq set e.2) e.1 m) []

/-- The `operator==` of two `transition_node_set`s, which `!=` negates: the sizes are the
same and every element of the first set has, among the elements of the second set that
`KeyEqualizer` accepts for it, one that is `==` to it as a `std::shared_ptr`: one holding the
same address. -/
def located_set_eq (eq : finite_ccs → finite_ccs → Bool) (a b : List located_ptr) : Bool :=
  a.length == b.length &&
    a.all (fun x => b.any (fun y => KeyEqualizer eq x.2 y.2 && x.1 == y.1))

/-- The MultiPrefix case of `finite_ccs::operator==` on two branch lists whose continuations
carry their addresses; `eq` stands for `operator==` on the terms pointed to. -/
def located_multi_prefix_eq (eq : finite_ccs → finite_ccs → Bool)
    (lhs rhs : located_branches) : Bool :=
  let LS := finite_ccs.label_set (forget_addresses lhs)
  let RS := finite_ccs.label_set (forget_addresses rhs)
  let multimapLHS := located_multimap eq lhs
  let multimapRHS := located_multimap eq rhs
  if !finite_ccs.label_set_eq LS RS then false
  else
    LS.all (fun k =>
      located_set_eq eq
        ((map_find label_eq k multimapLHS).getD [])
        ((map_find label_eq k multimapRHS).getD []))

/-- The value `operator()(*v)` of the hash of the term behind a continuation pointer;
dereferencing a null pointer is undefined in the source and gives `0` here, as in
`finite_ccs.hash_branches`. -/
def finite_ccs.hash_ptr (H : String → Nat) : Option finite_ccs → Nat
  | none => 0
  | some t => finite_ccs.hash H t

/-- The term one branch `(k, v)` adds to `base_case` in the MultiPrefix case of the hash:
`((H(k.second) * 2 + (k.first ? 1 : 0)) ^ operator()(*v)) * 7`. -/
def finite_ccs.branch_term (H : String → Nat) (e : (Bool × String) × Option finite_ccs) :
    Nat :=
  wrap ((wrap (wrap (wrap (H e.1.2) * 2) + (if e.1.1 then 1 else 0)) ^^^
    finite_ccs.hash_ptr H e.2) * 7)

/-! ### Looking a key up by its hash code -/

/-- The relation under which a `std::unordered_set` or `std::unordered_map` keyed by
`KeyHasher` over `hash` and by `KeyEqualizer` over `eq` finds a stored key for a given one:
the two keys have the same hash code and `eq` accepts them. The container keeps the hash code
of every stored key (the hasher is not declared `noexcept`), looks in the bucket of the hash
code of the given key only, and compares the hash codes before it calls the key equality. -/
def hashed_eq {Key : Type} (hash : Key → Nat) (eq : Key → Key → Bool) (a b : Key) : Bool :=
  (KeyHasher hash (some a) == KeyHasher hash (some b)) && eq a b

/-! ### The terms stored by the explorer -/

section Within

variable {TransitionNode TransitionLabel : Type}

/-- All the terms stored in a graph belong to the list `D`. -/
def graph_within (D : List (Option TransitionNode))
    (g : transition_graph TransitionNode TransitionLabel) : Prop :=
  ∀ e ∈ g, e.1 ∈ D ∧ ∀ a ∈ e.2, ∀ z ∈ a.2, z ∈ D

/-- All the terms stored in a state of the loop belong to the list `D`. -/
def state_within (D : List (Option TransitionNode))
    (st : visit_state TransitionNode TransitionLabel) : Prop :=
  (∀ x ∈ st.S, x ∈ D) ∧ (∀ x ∈ st.visited_nodes, x ∈ D) ∧
    graph_within D st.forward_transition_graph

end Within

/-! ### Finite CCS terms on which the explorer is evaluated -/

/-- The label `x`. -/
def x_label : Bool × String := (false, "x")

/-- The label `y`. -/
def y_label : Bool × String := (false, "y")

/-- The root `x.(0 | 0 | a.0) + y.(0 | 0 | 0)`. -/
def choice_of_compositions : Option finite_ccs :=
  some (finite_ccs.prefixes [(x_label, nil_nil_anil), (y_label, nil_nil_nil)])

/-- A `finite_ccs` object whose pointers carry the address they hold. -/
inductive located_ccs where
  | mk (casus : finite_ccs_process_cases) (restr_label : List String)
      (parallel_compose : List (Option (Nat × located_ccs)))
      ( multi_prefix : List ((Bool × String) × Option (Nat × located_ccs)))

namespace located_ccs

/-- Field `casus`. -/
def casus : located_ccs → finite_ccs_process_cases
  | mk c _ _ _ => c

/-- Field `restr_label`. -/
def restr_label : located_ccs → List String
  | mk _ r _ _ => r

/-- Field `parallel_compose`. -/
def parallel_compose : located_ccs → List (Option (Nat × located_ccs))
  | mk _ _ p _ => p

/-- Field `multi_prefix`. -/
def multi_prefix : located_ccs → List ((Bool × String) × Option (Nat × located_ccs))
  | mk _ _ _ m => m

mutual
/-- The term without the addresses, as it is embedded elsewhere. -/
def forget : located_ccs → finite_ccs
  | mk c r p m => finite_ccs.mk c r (forget_components p) (forget_branches m)
/-- The components without the addresses. -/
def forget_components : List (Option (Nat × located_ccs)) → List (Option finite_ccs)
  | [] => []
  | none :: rest => none :: forget_components rest
  | some (_, t) :: rest => some (forget t) :: forget_components rest
/-- The branches without the addresses. -/
def forget_branches : List ((Bool × String) × Option (Nat × located_ccs)) →
    List ((Bool × String) × Option finite_ccs)
  | [] => []
  | (k, none) :: rest => (k, none) :: forget_branches rest
  | (k, some (_, t)) :: rest => (k, some (forget t)) :: forget_branches rest
end

mutual
/-- Height of a term tree. -/
def depth : located_ccs → Nat
  | mk _ _ p m => 1 + max (depth_components p) (depth_branches m)
/-- Largest height among the components. -/
def depth_components : List (Option (Nat × located_ccs)) → Nat
  | [] => 0
  | none :: rest => depth_components rest
  | some (_, t) :: rest => max (depth t) (depth_components rest)
/-- Largest height among the continuations of the branches. -/
def depth_branches : List ((Bool × String) × Option (Nat × located_ccs)) → Nat
  | [] => 0
  | (_, none) :: rest => depth_branches rest
  | (_, some (_, t)) :: rest => max (depth t) (depth_branches rest)
end

/-- Height of the term behind a pointer (`0` for the null pointer). -/
def depth_ptr : Option (Nat × located_ccs) → Nat
  | none => 0
  | some (_, t) => depth t

/-- The address a pointer holds, the value of `get()`: `0` for the null pointer. -/
def address : Option (Nat × located_ccs) → Nat
  | none => 0
  | some (n, _) => n

/-- The subscript `v[i]` of a vector of pointers. Reading past the end is undefined in the
source; here it yields the null pointer. -/
def component (v : List (Option (Nat × located_ccs))) (i : Nat) :
    Option (Nat × located_ccs) :=
  (v[i]?).getD none

/-- The expression `*x == *y` on two present pointers, `eq` being `operator==` on the objects:
the addresses are not read. -/
def pointee_eq (eq : located_ccs → located_ccs → Bool) (x y : Nat × located_ccs) : Bool :=
  eq x.2 y.2

/-- The value of `std::hash<finite_ccs>` on the object behind a present pointer: the hash
reads no address. -/
def pointee_hash (H : String → Nat) (x : Nat × located_ccs) : Nat :=
  finite_ccs.hash H (forget x.2)

/-- The `std::set` of the labels of a branch list (`LS`, `RS`), without repetition. -/
def label_set (mp : List ((Bool × String) × Option (Nat × located_ccs))) :
    List (Bool × String) :=
  mp.foldl (fun LS e => if LS.contains e.1 then LS else LS ++ [e.1]) []

/-- The map `multimapLHS` (`multimapRHS`): for each `(k, v)`, `multimap[k].emplace(v)`, the
set looking `v` up by its hash code. -/
def multimap (H : String → Nat) (eq : located_ccs → located_ccs → Bool)
    (mp : List ((Bool × String) × Option (Nat × located_ccs))) :
    List ((Bool × String) × transition_node_set (Nat × located_ccs)) :=
  mp.foldl (fun m e =>
    map_update label_eq []
      (fun set => transition_node_set.emplace
        (hashed_eq (pointee_hash H) (pointee_eq eq)) set e.2) e.1 m) []

/-- The `operator==` of two `transition_node_set`s, which `!=` negates: the sizes are the same
and every element of the first set has, among the elements of the second set that
`KeyEqualizer` accepts for it, one that is `==` to it as a `std::shared_ptr`: one holding the
same address. -/
def node_set_eq (eq : located_ccs → located_ccs → Bool)
    (a b : transition_node_set (Nat × located_ccs)) : Bool :=
  a.length == b.length &&
    a.all (fun x => b.any (fun y =>
      KeyEqualizer (pointee_eq eq) x y && address x == address y))

/-- The body of `finite_ccs::operator==` on terms with addresses; `eq` stands for the
recursive calls of the operator, which all go through `KeyEqualizer<finite_ccs>`, and `H` is
`std::hash<std::string>`. -/
def eq_body (H : String → Nat) (eq : located_ccs → located_ccs → Bool)
    (lhs rhs : located_ccs) : Bool :=
  if lhs.casus ≠ rhs.casus then false
  else
    match lhs.casus with
    | .NIL => true
    | .MultiPrefix =>
      let LS := label_set ( multi_prefix lhs)
      let RS := label_set ( multi_prefix rhs)
      let multimapLHS := multimap H eq ( multi_prefix lhs)
      let multimapRHS := multimap H eq ( multi_prefix rhs)
      if !finite_ccs.label_set_eq LS RS then false
      else
        LS.all (fun k =>
          node_set_eq eq
            ((map_find label_eq k multimapLHS).getD [])
            ((map_find label_eq k multimapRHS).getD []))
    | .ParallelComposition =>
      if !KeyEqualizer (pointee_eq eq)
          (component lhs.parallel_compose 0) (component rhs.parallel_compose 0) then false
      else
        KeyEqualizer (pointee_eq eq)
          (component lhs.parallel_compose 1) (component rhs.parallel_compose 1)
    | .Restriction =>
      if lhs.restr_label ≠ rhs.restr_label then false
      else
        KeyEqualizer (pointee_eq eq)
          (component lhs.parallel_compose 0) (component rhs.parallel_compose 0)

/-- The operator `finite_ccs::operator==` on terms with addresses, its recursion limited to
depth `fuel`. -/
def eq_fuel (H : String → Nat) : Nat → located_ccs → located_ccs → Bool
  | 0, _, _ => false
  | fuel + 1, lhs, rhs => eq_body H (eq_fuel H fuel) lhs rhs

/-- The operator `finite_ccs::operator==` on terms with addresses: the recursion goes as deep
as the taller of the two terms. -/
def operator_eq (H : String → Nat) (lhs rhs : located_ccs) : Bool :=
  eq_fuel H (max (depth lhs) (depth rhs)) lhs rhs

/-- The pointers `operator==` reads in a term: the first two components and the
continuations of the branches. -/
def children (t : located_ccs) : List (Option (Nat × located_ccs)) :=
  [component t.parallel_compose 0, component t.parallel_compose 1] ++
    List.map Prod.snd ( multi_prefix t)

mutual
/-- Well-formed terms: every ParallelComposition has at least two components and every
Restriction has one body, in the term and in all the terms it points to. -/
def well_formed : located_ccs → Bool
  | mk c _ p m =>
    (match c with
      | .ParallelComposition => decide (2 ≤ p.length)
      | .Restriction => decide (p.length = 1)
      | _ => true) &&
    well_formed_components p && well_formed_branches m
/-- All the components that are present are well-formed. -/
def well_formed_components : List (Option (Nat × located_ccs)) → Bool
  | [] => true
  | none :: rest => well_formed_components rest
  | some (_, t) :: rest => well_formed t && well_formed_components rest
/-- All the continuations that are present are well-formed. -/
def well_formed_branches : List ((Bool × String) × Option (Nat × located_ccs)) → Bool
  | [] => true
  | (_, none) :: rest => well_formed_branches rest
  | (_, some (_, t)) :: rest => well_formed t && well_formed_branches rest
end

mutual
/-- All the pointers that occur in a term, at any depth. -/
def pointers : located_ccs → List (Option (Nat × located_ccs))
  | mk _ _ p m => pointers_components p ++ pointers_branches m
/-- The components, with the pointers that occur in them. -/
def pointers_components :
    List (Option (Nat × located_ccs)) → List (Option (Nat × located_ccs))
  | [] => []
  | none :: rest => none :: pointers_components rest
  | some (n, t) :: rest => some (n, t) :: (pointers t ++ pointers_components rest)
/-- The continuations of the branches, with the pointers that occur in them. -/
def pointers_branches : List ((Bool × String) × Option (Nat × located_ccs)) →
    List (Option (Nat × located_ccs))
  | [] => []
  | (_, none) :: rest => none :: pointers_branches rest
  | (_, some (n, t)) :: rest => some (n, t) :: (pointers t ++ pointers_branches rest)
end

/-- The set `multimap[k]` built from the branch list of a term. -/
def successor_set (H : String → Nat) (eq : located_ccs → located_ccs → Bool)
    (k : Bool × String) (t : located_ccs) : transition_node_set (Nat × located_ccs) :=
  (map_find label_eq k (multimap H eq ( multi_prefix t))).getD []

/-- What `operator==` decides when the recursive calls decide `eq`: the case tags match and,
for MultiPrefix, the two label sets are the same and, label by label, the two successor sets
hold the same pointers; for ParallelComposition, the first two components are pairwise
equal; for Restriction, the label lists are the same and the bodies are equal. -/
def eq_spec (H : String → Nat) (eq : located_ccs → located_ccs → Bool)
    (lhs rhs : located_ccs) : Prop :=
  lhs.casus = rhs.casus ∧
  match lhs.casus with
  | .NIL => True
  | .MultiPrefix =>
    (∀ k, k ∈ label_set ( multi_prefix lhs) ↔ k ∈ label_set ( multi_prefix rhs)) ∧
    ∀ k ∈ label_set ( multi_prefix lhs),
      node_set_eq eq (successor_set H eq k lhs) (successor_set H eq k rhs) = true
  | .ParallelComposition =>
    KeyEqualizer (pointee_eq eq) (component lhs.parallel_compose 0)
      (component rhs.parallel_compose 0) = true ∧
    KeyEqualizer (pointee_eq eq) (component lhs.parallel_compose 1)
      (component rhs.parallel_compose 1) = true
  | .Restriction =>
    lhs.restr_label = rhs.restr_label ∧
    KeyEqualizer (pointee_eq eq) (component lhs.parallel_compose 0)
      (component rhs.parallel_compose 0) = true

/-- The term lies in memory: any two pointers that occur in it and hold the same address are
the same pointer, to the same object. -/
def in_memory (t : located_ccs) : Prop :=
  ∀ p ∈ pointers t, ∀ q ∈ pointers t, address p = address q → p = q

end located_ccs

/-- The deadlock term at the address `n`. -/
def nil_at (n : Nat) : Option (Nat × located_ccs) := some (n, located_ccs.mk .NIL [] [] [])

/-- The term `a.0 + b.0`, the two deadlock terms being at the addresses `1` and `2`. -/
def located_a_b : located_ccs :=
  located_ccs.mk .MultiPrefix [] [] [(a, nil_at 1), (b, nil_at 2)]

/-- The term `b.0 + a.0` on the same two deadlock terms. -/
def located_b_a : located_ccs :=
  located_ccs.mk .MultiPrefix [] [] [(b, nil_at 2), (a, nil_at 1)]

/-- The term `b.0 + a.0 + a.0`, whose last branch holds the pointer of the branch before. -/
def located_b_a_a : located_ccs :=
  located_ccs.mk .MultiPrefix [] [] [(b, nil_at 2), (a, nil_at 1), (a, nil_at 1)]

/-- The term `a.0` on a deadlock term at the address `1`. -/
def located_a_1 : located_ccs := located_ccs.mk .MultiPrefix [] [] [(a, nil_at 1)]

/-- The term `a.0` on another deadlock term, at the address `2`. -/
def located_a_2 : located_ccs := located_ccs.mk .MultiPrefix [] [] [(a, nil_at 2)]

/-- The term `a.0 + a.0`, the same branch listed twice, on the deadlock term at the address
`1`. -/
def located_a_a : located_ccs :=
  located_ccs.mk .MultiPrefix [] [] [(a, nil_at 1), (a, nil_at 1)]

/-! ### A small system used to instantiate the general statements -/

/-- Natural numbers compared by parity: a structural equality with two classes. -/
def parity_eq (a b : Nat) : Bool := a % 2 == b % 2

/-- The counter: the only outcome of `n` is its successor, so that every number is
reachable from `0` while there are two states up to `parity_eq`, on a cycle. -/
def counter_dispatch : RecHandle Nat String Nat
  | none => []
  | some n => [("tick", some (n + 1))]

/-! ## Theorems: dispatcher and key equality -/

section DispatcherTheorems

variable {InputType TransitionType ResultType : Type}

theorem scan_rules_no_match (this : RecHandle InputType TransitionType ResultType)
    (rules : List (semantics_rule InputType TransitionType ResultType))
    (t : Option InputType) (h : ∀ r ∈ rules, r.1 t = false) :
    language_semantics.scan_rules this rules t = [] := by
  induction rules with
  | nil => rfl
  | cons r rest ih =>
    obtain ⟨test, transform⟩ := r
    have h1 : test t = false := h (test, transform) (List.mem_cons_self _ _)
    have h2 : ∀ r ∈ rest, r.1 t = false := fun r hr => h r (List.mem_cons_of_mem _ hr)
    simp [language_semantics.scan_rules, h1, ih h2]

theorem scan_rules_first_match (this : RecHandle InputType TransitionType ResultType)
    (pre post : List (semantics_rule InputType TransitionType ResultType))
    (r : semantics_rule InputType TransitionType ResultType)
    (t : Option InputType) (hpre : ∀ p ∈ pre, p.1 t = false) (hr : r.1 t = true) :
    language_semantics.scan_rules this (pre ++ r :: post) t = r.2 this t := by
  induction pre with
  | nil =>
    obtain ⟨test, transform⟩ := r
    simp only [List.nil_append, language_semantics.scan_rules]
    simp only at hr
    simp [hr]
  | cons p rest ih =>
    obtain ⟨test, transform⟩ := p
    have h1 : test t = false := hpre (test, transform) (List.mem_cons_self _ _)
    have h2 : ∀ q ∈ rest, q.1 t = false := fun q hq => hpre q (List.mem_cons_of_mem _ hq)
    simp [language_semantics.scan_rules, h1, ih h2]

/-- C1: when no registered predicate returns true on the term `t` (absent or present),
`operator()(t)` returns the empty sequence, whatever the rule list and the handle; and the
dispatcher without rules returns the empty sequence for every term. -/
theorem operator_call_no_match_empty
    (self : language_semantics InputType TransitionType ResultType)
    (this : RecHandle InputType TransitionType ResultType) (t : Option InputType)
    (h : ∀ r ∈ self.rules_by_priority, r.1 t = false) :
    self.operator_call this t = [] ∧
      (language_semantics.fresh :
        language_semantics InputType TransitionType ResultType).operator_call this t = [] :=
  ⟨scan_rules_no_match this self.rules_by_priority t h, rfl⟩

/-- Witness of C1: a dispatcher whose single rule applies to present terms only is called on
the absent term. -/
theorem operator_call_no_match_empty_witness :
    (∀ r ∈ ((language_semantics.fresh : language_semantics Nat String Nat).add_rule
        (fun t => t.isSome) (fun _ t => [("id", t)])).rules_by_priority, r.1 none = false) ∧
    ((language_semantics.fresh : language_semantics Nat String Nat).add_rule
        (fun t => t.isSome) (fun _ t => [("id", t)])).operator_call (fun _ => []) none = [] :=
  ⟨by simp [language_semantics.add_rule, language_semantics.fresh],
   (operator_call_no_match_empty _ _ none
      (by simp [language_semantics.add_rule, language_semantics.fresh])).1⟩

/-- C2: `add_rule` appends the new rule after the rules registered before, so that the order
of `rules_by_priority` is the order of registration; and when the rule list is
`pre ++ r :: post`, no predicate of `pre` holds on `t` and the predicate of `r` holds on
`t`, `operator()(t)` returns exactly what the transform of `r` returns when called with the
dispatcher handle and `t`; the rules of `post` play no part, whatever their predicates and
transforms are. -/
theorem operator_call_first_match
    (self : language_semantics InputType TransitionType ResultType)
    (this : RecHandle InputType TransitionType ResultType)
    (pre post : List (semantics_rule InputType TransitionType ResultType))
    (r : semantics_rule InputType TransitionType ResultType) (t : Option InputType)
    (hrules : self.rules_by_priority = pre ++ r :: post)
    (hpre : ∀ p ∈ pre, p.1 t = false) (hr : r.1 t = true) :
    self.operator_call this t = r.2 this t ∧
    ∀ f1 f2, (self.add_rule f1 f2).rules_by_priority =
      pre ++ r :: (post ++ [(f1, f2)]) := by
  constructor
  · unfold language_semantics.operator_call
    rw [hrules]
    exact scan_rules_first_match this pre post r t hpre hr
  · intro f1 f2
    simp [language_semantics.add_rule, hrules]

/-- Witness of C2: two overlapping rules; the first one returns the empty sequence, the
second one would return an outcome, and the call returns the empty sequence. -/
theorem operator_call_first_match_witness :
    (((language_semantics.fresh : language_semantics Nat String Nat).add_rule
        (fun _ => true) (fun _ _ => [])).add_rule
        (fun _ => true) (fun _ t => [("late", t)])).operator_call (fun _ => []) (some 7) = [] :=
  (operator_call_first_match _ _ [] [((fun _ => true), (fun _ t => [("late", t)]))]
    ((fun _ => true), (fun _ _ => [])) (some 7) rfl (by simp) rfl).1

end DispatcherTheorems

/-- C10: `KeyEqualizer` is true on two absent references, false when exactly one reference
is absent, and is `*x == *y` on two present references. -/
theorem KeyEqualizer_cases {Key : Type} (eq : Key → Key → Bool) :
    KeyEqualizer eq none none = true ∧
    (∀ a : Key, KeyEqualizer eq (some a) none = false ∧
      KeyEqualizer eq none (some a) = false) ∧
    (∀ a b : Key, KeyEqualizer eq (some a) (some b) = eq a b) := by
  refine ⟨rfl, fun a => ⟨rfl, rfl⟩, fun a b => ?_⟩
  simp [KeyEqualizer, derefEq]

/-! ## Lemmas: key equality and containers -/

section ContainerLemmas

variable {TransitionNode TransitionLabel : Type} [DecidableEq TransitionLabel]
variable {eq : TransitionNode → TransitionNode → Bool}

theorem KeyEqualizer_refl (h : EqIsEquivalence eq) (x : Option TransitionNode) :
    KeyEqualizer eq x x = true := by
  cases x with
  | none => rfl
  | some a => simp [KeyEqualizer, derefEq, h.refl a]

theorem KeyEqualizer_symm (h : EqIsEquivalence eq) {x y : Option TransitionNode}
    (hxy : KeyEqualizer eq x y = true) : KeyEqualizer eq y x = true := by
  cases x <;> cases y <;> simp_all [KeyEqualizer, derefEq]
  exact h.symm _ _ hxy

theorem KeyEqualizer_trans (h : EqIsEquivalence eq) {x y z : Option TransitionNode}
    (hxy : KeyEqualizer eq x y = true) (hyz : KeyEqualizer eq y z = true) :
    KeyEqualizer eq x z = true := by
  cases x <;> cases y <;> cases z <;> simp_all [KeyEqualizer, derefEq]
  exact h.trans _ _ _ hxy hyz

theorem KeyEqualizer_congr_left (h : EqIsEquivalence eq) {x y : Option TransitionNode}
    (hxy : KeyEqualizer eq x y = true) (z : Option TransitionNode) :
    KeyEqualizer eq x z = KeyEqualizer eq y z := by
  cases hz : KeyEqualizer eq y z with
  | true => exact KeyEqualizer_trans h hxy hz
  | false =>
    cases hx : KeyEqualizer eq x z with
    | false => rfl
    | true =>
      have := KeyEqualizer_trans h (KeyEqualizer_symm h hxy) hx
      rw [hz] at this
      exact this.symm

theorem contains_iff (s : transition_node_set TransitionNode) (x : Option TransitionNode) :
    transition_node_set.contains eq s x = true ↔ ∃ y ∈ s, KeyEqualizer eq x y = true := by
  simp [transition_node_set.contains, List.any_eq_true]

theorem contains_eq_false_iff (eq : TransitionNode → TransitionNode → Bool)
    (s : transition_node_set TransitionNode)
    (x : Option TransitionNode) :
    transition_node_set.contains eq s x = false ↔ ∀ y ∈ s, KeyEqualizer eq x y = false := by
  simp [transition_node_set.contains, List.any_eq_false]

theorem contains_congr (h : EqIsEquivalence eq) (s : transition_node_set TransitionNode)
    {x y : Option TransitionNode} (hxy : KeyEqualizer eq x y = true) :
    transition_node_set.contains eq s x = transition_node_set.contains eq s y := by
  unfold transition_node_set.contains
  congr 1
  funext z
  exact KeyEqualizer_congr_left h hxy z

theorem contains_append (s t : transition_node_set TransitionNode)
    (x : Option TransitionNode) :
    transition_node_set.contains eq (s ++ t) x =
      (transition_node_set.contains eq s x || transition_node_set.contains eq t x) := by
  simp [transition_node_set.contains, List.any_append]

theorem contains_emplace (h : EqIsEquivalence eq) (s : transition_node_set TransitionNode)
    (x0 x : Option TransitionNode) :
    transition_node_set.contains eq (transition_node_set.emplace eq s x0) x =
      (transition_node_set.contains eq s x || KeyEqualizer eq x x0) := by
  unfold transition_node_set.emplace
  by_cases hc : transition_node_set.contains eq s x0 = true
  · simp only [hc, if_true]
    cases hx : KeyEqualizer eq x x0 with
    | false => simp
    | true => rw [contains_congr h s hx, hc]; rfl
  · rw [if_neg hc, contains_append]
    simp [transition_node_set.contains]

theorem map_find_nil {K V : Type} (keq : K → K → Bool) (k : K) :
    map_find keq k ([] : List (K × V)) = none := rfl

theorem map_find_cons {K V : Type} (keq : K → K → Bool) (k k0 : K) (v : V)
    (m : List (K × V)) :
    map_find keq k ((k0, v) :: m) = if keq k k0 then some v else map_find keq k m := by
  unfold map_find
  by_cases hk : keq k k0 = true <;> simp [List.find?, hk]

theorem map_find_update {K V : Type} (keq : K → K → Bool)
    (hsymm : ∀ a b, keq a b = true → keq b a = true)
    (hcongr : ∀ a b, keq a b = true → ∀ c, keq a c = keq b c)
    (dflt : V) (f : V → V) (k k' : K) (m : List (K × V)) :
    map_find keq k' (map_update keq dflt f k m) =
      if keq k' k then some (f ((map_find keq k m).getD dflt)) else map_find keq k' m := by
  induction m with
  | nil =>
    simp only [map_update, map_find_cons, map_find_nil]
    rfl
  | cons e rest ih =>
    obtain ⟨k0, v⟩ := e
    by_cases h0 : keq k k0 = true
    · have hu : map_update keq dflt f k ((k0, v) :: rest) = (k0, f v) :: rest := by
        simp [map_update, h0]
      rw [hu, map_find_cons, map_find_cons, map_find_cons]
      by_cases h1 : keq k' k = true
      · have : keq k' k0 = true := by rw [hcongr k' k h1 k0]; exact h0
        simp [this, h1, h0]
      · have h2 : keq k' k0 = false := by
          cases h3 : keq k' k0 with
          | false => rfl
          | true =>
            exfalso
            apply h1
            rw [hcongr k' k0 h3 k]
            exact hsymm _ _ h0
        simp [h1, h2]
    · have hu : map_update keq dflt f k ((k0, v) :: rest) =
          (k0, v) :: map_update keq dflt f k rest := by
        simp [map_update, h0]
      rw [hu, map_find_cons, map_find_cons, map_find_cons, ih]
      by_cases h1 : keq k' k = true
      · have : keq k' k0 = false := by
          rw [hcongr k' k h1 k0]
          simpa using h0
        simp [this, h1, h0]
      · simp [h1]

end ContainerLemmas

/-! ## Lemmas: recording edges -/

section GraphLemmas

variable {TransitionNode TransitionLabel : Type} [DecidableEq TransitionLabel]
variable {eq : TransitionNode → TransitionNode → Bool}

theorem label_eq_symm (a b : TransitionLabel) (h : label_eq a b = true) :
    label_eq b a = true := by
  simp [label_eq] at h ⊢
  exact h.symm

theorem label_eq_congr (a b : TransitionLabel) (h : label_eq a b = true)
    (c : TransitionLabel) : label_eq a c = label_eq b c := by
  simp [label_eq] at h
  rw [h]

theorem record_all_nil (g : transition_graph TransitionNode TransitionLabel) :
    record_all eq g [] = g := rfl

theorem record_all_cons (g : transition_graph TransitionNode TransitionLabel)
    (e : Option TransitionNode × TransitionLabel × Option TransitionNode)
    (es : List (Option TransitionNode × TransitionLabel × Option TransitionNode)) :
    record_all eq g (e :: es) = record_all eq (record_edge eq g e.1 e.2.1 e.2.2) es := rfl

end GraphLemmas

/-! ## Lemmas: the worklist explorer -/

section WorklistLemmas

variable {TransitionNode TransitionLabel : Type} [DecidableEq TransitionLabel]
variable {eq : TransitionNode → TransitionNode → Bool}
variable {dispatch : RecHandle TransitionNode TransitionLabel TransitionNode}
variable {push : List (Option TransitionNode) → Option TransitionNode →
  List (Option TransitionNode)}

theorem worklist_fold (eq : TransitionNode → TransitionNode → Bool)
    (hpush : ∀ w d x, x ∈ push w d ↔ x = d ∨ x ∈ w)
    (top : Option TransitionNode) (es : List (TransitionLabel × Option TransitionNode))
    (st : visit_state TransitionNode TransitionLabel) :
    (es.foldl (worklist_edge push eq top) st).visited_nodes = st.visited_nodes ∧
    (es.foldl (worklist_edge push eq top) st).calls = st.calls ∧
    (es.foldl (worklist_edge push eq top) st).forward_transition_graph =
      record_all eq st.forward_transition_graph (es.map (fun e => (top, e.1, e.2))) ∧
    (∀ x, x ∈ (es.foldl (worklist_edge push eq top) st).S ↔
      x ∈ st.S ∨ ∃ e ∈ es, e.2 = x) := by
  induction es generalizing st with
  | nil => simp [record_all_nil]
  | cons e es ih =>
    obtain ⟨h1, h2, h3, h4⟩ := ih (worklist_edge push eq top st e)
    simp only [List.foldl_cons, List.map_cons, record_all_cons]
    refine ⟨h1, h2, h3, fun x => ?_⟩
    rw [h4 x]
    simp only [worklist_edge, hpush, List.mem_cons, exists_eq_or_imp]
    constructor
    · rintro ((h | h) | h)
      · exact Or.inr (Or.inl h.symm)
      · exact Or.inl h
      · exact Or.inr (Or.inr h)
    · rintro (h | h | h)
      · exact Or.inl (Or.inr h)
      · exact Or.inl (Or.inl h.symm)
      · exact Or.inr h

theorem worklist_init_inv (self : small_step_semantics TransitionNode TransitionLabel)
    (root : Option TransitionNode) :
    WorklistInv dispatch eq root (visit_init self root) where
  S_reach := by
    intro x hx
    simp only [visit_init, List.mem_singleton] at hx
    subst hx
    exact Reach.root
  visited_reach := by intro v hv; simp [visit_init] at hv
  visited_distinct := List.Pairwise.nil
  calls_eq := rfl
  root_covered := Or.inl (by simp [visit_init])
  closed := by intro v hv; simp [visit_init] at hv
  graph_eq := rfl

end WorklistLemmas

/-! ## Lemmas: termination of the worklist explorer -/

section TerminationLemmas

variable {TransitionNode TransitionLabel : Type} [DecidableEq TransitionLabel]
variable {eq : TransitionNode → TransitionNode → Bool}
variable {dispatch : RecHandle TransitionNode TransitionLabel TransitionNode}
variable {push : List (Option TransitionNode) → Option TransitionNode →
  List (Option TransitionNode)}

theorem countP_lt_of_strict {α : Type} (p q : α → Bool) (l : List α)
    (hmono : ∀ x ∈ l, q x = true → p x = true) (x0 : α) (hx0 : x0 ∈ l)
    (hp : p x0 = true) (hq : q x0 = false) : l.countP q < l.countP p := by
  induction l with
  | nil => cases hx0
  | cons a l ih =>
    have hle : l.countP q ≤ l.countP p :=
      List.countP_mono_left (fun x hx => hmono x (List.mem_cons_of_mem _ hx))
    rw [List.countP_cons, List.countP_cons]
    rcases List.mem_cons.1 hx0 with rfl | hx
    · simp only [hp, hq, if_true]
      simp
      omega
    · have := ih (fun x hx => hmono x (List.mem_cons_of_mem _ hx)) hx
      have ha := hmono a (List.mem_cons_self _ _)
      by_cases hqa : q a = true
      · simp only [hqa, ha hqa, if_true]
        omega
      · simp only [hqa]
        simp
        omega

theorem worklist_loop_succ_of_ne (fuel : Nat)
    (st : visit_state TransitionNode TransitionLabel) (top : Option TransitionNode)
    (rest : List (Option TransitionNode)) (hS : st.S = top :: rest) :
    worklist_loop push dispatch eq (fuel + 1) st =
      worklist_loop push dispatch eq fuel (worklist_step push dispatch eq st) := by
  rw [worklist_loop]
  simp [hS]

theorem worklist_loop_of_empty (fuel : Nat)
    (st : visit_state TransitionNode TransitionLabel) (hS : st.S = []) :
    worklist_loop push dispatch eq fuel st = some st := by
  cases fuel <;> simp [worklist_loop, hS]

theorem worklist_terminates (hpush : ∀ w d x, x ∈ push w d ↔ x = d ∨ x ∈ w)
    (h : EqIsEquivalence eq) (root : Option TransitionNode)
    (R : List (Option TransitionNode))
    (hR : ∀ t, Reach dispatch root t → ∃ r ∈ R, KeyEqualizer eq t r = true) :
    ∀ (k n : Nat) (st : visit_state TransitionNode TransitionLabel),
      (∀ x ∈ st.S, Reach dispatch root x) →
      R.countP (fun r => !transition_node_set.contains eq st.visited_nodes r) ≤ k →
      st.S.length ≤ n →
      ∃ fuel res, worklist_loop push dispatch eq fuel st = some res := by
  intro k
  induction k using Nat.strong_induction_on with
  | _ k ihk =>
    intro n
    induction n with
    | zero =>
      intro st _ _ hlen
      have hS : st.S = [] := List.length_eq_zero.1 (Nat.le_zero.1 hlen)
      exact ⟨0, st, worklist_loop_of_empty 0 st hS⟩
    | succ n ihn =>
      intro st hreach hcount hlen
      cases hS : st.S with
      | nil => exact ⟨0, st, worklist_loop_of_empty 0 st hS⟩
      | cons top rest =>
        have htop : Reach dispatch root top := hreach top (by rw [hS]; exact List.mem_cons_self _ _)
        by_cases hc : transition_node_set.contains eq st.visited_nodes top = true
        · have hstep : worklist_step push dispatch eq st = { st with S := rest } := by
            unfold worklist_step
            rw [hS]
            simp only [hc, if_true]
          obtain ⟨fuel, res, hres⟩ := ihn { st with S := rest }
            (fun x hx => hreach x (by rw [hS]; exact List.mem_cons_of_mem _ hx))
            hcount (by rw [hS] at hlen; simpa using hlen)
          exact ⟨fuel + 1, res, by rw [worklist_loop_succ_of_ne fuel st top rest hS, hstep, hres]⟩
        · have hstep : worklist_step push dispatch eq st =
              (dispatch top).foldl (worklist_edge push eq top)
                { S := rest
                  forward_transition_graph := st.forward_transition_graph
                  visited_nodes := transition_node_set.emplace eq st.visited_nodes top
                  calls := st.calls ++ [top] } := by
            unfold worklist_step
            rw [hS]
            simp only [hc]
            rfl
          obtain ⟨h1, _, _, h4⟩ := worklist_fold eq hpush top (dispatch top)
            { S := rest
              forward_transition_graph := st.forward_transition_graph
              visited_nodes := transition_node_set.emplace eq st.visited_nodes top
              calls := st.calls ++ [top] }
          simp only at h1 h4
          rw [← hstep] at h1 h4
          obtain ⟨r0, hr0, htr0⟩ := hR top htop
          have hr0t : KeyEqualizer eq r0 top = true := KeyEqualizer_symm h htr0
          have hlt : R.countP (fun r => !transition_node_set.contains eq
                (worklist_step push dispatch eq st).visited_nodes r) <
              R.countP (fun r => !transition_node_set.contains eq st.visited_nodes r) := by
            apply countP_lt_of_strict _ _ R _ r0 hr0
            · rw [contains_congr h _ hr0t]
              simpa using hc
            · rw [h1, contains_emplace h, hr0t]
              simp
            · intro x _ hx
              rw [h1, contains_emplace h] at hx
              simp only [Bool.not_eq_true', Bool.or_eq_false_iff] at hx
              simp [hx.1]
          obtain ⟨fuel, res, hres⟩ := ihk _ (lt_of_lt_of_le hlt hcount)
            (worklist_step push dispatch eq st).S.length
            (worklist_step push dispatch eq st)
            (by
              intro x hx
              rcases (h4 x).1 hx with hx | ⟨e, he, rfl⟩
              · exact hreach x (by rw [hS]; exact List.mem_cons_of_mem _ hx)
              · exact Reach.step htop (l := e.1) he)
            le_rfl le_rfl
          exact ⟨fuel + 1, res, by rw [worklist_loop_succ_of_ne fuel st top rest hS, hres]⟩

theorem worklist_loop_fuel_mono (fuel : Nat) :
    ∀ (st res : visit_state TransitionNode TransitionLabel),
      worklist_loop push dispatch eq fuel st = some res →
      ∀ extra, worklist_loop push dispatch eq (fuel + extra) st = some res := by
  induction fuel with
  | zero =>
    intro st res hres extra
    unfold worklist_loop at hres
    by_cases hS : st.S.isEmpty = true
    · rw [if_pos hS] at hres
      cases hres
      exact worklist_loop_of_empty _ st (List.isEmpty_iff.1 hS)
    · rw [if_neg hS] at hres
      cases hres
  | succ n ih =>
    intro st res hres extra
    unfold worklist_loop at hres
    by_cases hS : st.S.isEmpty = true
    · rw [if_pos hS] at hres
      cases hres
      exact worklist_loop_of_empty _ st (List.isEmpty_iff.1 hS)
    · rw [if_neg hS] at hres
      have := ih _ res hres extra
      rw [show n + 1 + extra = (n + extra) + 1 by omega, worklist_loop, if_neg hS]
      exact this

theorem visit_step_eq_worklist (st : visit_state TransitionNode TransitionLabel) :
    visit_step dispatch eq st = worklist_step (fun w d => d :: w) dispatch eq st := rfl

theorem visit_loop_eq_worklist (fuel : Nat) :
    ∀ st : visit_state TransitionNode TransitionLabel,
      visit_loop dispatch eq fuel st = worklist_loop (fun w d => d :: w) dispatch eq fuel st := by
  induction fuel with
  | zero => intro st; rfl
  | succ n ih =>
    intro st
    rw [visit_loop, worklist_loop, ih, visit_step_eq_worklist]

theorem visit_step_fifo_eq_worklist (st : visit_state TransitionNode TransitionLabel) :
    visit_step_fifo dispatch eq st = worklist_step (fun w d => w ++ [d]) dispatch eq st := rfl

theorem visit_loop_fifo_eq_worklist (fuel : Nat) :
    ∀ st : visit_state TransitionNode TransitionLabel,
      visit_loop_fifo dispatch eq fuel st =
        worklist_loop (fun w d => w ++ [d]) dispatch eq fuel st := by
  induction fuel with
  | zero => intro st; rfl
  | succ n ih =>
    intro st
    rw [visit_loop_fifo, worklist_loop, ih, visit_step_fifo_eq_worklist]

theorem push_front_mem (w : List (Option TransitionNode)) (d x : Option TransitionNode) :
    x ∈ (fun w d => d :: w) w d ↔ x = d ∨ x ∈ w := List.mem_cons

theorem push_back_mem (w : List (Option TransitionNode)) (d x : Option TransitionNode) :
    x ∈ (fun w d => w ++ [d]) w d ↔ x = d ∨ x ∈ w := by
  simp [or_comm]

end TerminationLemmas

/-! ## Lemmas: what the worklist explorer has computed when it stops -/

section FinalLemmas

variable {TransitionNode TransitionLabel : Type} [DecidableEq TransitionLabel]
variable {eq : TransitionNode → TransitionNode → Bool}
variable {dispatch : RecHandle TransitionNode TransitionLabel TransitionNode}

theorem count_equal_le_one (h : EqIsEquivalence eq) (l : List (Option TransitionNode))
    (hl : distinct_nodes eq l) (t : Option TransitionNode) :
    l.countP (fun c => KeyEqualizer eq t c) ≤ 1 := by
  induction l with
  | nil => simp
  | cons a l ih =>
    unfold distinct_nodes at hl
    rw [List.pairwise_cons] at hl
    rw [List.countP_cons]
    by_cases hta : KeyEqualizer eq t a = true
    · have hz : l.countP (fun c => KeyEqualizer eq t c) = 0 := by
        rw [List.countP_eq_zero]
        intro b hb hbt
        have hab : KeyEqualizer eq a b = true :=
          KeyEqualizer_trans h (KeyEqualizer_symm h hta) hbt
        rw [(hl.1 b hb).1] at hab
        cases hab
      simp [hta, hz]
    · have := ih hl.2
      simp only [hta]
      simpa using this

theorem distinct_length_le (h : EqIsEquivalence eq) (B : List (Option TransitionNode)) :
    ∀ A : List (Option TransitionNode), distinct_nodes eq A →
      (∀ a ∈ A, ∃ b ∈ B, KeyEqualizer eq a b = true) → A.length ≤ B.length := by
  induction B with
  | nil =>
    intro A _ hcov
    cases A with
    | nil => simp
    | cons a A =>
      obtain ⟨b, hb, _⟩ := hcov a (List.mem_cons_self _ _)
      cases hb
  | cons b B ih =>
    intro A hA hcov
    have hsplit := List.length_eq_countP_add_countP (fun a => KeyEqualizer eq b a) A
    have h1 : A.countP (fun a => KeyEqualizer eq b a) ≤ 1 := count_equal_le_one h A hA b
    have h2 : (A.filter (fun a => !KeyEqualizer eq b a)).length ≤ B.length := by
      apply ih
      · exact List.Pairwise.sublist (List.filter_sublist _) hA
      · intro a ha
        rw [List.mem_filter] at ha
        obtain ⟨b', hb', hab'⟩ := hcov a ha.1
        rcases List.mem_cons.1 hb' with rfl | hb'
        · have := KeyEqualizer_symm h hab'
          simp [this] at ha
        · exact ⟨b', hb', hab'⟩
    rw [← List.countP_eq_length_filter] at h2
    have h3 : A.countP (fun a => !KeyEqualizer eq b a) =
        A.countP (fun a => ¬ KeyEqualizer eq b a = true) := by
      congr 1
      funext a
      simp
    simp only [List.length_cons]
    omega

end FinalLemmas

/-! ## Lemmas: the stack explorer and the sample system -/

section VisitLemmas

variable {TransitionNode TransitionLabel : Type} [DecidableEq TransitionLabel]
variable {eq : TransitionNode → TransitionNode → Bool}
variable {dispatch : RecHandle TransitionNode TransitionLabel TransitionNode}

theorem parity_eq_equivalence : EqIsEquivalence parity_eq where
  refl := by intro a; simp [parity_eq]
  symm := by
    intro a b hab
    simp only [parity_eq, beq_iff_eq] at hab ⊢
    exact hab.symm
  trans := by
    intro a b c hab hbc
    simp only [parity_eq, beq_iff_eq] at hab hbc ⊢
    exact hab.trans hbc

theorem counter_cover (t : Option Nat) :
    ∃ r ∈ [none, some 0, some 1], KeyEqualizer parity_eq t r = true := by
  cases t with
  | none => exact ⟨none, by simp, rfl⟩
  | some n =>
    rcases Nat.mod_two_eq_zero_or_one n with h0 | h1
    · exact ⟨some 0, by simp, by simp [KeyEqualizer, derefEq, parity_eq, h0]⟩
    · exact ⟨some 1, by simp, by simp [KeyEqualizer, derefEq, parity_eq, h1]⟩

end VisitLemmas

/-! ## Lemmas: the invariant of the transition graph -/

section GraphInvariantLemmas

variable {TransitionNode TransitionLabel : Type} [DecidableEq TransitionLabel]
variable {eq : TransitionNode → TransitionNode → Bool}
variable {dispatch : RecHandle TransitionNode TransitionLabel TransitionNode}

theorem KeyEqualizer_symm_of (hs : ∀ a b, eq a b = true → eq b a = true)
    {x y : Option TransitionNode} (hxy : KeyEqualizer eq x y = true) :
    KeyEqualizer eq y x = true := by
  cases x with
  | none => cases y <;> simp_all [KeyEqualizer, derefEq]
  | some a =>
    cases y with
    | none => simp [KeyEqualizer] at hxy
    | some b =>
      simp only [KeyEqualizer, derefEq, Option.isSome_some, beq_self_eq_true, Bool.not_true,
        Bool.false_or, Bool.true_and] at hxy ⊢
      exact hs a b hxy

theorem KeyEqualizer_false_symm_of (hs : ∀ a b, eq a b = true → eq b a = true)
    {x y : Option TransitionNode} (hxy : KeyEqualizer eq x y = false) :
    KeyEqualizer eq y x = false := by
  cases hyx : KeyEqualizer eq y x with
  | false => rfl
  | true =>
    have := KeyEqualizer_symm_of hs hyx
    rw [hxy] at this
    exact this.symm

theorem map_update_cons_pos {K V : Type} (keq : K → K → Bool) (dflt : V) (f : V → V)
    (k k0 : K) (v : V) (rest : List (K × V)) (h0 : keq k k0 = true) :
    map_update keq dflt f k ((k0, v) :: rest) = (k0, f v) :: rest := by
  simp [map_update, h0]

theorem map_update_cons_neg {K V : Type} (keq : K → K → Bool) (dflt : V) (f : V → V)
    (k k0 : K) (v : V) (rest : List (K × V)) (h0 : ¬ keq k k0 = true) :
    map_update keq dflt f k ((k0, v) :: rest) = (k0, v) :: map_update keq dflt f k rest := by
  simp [map_update, h0]

theorem map_update_mem_key {K V : Type} (keq : K → K → Bool) (dflt : V) (f : V → V) (k : K)
    (m : List (K × V)) :
    ∀ e ∈ map_update keq dflt f k m, e.1 = k ∨ ∃ e' ∈ m, e'.1 = e.1 := by
  induction m with
  | nil =>
    intro e he
    simp only [map_update, List.mem_singleton] at he
    left; rw [he]
  | cons a rest ih =>
    obtain ⟨k0, v⟩ := a
    intro e he
    by_cases h0 : keq k k0 = true
    · rw [map_update_cons_pos keq dflt f k k0 v rest h0, List.mem_cons] at he
      rcases he with rfl | he
      · right; exact ⟨(k0, v), List.mem_cons_self _ _, rfl⟩
      · right; exact ⟨e, List.mem_cons_of_mem _ he, rfl⟩
    · rw [map_update_cons_neg keq dflt f k k0 v rest h0, List.mem_cons] at he
      rcases he with rfl | he
      · right; exact ⟨(k0, v), List.mem_cons_self _ _, rfl⟩
      · rcases ih e he with hk | ⟨e', he', hk⟩
        · left; exact hk
        · right; exact ⟨e', List.mem_cons_of_mem _ he', hk⟩

theorem map_update_values {K V : Type} (P : V → Prop) (keq : K → K → Bool) (dflt : V)
    (f : V → V) (k : K) (m : List (K × V)) (hm : ∀ e ∈ m, P e.2) (hd : P (f dflt))
    (hf : ∀ v, P v → P (f v)) : ∀ e ∈ map_update keq dflt f k m, P e.2 := by
  induction m with
  | nil =>
    intro e he
    simp only [map_update, List.mem_singleton] at he
    rw [he]; exact hd
  | cons a rest ih =>
    obtain ⟨k0, v⟩ := a
    intro e he
    by_cases h0 : keq k k0 = true
    · rw [map_update_cons_pos keq dflt f k k0 v rest h0, List.mem_cons] at he
      rcases he with rfl | he
      · exact hf v (hm (k0, v) (List.mem_cons_self _ _))
      · exact hm e (List.mem_cons_of_mem _ he)
    · rw [map_update_cons_neg keq dflt f k k0 v rest h0, List.mem_cons] at he
      rcases he with rfl | he
      · exact hm (k0, v) (List.mem_cons_self _ _)
      · exact ih (fun e he => hm e (List.mem_cons_of_mem _ he)) e he

theorem emplace_distinct (hs : ∀ a b, eq a b = true → eq b a = true)
    (s : transition_node_set TransitionNode) (x : Option TransitionNode)
    (hd : distinct_nodes eq s) : distinct_nodes eq (transition_node_set.emplace eq s x) := by
  unfold transition_node_set.emplace
  by_cases hc : transition_node_set.contains eq s x = true
  · rw [if_pos hc]; exact hd
  · rw [if_neg hc]
    unfold distinct_nodes
    rw [List.pairwise_append]
    refine ⟨hd, List.pairwise_singleton _ _, ?_⟩
    intro a ha b hb
    rw [List.mem_singleton] at hb
    subst hb
    have hf : KeyEqualizer eq b a = false :=
      (contains_eq_false_iff eq s b).1 (by simpa using hc) a ha
    exact ⟨KeyEqualizer_false_symm_of hs hf, hf⟩

end GraphInvariantLemmas

/-! ## Theorems: the explorer -/

section ExplorerTheorems

variable {TransitionNode TransitionLabel : Type} [DecidableEq TransitionLabel]
variable {eq : TransitionNode → TransitionNode → Bool}
variable {dispatch : RecHandle TransitionNode TransitionLabel TransitionNode}

/-- C6: when the structural equality is an equivalence relation and the terms reachable from
`root` fall into finitely many classes (a finite list `R` holds a structurally equal term of
every reachable term), the loop of `visit(root)` terminates: some number of iterations
empties the worklist and `visit` returns. -/
theorem visit_terminates (h : EqIsEquivalence eq)
    (self : small_step_semantics TransitionNode TransitionLabel)
    (root : Option TransitionNode) (R : List (Option TransitionNode))
    (hR : ∀ t, Reach dispatch root t → ∃ r ∈ R, KeyEqualizer eq t r = true) :
    ∃ fuel res, visit dispatch eq fuel self root = some res := by
  have hinit : WorklistInv dispatch eq root (visit_init self root) :=
    worklist_init_inv self root
  obtain ⟨fuel, st, hst⟩ := worklist_terminates push_front_mem h root R hR
    (R.countP (fun r => !transition_node_set.contains eq
      (visit_init self root : visit_state TransitionNode TransitionLabel).visited_nodes r))
    (visit_init self root : visit_state TransitionNode TransitionLabel).S.length
    (visit_init self root) hinit.S_reach le_rfl le_rfl
  refine ⟨fuel, { forward_transition_graph := st.forward_transition_graph
                  visited_nodes := st.visited_nodes }, ?_⟩
  unfold visit visit_run
  rw [visit_loop_eq_worklist, hst]
  rfl

/-- Witness of C6: the counter has infinitely many reachable terms, on a cycle of two classes
up to parity, and its exploration terminates. -/
theorem visit_terminates_witness :
    EqIsEquivalence parity_eq ∧
    ∃ fuel res, visit counter_dispatch parity_eq fuel small_step_semantics.fresh (some 0) =
      some res :=
  ⟨parity_eq_equivalence,
   visit_terminates parity_eq_equivalence small_step_semantics.fresh (some 0)
     [none, some 0, some 1] (fun t _ => counter_cover t)⟩

/-- C7: when `visit(r1)` on an explorer `e0` has left the explorer `e1` and `visit(r2)` on a
freshly constructed explorer leaves `e2`, then `visit(r2)` on `e1` leaves `e2` as well: the
same `visited_nodes` and the same `forward_transition_graph`. -/
theorem visit_forgets_previous_exploration (fuel1 fuel2 : Nat)
    (r1 r2 : Option TransitionNode)
    (e0 e1 e2 : small_step_semantics TransitionNode TransitionLabel)
    (h1 : visit dispatch eq fuel1 e0 r1 = some e1)
    (h2 : visit dispatch eq fuel2 small_step_semantics.fresh r2 = some e2) :
    visit dispatch eq fuel2 e1 r2 = some e2 ∧
    (visit dispatch eq fuel2 e1 r2).map (fun e => e.visited_nodes) =
      some e2.visited_nodes ∧
    (visit dispatch eq fuel2 e1 r2).map (fun e => e.forward_transition_graph) =
      some e2.forward_transition_graph := by
  have hsame : visit dispatch eq fuel2 e1 r2 =
      visit dispatch eq fuel2 small_step_semantics.fresh r2 := rfl
  have _ := h1
  rw [hsame, h2]
  exact ⟨rfl, rfl, rfl⟩

/-- Witness of C7: the counter explored from `0`, then from `1` on the same explorer. -/
theorem visit_forgets_previous_exploration_witness :
    visit counter_dispatch parity_eq 3
      { forward_transition_graph :=
          [(some 0, [("tick", [some 1])]), (some 1, [("tick", [some 2])])]
        visited_nodes := [some 0, some 1] } (some 1) =
      some { forward_transition_graph :=
               [(some 1, [("tick", [some 2])]), (some 2, [("tick", [some 3])])]
             visited_nodes := [some 1, some 2] } :=
  (@visit_forgets_previous_exploration Nat String _ parity_eq counter_dispatch 3 3
    (some 0) (some 1) small_step_semantics.fresh
    { forward_transition_graph :=
        [(some 0, [("tick", [some 1])]), (some 1, [("tick", [some 2])])]
      visited_nodes := [some 0, some 1] }
    { forward_transition_graph :=
        [(some 1, [("tick", [some 2])]), (some 2, [("tick", [some 3])])]
      visited_nodes := [some 1, some 2] } rfl rfl).1

end ExplorerTheorems

/-! ## Lemmas: the finite CCS dispatcher and its recursion depth -/

section FiniteCCSLemmas

theorem depth_ptr_component_le (pc : List (Option finite_ccs)) :
    ∀ i, finite_ccs.depth_ptr (finite_ccs.component pc i) ≤ finite_ccs.depth_components pc := by
  induction pc with
  | nil => intro i; simp [finite_ccs.component, finite_ccs.depth_ptr]
  | cons c rest ih =>
    intro i
    cases i with
    | zero =>
      cases c with
      | none => simp [finite_ccs.component, finite_ccs.depth_ptr]
      | some t =>
        simp [finite_ccs.component, finite_ccs.depth_ptr, finite_ccs.depth_components]
    | succ j =>
      have hj := ih j
      have hc : finite_ccs.component (c :: rest) (j + 1) = finite_ccs.component rest j := by
        simp [finite_ccs.component]
      rw [hc]
      cases c with
      | none => simpa [finite_ccs.depth_components] using hj
      | some t =>
        simp only [finite_ccs.depth_components]
        exact le_trans hj (le_max_right _ _)

theorem depth_ptr_component_lt (t : finite_ccs) (i : Nat) :
    finite_ccs.depth_ptr (finite_ccs.component t.parallel_compose i) < finite_ccs.depth t := by
  obtain ⟨c, r, p, m⟩ := t
  have := depth_ptr_component_le p i
  simp only [finite_ccs.parallel_compose, finite_ccs.depth]
  have h2 : finite_ccs.depth_components p ≤
      max (finite_ccs.depth_components p) (finite_ccs.depth_branches m) := le_max_left _ _
  omega

theorem finiteCCS_operator_call_congr (rec rec' : RecHandle finite_ccs (Bool × String) finite_ccs)
    (t : finite_ccs)
    (hrec : ∀ i, rec (finite_ccs.component t.parallel_compose i) =
      rec' (finite_ccs.component t.parallel_compose i)) :
    finiteCCS_rules.operator_call rec (some t) = finiteCCS_rules.operator_call rec' (some t) := by
  have h1 : parallel_interleave rec t = parallel_interleave rec' t := by
    unfold parallel_interleave
    congr 1
    funext acc i
    rw [hrec i]
  have h2 : parallel_transform rec (some t) = parallel_transform rec' (some t) := by
    simp only [parallel_transform, h1]
  have h3 : restriction_transform rec (some t) = restriction_transform rec' (some t) := by
    simp only [restriction_transform, hrec 0]
  simp only [language_semantics.operator_call, finiteCCS_rules, language_semantics.add_rule,
    language_semantics.fresh, List.nil_append, List.cons_append,
    language_semantics.scan_rules, h2, h3, multi_prefix_transform]

theorem finiteCCS_call_fuel_stable (n : Nat) :
    ∀ (m : Nat) (t : Option finite_ccs), finite_ccs.depth_ptr t < n →
      finite_ccs.depth_ptr t < m → finiteCCS_call_fuel n t = finiteCCS_call_fuel m t := by
  induction n with
  | zero => intro m t hn; cases hn
  | succ n ih =>
    intro m t hn hm
    cases m with
    | zero => cases hm
    | succ m =>
      cases t with
      | none => rfl
      | some t =>
        simp only [finiteCCS_call_fuel]
        apply finiteCCS_operator_call_congr
        intro i
        have hlt := depth_ptr_component_lt t i
        simp only [finite_ccs.depth_ptr] at hn hm
        exact ih m _ (by omega) (by omega)

/-- The call `finiteCCS_graph_Semantics(t)` is the dispatcher of the rule table of `main`
handed to its own transforms: the depth bound of `finiteCCS_call` is never reached. -/
theorem finiteCCS_call_unfold (t : Option finite_ccs) :
    finiteCCS_call t = finiteCCS_rules.operator_call finiteCCS_call t := by
  cases t with
  | none => rfl
  | some t =>
    simp only [finiteCCS_call, finiteCCS_call_fuel]
    apply finiteCCS_operator_call_congr
    intro i
    have hlt := depth_ptr_component_lt t i
    simp only [finite_ccs.depth_ptr]
    exact finiteCCS_call_fuel_stable _ _ _ (by omega) (by omega)

end FiniteCCSLemmas

/-! ## Lemmas: the recursion depth of `finite_ccs::operator==` -/

section FiniteCCSEqLemmas

theorem contains_congr_on (eq eq' : finite_ccs → finite_ccs → Bool)
    (set : transition_node_set finite_ccs) (v : Option finite_ccs)
    (h : ∀ y ∈ set, KeyEqualizer eq v y = KeyEqualizer eq' v y) :
    transition_node_set.contains eq set v = transition_node_set.contains eq' set v := by
  unfold transition_node_set.contains
  induction set with
  | nil => rfl
  | cons y rest ih =>
    simp only [List.any_cons]
    rw [h y (List.mem_cons_self _ _), ih (fun z hz => h z (List.mem_cons_of_mem _ hz))]

theorem emplace_congr_on (eq eq' : finite_ccs → finite_ccs → Bool)
    (set : transition_node_set finite_ccs) (v : Option finite_ccs)
    (h : ∀ y ∈ set, KeyEqualizer eq v y = KeyEqualizer eq' v y) :
    transition_node_set.emplace eq set v = transition_node_set.emplace eq' set v := by
  unfold transition_node_set.emplace
  rw [contains_congr_on eq eq' set v h]

theorem mem_emplace (eq : finite_ccs → finite_ccs → Bool)
    (set : transition_node_set finite_ccs) (v z : Option finite_ccs)
    (hz : z ∈ transition_node_set.emplace eq set v) : z ∈ set ∨ z = v := by
  unfold transition_node_set.emplace at hz
  by_cases hc : transition_node_set.contains eq set v = true
  · rw [if_pos hc] at hz; exact Or.inl hz
  · rw [if_neg hc] at hz
    simpa using hz

theorem map_update_congr {K V : Type} (keq : K → K → Bool) (dflt : V) (f f' : V → V) (k : K)
    (m : List (K × V)) (hm : ∀ e ∈ m, f e.2 = f' e.2) (hd : f dflt = f' dflt) :
    map_update keq dflt f k m = map_update keq dflt f' k m := by
  induction m with
  | nil => simp [map_update, hd]
  | cons e rest ih =>
    obtain ⟨k0, v⟩ := e
    by_cases h0 : keq k k0 = true
    · rw [map_update_cons_pos keq dflt f k k0 v rest h0,
        map_update_cons_pos keq dflt f' k k0 v rest h0]
      have := hm (k0, v) (List.mem_cons_self _ _)
      simp only at this
      rw [this]
    · rw [map_update_cons_neg keq dflt f k k0 v rest h0,
        map_update_cons_neg keq dflt f' k k0 v rest h0,
        ih (fun e he => hm e (List.mem_cons_of_mem _ he))]

theorem multimap_fold_congr (eq eq' : finite_ccs → finite_ccs → Bool)
    (D : List (Option finite_ccs))
    (hagree : ∀ v ∈ D, ∀ w ∈ D, KeyEqualizer eq v w = KeyEqualizer eq' v w)
    (mp : List ((Bool × String) × Option finite_ccs)) :
    ∀ m : List ((Bool × String) × transition_node_set finite_ccs),
      (∀ e ∈ mp, e.2 ∈ D) → (∀ entry ∈ m, ∀ z ∈ entry.2, z ∈ D) →
      mp.foldl (fun m e => map_update label_eq []
          (fun set => transition_node_set.emplace eq set e.2) e.1 m) m =
        mp.foldl (fun m e => map_update label_eq []
          (fun set => transition_node_set.emplace eq' set e.2) e.1 m) m ∧
      ∀ entry ∈ mp.foldl (fun m e => map_update label_eq []
          (fun set => transition_node_set.emplace eq set e.2) e.1 m) m,
        ∀ z ∈ entry.2, z ∈ D := by
  induction mp with
  | nil => intro m _ hm; exact ⟨rfl, hm⟩
  | cons e rest ih =>
    intro m hmp hm
    have he : e.2 ∈ D := hmp e (List.mem_cons_self _ _)
    have hstep : map_update label_eq []
          (fun set => transition_node_set.emplace eq set e.2) e.1 m =
        map_update label_eq []
          (fun set => transition_node_set.emplace eq' set e.2) e.1 m := by
      apply map_update_congr
      · intro entry hentry
        exact emplace_congr_on eq eq' entry.2 e.2
          (fun y hy => hagree e.2 he y (hm entry hentry y hy))
      · rfl
    have hP : ∀ entry ∈ map_update label_eq []
          (fun set => transition_node_set.emplace eq set e.2) e.1 m,
        ∀ z ∈ entry.2, z ∈ D := by
      apply map_update_values (fun set : transition_node_set finite_ccs => ∀ z ∈ set, z ∈ D)
      · exact hm
      · intro z hz
        rcases mem_emplace eq [] e.2 z hz with h | h
        · cases h
        · rw [h]; exact he
      · intro v hv z hz
        rcases mem_emplace eq v e.2 z hz with h | h
        · exact hv z h
        · rw [h]; exact he
    simp only [List.foldl_cons]
    have := ih _ (fun e' he' => hmp e' (List.mem_cons_of_mem _ he')) hP
    rw [← hstep]
    exact this

theorem multimap_congr (eq eq' : finite_ccs → finite_ccs → Bool)
    (D : List (Option finite_ccs))
    (hagree : ∀ v ∈ D, ∀ w ∈ D, KeyEqualizer eq v w = KeyEqualizer eq' v w)
    (mp : List ((Bool × String) × Option finite_ccs)) (hmp : ∀ e ∈ mp, e.2 ∈ D) :
    finite_ccs.multimap eq mp = finite_ccs.multimap eq' mp ∧
      ∀ entry ∈ finite_ccs.multimap eq mp, ∀ z ∈ entry.2, z ∈ D :=
  multimap_fold_congr eq eq' D hagree mp [] hmp (fun entry hentry => by cases hentry)

theorem map_find_getD_subset {K : Type} (keq : K → K → Bool) (k : K)
    (m : List (K × transition_node_set finite_ccs)) (D : List (Option finite_ccs))
    (hm : ∀ entry ∈ m, ∀ z ∈ entry.2, z ∈ D) :
    ∀ z ∈ (map_find keq k m).getD [], z ∈ D := by
  unfold map_find
  cases hfind : m.find? (fun e => keq k e.1) with
  | none => intro z hz; simp at hz
  | some e =>
    intro z hz
    simp only [Option.map_some', Option.getD_some] at hz
    exact hm e (List.mem_of_find?_eq_some hfind) z hz

theorem all_congr_on {α : Type} (p q : α → Bool) (l : List α)
    (h : ∀ x ∈ l, p x = q x) : l.all p = l.all q := by
  induction l with
  | nil => rfl
  | cons x rest ih =>
    simp only [List.all_cons]
    rw [h x (List.mem_cons_self _ _), ih (fun z hz => h z (List.mem_cons_of_mem _ hz))]

theorem node_set_eq_congr (eq eq' : finite_ccs → finite_ccs → Bool)
    (D : List (Option finite_ccs))
    (hagree : ∀ v ∈ D, ∀ w ∈ D, KeyEqualizer eq v w = KeyEqualizer eq' v w)
    (a b : transition_node_set finite_ccs) (ha : ∀ z ∈ a, z ∈ D) (hb : ∀ z ∈ b, z ∈ D) :
    finite_ccs.node_set_eq eq a b = finite_ccs.node_set_eq eq' a b := by
  unfold finite_ccs.node_set_eq
  congr 1
  apply all_congr_on
  intro x hx
  exact contains_congr_on eq eq' b x (fun y hy => hagree x (ha x hx) y (hb y hy))

theorem eq_body_congr (eq eq' : finite_ccs → finite_ccs → Bool) (lhs rhs : finite_ccs)
    (hagree : ∀ v ∈ lhs.children ++ rhs.children, ∀ w ∈ lhs.children ++ rhs.children,
      KeyEqualizer eq v w = KeyEqualizer eq' v w) :
    finite_ccs.eq_body eq lhs rhs = finite_ccs.eq_body eq' lhs rhs := by
  have hl : ∀ i, i < 2 → finite_ccs.component lhs.parallel_compose i ∈
      lhs.children ++ rhs.children := by
    intro i hi
    apply List.mem_append_left
    unfold finite_ccs.children
    apply List.mem_append_left
    interval_cases i <;> simp
  have hr : ∀ i, i < 2 → finite_ccs.component rhs.parallel_compose i ∈
      lhs.children ++ rhs.children := by
    intro i hi
    apply List.mem_append_right
    unfold finite_ccs.children
    apply List.mem_append_left
    interval_cases i <;> simp
  have hml : ∀ e ∈ finite_ccs.multi_prefix lhs, e.2 ∈ lhs.children ++ rhs.children := by
    intro e he
    apply List.mem_append_left
    unfold finite_ccs.children
    apply List.mem_append_right
    exact List.mem_map_of_mem _ he
  have hmr : ∀ e ∈ finite_ccs.multi_prefix rhs, e.2 ∈ lhs.children ++ rhs.children := by
    intro e he
    apply List.mem_append_right
    unfold finite_ccs.children
    apply List.mem_append_right
    exact List.mem_map_of_mem _ he
  obtain ⟨hL, hLD⟩ := multimap_congr eq eq' _ hagree _ hml
  obtain ⟨hR, hRD⟩ := multimap_congr eq eq' _ hagree _ hmr
  have hsets : ∀ k, finite_ccs.node_set_eq eq
        ((map_find label_eq k (finite_ccs.multimap eq ( finite_ccs.multi_prefix lhs))).getD [])
        ((map_find label_eq k (finite_ccs.multimap eq ( finite_ccs.multi_prefix rhs))).getD []) =
      finite_ccs.node_set_eq eq'
        ((map_find label_eq k (finite_ccs.multimap eq' ( finite_ccs.multi_prefix lhs))).getD [])
        ((map_find label_eq k (finite_ccs.multimap eq' ( finite_ccs.multi_prefix rhs))).getD []) := by
    intro k
    rw [← hL, ← hR]
    exact node_set_eq_congr eq eq' _ hagree _ _
      (map_find_getD_subset label_eq k _ _ hLD) (map_find_getD_subset label_eq k _ _ hRD)
  unfold finite_ccs.eq_body
  simp only [hsets, hagree _ (hl 0 (by omega)) _ (hr 0 (by omega)),
    hagree _ (hl 1 (by omega)) _ (hr 1 (by omega))]

theorem depth_ptr_branch_le (mp : List ((Bool × String) × Option finite_ccs)) :
    ∀ e ∈ mp, finite_ccs.depth_ptr e.2 ≤ finite_ccs.depth_branches mp := by
  induction mp with
  | nil => intro e he; cases he
  | cons x rest ih =>
    obtain ⟨k, v⟩ := x
    intro e he
    rcases List.mem_cons.1 he with rfl | he
    · cases v with
      | none => simp [finite_ccs.depth_ptr]
      | some t => simp [finite_ccs.depth_ptr, finite_ccs.depth_branches]
    · have := ih e he
      cases v with
      | none => simpa [finite_ccs.depth_branches] using this
      | some t =>
        simp only [finite_ccs.depth_branches]
        exact le_trans this (le_max_right _ _)

theorem depth_ptr_children_lt (t : finite_ccs) :
    ∀ v ∈ t.children, finite_ccs.depth_ptr v < finite_ccs.depth t := by
  intro v hv
  unfold finite_ccs.children at hv
  rcases List.mem_append.1 hv with h | h
  · have hcomp : ∃ i, v = finite_ccs.component t.parallel_compose i := by
      simp only [List.mem_cons, List.mem_singleton, List.not_mem_nil, or_false] at h
      rcases h with h | h
      · exact ⟨0, h⟩
      · exact ⟨1, h⟩
    obtain ⟨i, rfl⟩ := hcomp
    exact depth_ptr_component_lt t i
  · obtain ⟨e, he, rfl⟩ := List.mem_map.1 h
    obtain ⟨c, r, p, m⟩ := t
    have := depth_ptr_branch_le m e he
    simp only [finite_ccs.depth]
    have h2 : finite_ccs.depth_branches m ≤
        max (finite_ccs.depth_components p) (finite_ccs.depth_branches m) := le_max_right _ _
    omega

theorem depth_pos (t : finite_ccs) : 0 < finite_ccs.depth t := by
  obtain ⟨c, r, p, m⟩ := t
  simp only [finite_ccs.depth]
  omega

theorem eq_fuel_stable (n : Nat) :
    ∀ (m : Nat) (x y : finite_ccs),
      max (finite_ccs.depth x) (finite_ccs.depth y) ≤ n →
      max (finite_ccs.depth x) (finite_ccs.depth y) ≤ m →
      finite_ccs.eq_fuel n x y = finite_ccs.eq_fuel m x y := by
  induction n with
  | zero =>
    intro m x y hn
    have := depth_pos x
    omega
  | succ n ih =>
    intro m x y hn hm
    cases m with
    | zero =>
      have := depth_pos x
      omega
    | succ m =>
      simp only [finite_ccs.eq_fuel]
      apply eq_body_congr
      intro v hv w hw
      have hvd : finite_ccs.depth_ptr v <
          max (finite_ccs.depth x) (finite_ccs.depth y) := by
        rcases List.mem_append.1 hv with h | h
        · exact lt_of_lt_of_le (depth_ptr_children_lt x v h) (le_max_left _ _)
        · exact lt_of_lt_of_le (depth_ptr_children_lt y v h) (le_max_right _ _)
      have hwd : finite_ccs.depth_ptr w <
          max (finite_ccs.depth x) (finite_ccs.depth y) := by
        rcases List.mem_append.1 hw with h | h
        · exact lt_of_lt_of_le (depth_ptr_children_lt x w h) (le_max_left _ _)
        · exact lt_of_lt_of_le (depth_ptr_children_lt y w h) (le_max_right _ _)
      cases v with
      | none => cases w <;> rfl
      | some a =>
        cases w with
        | none => rfl
        | some b =>
          simp only [finite_ccs.depth_ptr] at hvd hwd
          simp only [KeyEqualizer, derefEq]
          rw [ih m a b (by omega) (by omega)]

/-- The operator `finite_ccs::operator==` satisfies the recursive equation of the source:
it is its body with the recursive calls made to the operator itself, so that the depth
bound of `operator_eq` is never reached. -/
theorem operator_eq_unfold (lhs rhs : finite_ccs) :
    finite_ccs.operator_eq lhs rhs = finite_ccs.eq_body finite_ccs.operator_eq lhs rhs := by
  unfold finite_ccs.operator_eq
  have hpos := depth_pos lhs
  obtain ⟨k, hk⟩ : ∃ k, max (finite_ccs.depth lhs) (finite_ccs.depth rhs) = k + 1 :=
    ⟨max (finite_ccs.depth lhs) (finite_ccs.depth rhs) - 1, by omega⟩
  rw [hk]
  simp only [finite_ccs.eq_fuel]
  apply eq_body_congr
  intro v hv w hw
  have hvd : finite_ccs.depth_ptr v <
      max (finite_ccs.depth lhs) (finite_ccs.depth rhs) := by
    rcases List.mem_append.1 hv with h | h
    · exact lt_of_lt_of_le (depth_ptr_children_lt lhs v h) (le_max_left _ _)
    · exact lt_of_lt_of_le (depth_ptr_children_lt rhs v h) (le_max_right _ _)
  have hwd : finite_ccs.depth_ptr w <
      max (finite_ccs.depth lhs) (finite_ccs.depth rhs) := by
    rcases List.mem_append.1 hw with h | h
    · exact lt_of_lt_of_le (depth_ptr_children_lt lhs w h) (le_max_left _ _)
    · exact lt_of_lt_of_le (depth_ptr_children_lt rhs w h) (le_max_right _ _)
  cases v with
  | none => cases w <;> rfl
  | some a =>
    cases w with
    | none => rfl
    | some b =>
      simp only [finite_ccs.depth_ptr] at hvd hwd
      simp only [KeyEqualizer, derefEq]
      rw [eq_fuel_stable k (max (finite_ccs.depth a) (finite_ccs.depth b)) a b
        (by omega) le_rfl]

end FiniteCCSEqLemmas

/-! ## Theorems: the explorer on finite CCS -/

/-- C8 (evaluation of the code at an input on which the claim fails): the ternary
compositions `0 | 0 | a.0` and `0 | 0 | 0` are equal for `finite_ccs::operator==`, which
reads the first two components only; `visit` on the first one records the edge labelled `a`
to `0 | 0 | 0` from the root, and `visit` on the second one records no edge at all, so that
the first graph has the root as a source state and the second graph has no source state. -/
theorem visit_equal_roots_different_graphs :
    KeyEqualizer finite_ccs.operator_eq nil_nil_anil nil_nil_nil = true ∧
    visit finiteCCS_call finite_ccs.operator_eq 2 small_step_semantics.fresh nil_nil_anil =
      some { forward_transition_graph := [(nil_nil_anil, [(a, [nil_nil_nil])])]
             visited_nodes := [nil_nil_anil] } ∧
    visit finiteCCS_call finite_ccs.operator_eq 1 small_step_semantics.fresh nil_nil_nil =
      some { forward_transition_graph := []
             visited_nodes := [nil_nil_nil] } ∧
    has_source finite_ccs.operator_eq
      ([(nil_nil_anil, [(a, [nil_nil_nil])])] :
        transition_graph finite_ccs (Bool × String)) nil_nil_anil = true ∧
    has_source finite_ccs.operator_eq
      ([] : transition_graph finite_ccs (Bool × String)) nil_nil_nil = false :=
  ⟨rfl, rfl, rfl, rfl, rfl⟩

/-! ## Theorems: structural hashing of finite CCS -/

theorem wrap_odd_of_odd (n : Nat) (h : n % 2 = 1) : wrap n % 2 = 1 := by
  unfold wrap
  omega

/-- C11 (evaluation of the code at an input on which the claim fails): the well-formed terms
`a.0` and `a.0 + a.0` (the same branch listed twice) are equal for `finite_ccs::operator==`,
which compares the sets of branches, and have different `std::hash<finite_ccs>` values
whatever the hash of strings is, because the hash adds up one contribution per listed
branch. -/
theorem hash_differs_on_equal_terms (H : String → Nat) :
    finite_ccs.well_formed (finite_ccs.prefixes [(a, nil)]) = true ∧
    finite_ccs.well_formed anil_anil = true ∧
    finite_ccs.operator_eq (finite_ccs.prefixes [(a, nil)]) anil_anil = true ∧
    finite_ccs.hash H (finite_ccs.prefixes [(a, nil)]) ≠ finite_ccs.hash H anil_anil := by
  refine ⟨rfl, rfl, rfl, ?_⟩
  have hX : (wrap (wrap (wrap (H "a") * 2) + 0) ^^^ 1) % 2 = 1 := by
    rw [Nat.xor_mod_two_eq]
    unfold wrap
    omega
  have hT := wrap_odd_of_odd _ (show ((wrap (wrap (wrap (H "a") * 2) + 0) ^^^ 1) * 7) % 2 = 1 by
    omega)
  simp only [anil_anil, finite_ccs.prefixes, nil, finite_ccs.nil, a, finite_ccs.hash,
    finite_ccs.hash_branches, Bool.false_eq_true, if_false]
  generalize wrap ((wrap (wrap (wrap (H "a") * 2) + 0) ^^^ 1) * 7) = T at hT
  unfold wrap
  omega

/-! ## Lemmas: what `finite_ccs::operator==` decides -/

section FiniteCCSEqSpec

variable {e : finite_ccs → finite_ccs → Bool}

theorem foldl_emplace_mem (l : List (Option finite_ccs)) :
    ∀ init : transition_node_set finite_ccs,
      ∀ z ∈ l.foldl (transition_node_set.emplace e) init, z ∈ init ∨ z ∈ l := by
  induction l with
  | nil => intro init z hz; exact Or.inl hz
  | cons x rest ih =>
    intro init z hz
    simp only [List.foldl_cons] at hz
    rcases ih _ z hz with h | h
    · rcases mem_emplace e init x z h with h | h
      · exact Or.inl h
      · exact Or.inr (by rw [h]; exact List.mem_cons_self _ _)
    · exact Or.inr (List.mem_cons_of_mem _ h)

theorem foldl_emplace_contains (h : EqIsEquivalence e) (l : List (Option finite_ccs)) :
    ∀ (init : transition_node_set finite_ccs) (v : Option finite_ccs),
      transition_node_set.contains e (l.foldl (transition_node_set.emplace e) init) v =
        (transition_node_set.contains e init v || l.any (fun x => KeyEqualizer e v x)) := by
  induction l with
  | nil => intro init v; simp
  | cons x rest ih =>
    intro init v
    simp only [List.foldl_cons, List.any_cons]
    rw [ih, contains_emplace h, Bool.or_assoc]

theorem foldl_emplace_distinct (h : EqIsEquivalence e) (l : List (Option finite_ccs)) :
    ∀ init : transition_node_set finite_ccs, distinct_nodes e init →
      distinct_nodes e (l.foldl (transition_node_set.emplace e) init) := by
  induction l with
  | nil => intro init hd; exact hd
  | cons x rest ih =>
    intro init hd
    simp only [List.foldl_cons]
    exact ih _ (emplace_distinct h.symm init x hd)

theorem lookup_multimap_fold (k : Bool × String)
    (mp : List ((Bool × String) × Option finite_ccs)) :
    ∀ m : List ((Bool × String) × transition_node_set finite_ccs),
      (map_find label_eq k (mp.foldl (fun m x => map_update label_eq []
        (fun set => transition_node_set.emplace e set x.2) x.1 m) m)).getD [] =
      (finite_ccs.continuations k mp).foldl (transition_node_set.emplace e)
        ((map_find label_eq k m).getD []) := by
  induction mp with
  | nil => intro m; rfl
  | cons x rest ih =>
    intro m
    simp only [List.foldl_cons]
    rw [ih, map_find_update label_eq label_eq_symm label_eq_congr]
    by_cases hk : x.1 = k
    · have h1 : label_eq k x.1 = true := by simp [label_eq, hk]
      have h2 : finite_ccs.continuations k (x :: rest) =
          x.2 :: finite_ccs.continuations k rest := by
        simp [finite_ccs.continuations, hk]
      rw [if_pos h1, h2, hk]
      rfl
    · have h1 : ¬ label_eq k x.1 = true := by
        simp only [label_eq, decide_eq_true_eq]
        exact fun h => hk h.symm
      have h2 : finite_ccs.continuations k (x :: rest) =
          finite_ccs.continuations k rest := by
        simp [finite_ccs.continuations, hk]
      rw [if_neg h1, h2]

theorem lookup_multimap (k : Bool × String)
    (mp : List ((Bool × String) × Option finite_ccs)) :
    (map_find label_eq k (finite_ccs.multimap e mp)).getD [] =
      (finite_ccs.continuations k mp).foldl (transition_node_set.emplace e) [] :=
  lookup_multimap_fold k mp []

theorem mem_continuations (k : Bool × String)
    (mp : List ((Bool × String) × Option finite_ccs)) (v : Option finite_ccs) :
    v ∈ finite_ccs.continuations k mp ↔ (k, v) ∈ mp := by
  simp only [finite_ccs.continuations, List.mem_map, List.mem_filter, decide_eq_true_eq]
  constructor
  · rintro ⟨⟨k', v'⟩, ⟨hmem, hk⟩, hv⟩
    simp only at hk hv
    subst hk hv
    exact hmem
  · intro hmem
    exact ⟨(k, v), ⟨hmem, rfl⟩, rfl⟩

theorem mem_label_set_fold (mp : List ((Bool × String) × Option finite_ccs)) :
    ∀ (init : List (Bool × String)) (k : Bool × String),
      k ∈ mp.foldl (fun LS x => if LS.contains x.1 then LS else LS ++ [x.1]) init ↔
        k ∈ init ∨ ∃ x ∈ mp, x.1 = k := by
  induction mp with
  | nil => intro init k; simp
  | cons x rest ih =>
    intro init k
    simp only [List.foldl_cons]
    rw [ih]
    by_cases hc : init.contains x.1 = true
    · rw [if_pos hc]
      simp only [List.mem_cons, exists_eq_or_imp]
      constructor
      · rintro (h | h)
        · exact Or.inl h
        · exact Or.inr (Or.inr h)
      · rintro (h | h | h)
        · exact Or.inl h
        · left
          rw [← h]
          simpa using hc
        · exact Or.inr h
    · rw [if_neg hc]
      simp only [List.mem_append, List.mem_cons, List.not_mem_nil, or_false, exists_eq_or_imp]
      constructor
      · rintro ((h | h) | h)
        · exact Or.inl h
        · exact Or.inr (Or.inl h.symm)
        · exact Or.inr (Or.inr h)
      · rintro (h | h | h)
        · exact Or.inl (Or.inl h)
        · exact Or.inl (Or.inr h.symm)
        · exact Or.inr h

theorem mem_label_set (mp : List ((Bool × String) × Option finite_ccs))
    (k : Bool × String) : k ∈ finite_ccs.label_set mp ↔ ∃ x ∈ mp, x.1 = k := by
  unfold finite_ccs.label_set
  rw [mem_label_set_fold]
  simp

theorem label_set_eq_iff (LS RS : List (Bool × String)) :
    finite_ccs.label_set_eq LS RS = true ↔ ∀ k, k ∈ LS ↔ k ∈ RS := by
  have hc : ∀ (l : List (Bool × String)) k, l.contains k = true ↔ k ∈ l := by
    intro l k; simp
  simp only [finite_ccs.label_set_eq, Bool.and_eq_true, List.all_eq_true, hc]
  constructor
  · rintro ⟨h1, h2⟩ k
    exact ⟨h1 k, h2 k⟩
  · intro h
    exact ⟨fun k hk => (h k).1 hk, fun k hk => (h k).2 hk⟩

theorem distinct_onto (h : EqIsEquivalence e) (A B : List (Option finite_ccs))
    (hA : distinct_nodes e A) (hlen : A.length = B.length)
    (hcov : ∀ x ∈ A, ∃ y ∈ B, KeyEqualizer e x y = true) :
    ∀ y ∈ B, ∃ x ∈ A, KeyEqualizer e y x = true := by
  intro y hy
  by_contra hno
  have hno' : ∀ x ∈ A, KeyEqualizer e x y = false := by
    intro x hx
    cases hxy : KeyEqualizer e x y with
    | false => rfl
    | true => exact absurd ⟨x, hx, KeyEqualizer_symm h hxy⟩ hno
  obtain ⟨B1, B2, hB⟩ := List.append_of_mem hy
  have hle : A.length ≤ (B1 ++ B2).length := by
    apply distinct_length_le h (B1 ++ B2) A hA
    intro x hx
    obtain ⟨y', hy', hxy'⟩ := hcov x hx
    rw [hB, List.mem_append, List.mem_cons] at hy'
    rcases hy' with h1 | rfl | h2
    · exact ⟨y', List.mem_append_left _ h1, hxy'⟩
    · rw [hno' x hx] at hxy'
      cases hxy'
    · exact ⟨y', List.mem_append_right _ h2, hxy'⟩
  rw [hB] at hlen
  simp only [List.length_append, List.length_cons] at hlen hle
  omega

theorem node_set_eq_iff (h : EqIsEquivalence e) (A B : List (Option finite_ccs))
    (hA : distinct_nodes e A) (hB : distinct_nodes e B) :
    finite_ccs.node_set_eq e A B = true ↔
      (∀ x ∈ A, ∃ y ∈ B, KeyEqualizer e x y = true) ∧
      (∀ y ∈ B, ∃ x ∈ A, KeyEqualizer e y x = true) := by
  simp only [finite_ccs.node_set_eq, Bool.and_eq_true, beq_iff_eq, List.all_eq_true,
    contains_iff]
  constructor
  · rintro ⟨hlen, hcov⟩
    exact ⟨hcov, distinct_onto h A B hA hlen hcov⟩
  · rintro ⟨h1, h2⟩
    exact ⟨Nat.le_antisymm (distinct_length_le h B A hA h1) (distinct_length_le h A B hB h2),
      h1⟩

theorem dedup_cover_iff (h : EqIsEquivalence e) (l l' : List (Option finite_ccs)) :
    (∀ x ∈ l.foldl (transition_node_set.emplace e) [],
      ∃ y ∈ l'.foldl (transition_node_set.emplace e) [], KeyEqualizer e x y = true) ↔
    (∀ v ∈ l, ∃ v' ∈ l', KeyEqualizer e v v' = true) := by
  have hin : ∀ (m : List (Option finite_ccs)) (v : Option finite_ccs), v ∈ m →
      ∃ x ∈ m.foldl (transition_node_set.emplace e) [], KeyEqualizer e v x = true := by
    intro m v hv
    apply (contains_iff _ _).1
    rw [foldl_emplace_contains h]
    simp only [Bool.or_eq_true, List.any_eq_true]
    exact Or.inr ⟨v, hv, KeyEqualizer_refl h v⟩
  have hout : ∀ (m : List (Option finite_ccs)) (x : Option finite_ccs),
      x ∈ m.foldl (transition_node_set.emplace e) [] → x ∈ m := by
    intro m x hx
    rcases foldl_emplace_mem m [] x hx with h1 | h1
    · cases h1
    · exact h1
  constructor
  · intro hcov v hv
    obtain ⟨x, hx, hvx⟩ := hin l v hv
    obtain ⟨y, hy, hxy⟩ := hcov x hx
    exact ⟨y, hout l' y hy, KeyEqualizer_trans h hvx hxy⟩
  · intro hsim x hx
    obtain ⟨v', hv', hxv'⟩ := hsim x (hout l x hx)
    obtain ⟨y, hy, hv'y⟩ := hin l' v' hv'
    exact ⟨y, hy, KeyEqualizer_trans h hxv' hv'y⟩

theorem multi_prefix_eq_iff (h : EqIsEquivalence e)
    (mp mp' : List ((Bool × String) × Option finite_ccs)) :
    ((if (!finite_ccs.label_set_eq (finite_ccs.label_set mp) (finite_ccs.label_set mp')) = true
      then false
      else (finite_ccs.label_set mp).all (fun k =>
        finite_ccs.node_set_eq e
          ((map_find label_eq k (finite_ccs.multimap e mp)).getD [])
          ((map_find label_eq k (finite_ccs.multimap e mp')).getD []))) = true) ↔
    finite_ccs.simulates e mp mp' ∧ finite_ccs.simulates e mp' mp := by
  have hsets : ∀ k, finite_ccs.node_set_eq e
        ((map_find label_eq k (finite_ccs.multimap e mp)).getD [])
        ((map_find label_eq k (finite_ccs.multimap e mp')).getD []) = true ↔
      (∀ v ∈ finite_ccs.continuations k mp, ∃ v' ∈ finite_ccs.continuations k mp',
        KeyEqualizer e v v' = true) ∧
      (∀ v ∈ finite_ccs.continuations k mp', ∃ v' ∈ finite_ccs.continuations k mp,
        KeyEqualizer e v v' = true) := by
    intro k
    rw [lookup_multimap, lookup_multimap, node_set_eq_iff h _ _
      (foldl_emplace_distinct h _ [] List.Pairwise.nil)
      (foldl_emplace_distinct h _ [] List.Pairwise.nil),
      dedup_cover_iff h, dedup_cover_iff h]
  have hsim : ∀ m m' : List ((Bool × String) × Option finite_ccs),
      finite_ccs.simulates e m m' ↔
        ∀ k, ∀ v ∈ finite_ccs.continuations k m, ∃ v' ∈ finite_ccs.continuations k m',
          KeyEqualizer e v v' = true := by
    intro m m'
    constructor
    · intro hs k v hv
      obtain ⟨⟨k', v'⟩, hmem, hk, hvv'⟩ := hs (k, v) ((mem_continuations k m v).1 hv)
      simp only at hk hvv'
      subst hk
      exact ⟨v', (mem_continuations _ m' v').2 hmem, hvv'⟩
    · intro hc x hx
      obtain ⟨v', hv', hvv'⟩ := hc x.1 x.2 ((mem_continuations x.1 m x.2).2 hx)
      exact ⟨(x.1, v'), (mem_continuations x.1 m' v').1 hv', rfl, hvv'⟩
  by_cases hl : finite_ccs.label_set_eq (finite_ccs.label_set mp) (finite_ccs.label_set mp') = true
  · simp only [hl, Bool.not_true, Bool.false_eq_true, if_false, List.all_eq_true, hsets]
    rw [hsim mp mp', hsim mp' mp]
    constructor
    · intro hall
      constructor
      · intro k v hv
        have hk : k ∈ finite_ccs.label_set mp :=
          (mem_label_set mp k).2 ⟨(k, v), (mem_continuations k mp v).1 hv, rfl⟩
        exact (hall k hk).1 v hv
      · intro k v hv
        have hk' : k ∈ finite_ccs.label_set mp' :=
          (mem_label_set mp' k).2 ⟨(k, v), (mem_continuations k mp' v).1 hv, rfl⟩
        have hk : k ∈ finite_ccs.label_set mp := ((label_set_eq_iff _ _).1 hl k).2 hk'
        exact (hall k hk).2 v hv
    · rintro ⟨h1, h2⟩ k _
      exact ⟨h1 k, h2 k⟩
  · have hl' : finite_ccs.label_set_eq (finite_ccs.label_set mp) (finite_ccs.label_set mp') =
        false := by simpa using hl
    simp only [hl', Bool.not_false, if_true, Bool.false_eq_true, false_iff]
    rintro ⟨h1, h2⟩
    apply hl
    rw [label_set_eq_iff]
    intro k
    rw [mem_label_set, mem_label_set]
    constructor
    · rintro ⟨x, hx, rfl⟩
      obtain ⟨x', hx', hk, _⟩ := h1 x hx
      exact ⟨x', hx', hk⟩
    · rintro ⟨x, hx, rfl⟩
      obtain ⟨x', hx', hk, _⟩ := h2 x hx
      exact ⟨x', hx', hk⟩

theorem eq_body_iff_spec (h : EqIsEquivalence e) (lhs rhs : finite_ccs) :
    finite_ccs.eq_body e lhs rhs = true ↔ finite_ccs.eq_spec e lhs rhs := by
  unfold finite_ccs.eq_body finite_ccs.eq_spec
  by_cases hc : lhs.casus = rhs.casus
  · simp only [hc, ne_eq, not_true_eq_false, if_false, true_and]
    cases hr : rhs.casus with
    | NIL => simp
    | MultiPrefix =>
      simp only []
      exact multi_prefix_eq_iff h _ _
    | ParallelComposition =>
      simp only []
      cases h0 : KeyEqualizer e (finite_ccs.component lhs.parallel_compose 0)
        (finite_ccs.component rhs.parallel_compose 0) <;> simp
    | Restriction =>
      simp only []
      by_cases hlab : lhs.restr_label = rhs.restr_label <;> simp [hlab]
  · simp [hc]

theorem simulates_refl (h : EqIsEquivalence e)
    (mp : List ((Bool × String) × Option finite_ccs)) : finite_ccs.simulates e mp mp :=
  fun x hx => ⟨x, hx, rfl, KeyEqualizer_refl h x.2⟩

theorem simulates_trans (h : EqIsEquivalence e)
    (m1 m2 m3 : List ((Bool × String) × Option finite_ccs))
    (h12 : finite_ccs.simulates e m1 m2) (h23 : finite_ccs.simulates e m2 m3) :
    finite_ccs.simulates e m1 m3 := by
  intro x hx
  obtain ⟨y, hy, hk, hxy⟩ := h12 x hx
  obtain ⟨z, hz, hk', hyz⟩ := h23 y hy
  exact ⟨z, hz, hk'.trans hk, KeyEqualizer_trans h hxy hyz⟩

theorem eq_spec_refl (h : EqIsEquivalence e) (x : finite_ccs) : finite_ccs.eq_spec e x x := by
  unfold finite_ccs.eq_spec
  refine ⟨rfl, ?_⟩
  cases x.casus with
  | NIL => trivial
  | MultiPrefix => exact ⟨simulates_refl h _, simulates_refl h _⟩
  | ParallelComposition => exact ⟨KeyEqualizer_refl h _, KeyEqualizer_refl h _⟩
  | Restriction => exact ⟨rfl, KeyEqualizer_refl h _⟩

theorem eq_spec_symm (h : EqIsEquivalence e) (x y : finite_ccs)
    (hxy : finite_ccs.eq_spec e x y) : finite_ccs.eq_spec e y x := by
  unfold finite_ccs.eq_spec at hxy ⊢
  obtain ⟨hc, hrest⟩ := hxy
  refine ⟨hc.symm, ?_⟩
  rw [← hc]
  cases hx : x.casus with
  | NIL => trivial
  | MultiPrefix =>
    rw [hx] at hrest
    exact ⟨hrest.2, hrest.1⟩
  | ParallelComposition =>
    rw [hx] at hrest
    exact ⟨KeyEqualizer_symm h hrest.1, KeyEqualizer_symm h hrest.2⟩
  | Restriction =>
    rw [hx] at hrest
    exact ⟨hrest.1.symm, KeyEqualizer_symm h hrest.2⟩

theorem eq_spec_trans (h : EqIsEquivalence e) (x y z : finite_ccs)
    (hxy : finite_ccs.eq_spec e x y) (hyz : finite_ccs.eq_spec e y z) :
    finite_ccs.eq_spec e x z := by
  unfold finite_ccs.eq_spec at hxy hyz ⊢
  obtain ⟨hc, hrest⟩ := hxy
  obtain ⟨hc', hrest'⟩ := hyz
  refine ⟨hc.trans hc', ?_⟩
  rw [← hc] at hrest'
  cases hx : x.casus with
  | NIL => trivial
  | MultiPrefix =>
    rw [hx] at hrest hrest'
    exact ⟨simulates_trans h _ _ _ hrest.1 hrest'.1, simulates_trans h _ _ _ hrest'.2 hrest.2⟩
  | ParallelComposition =>
    rw [hx] at hrest hrest'
    exact ⟨KeyEqualizer_trans h hrest.1 hrest'.1, KeyEqualizer_trans h hrest.2 hrest'.2⟩
  | Restriction =>
    rw [hx] at hrest hrest'
    exact ⟨hrest.1.trans hrest'.1, KeyEqualizer_trans h hrest.2 hrest'.2⟩

end FiniteCCSEqSpec

/-! ## Lemmas: `finite_ccs::operator==` is an equivalence relation -/

section FiniteCCSEquivalence

theorem eq_upto_agrees (eq : finite_ccs → finite_ccs → Bool) (n : Nat)
    (v w : Option finite_ccs) (hv : finite_ccs.depth_ptr v ≤ n)
    (hw : finite_ccs.depth_ptr w ≤ n) :
    KeyEqualizer eq v w = KeyEqualizer (finite_ccs.eq_upto eq n) v w := by
  cases v with
  | none => cases w <;> rfl
  | some x =>
    cases w with
    | none => rfl
    | some y =>
      simp only [finite_ccs.depth_ptr] at hv hw
      simp only [KeyEqualizer, derefEq, finite_ccs.eq_upto]
      rw [if_pos ⟨hv, hw⟩]

theorem eq_upto_equivalence (eq : finite_ccs → finite_ccs → Bool) (n : Nat)
    (hrefl : ∀ x, finite_ccs.depth x ≤ n → eq x x = true)
    (hsymm : ∀ x y, finite_ccs.depth x ≤ n → finite_ccs.depth y ≤ n →
      eq x y = true → eq y x = true)
    (htrans : ∀ x y z, finite_ccs.depth x ≤ n → finite_ccs.depth y ≤ n →
      finite_ccs.depth z ≤ n → eq x y = true → eq y z = true → eq x z = true) :
    EqIsEquivalence (finite_ccs.eq_upto eq n) where
  refl := by
    intro x
    unfold finite_ccs.eq_upto
    by_cases hx : finite_ccs.depth x ≤ n
    · rw [if_pos ⟨hx, hx⟩]; exact hrefl x hx
    · rw [if_neg (fun h => hx h.1)]
      simp only [Bool.and_eq_true, decide_eq_true_eq]
      omega
  symm := by
    intro x y hxy
    unfold finite_ccs.eq_upto at hxy ⊢
    by_cases hd : finite_ccs.depth x ≤ n ∧ finite_ccs.depth y ≤ n
    · rw [if_pos hd] at hxy
      rw [if_pos ⟨hd.2, hd.1⟩]
      exact hsymm x y hd.1 hd.2 hxy
    · rw [if_neg hd] at hxy
      rw [if_neg (fun h => hd ⟨h.2, h.1⟩)]
      simp only [Bool.and_eq_true, decide_eq_true_eq] at hxy ⊢
      exact ⟨hxy.2, hxy.1⟩
  trans := by
    intro x y z hxy hyz
    unfold finite_ccs.eq_upto at hxy hyz ⊢
    by_cases hd : finite_ccs.depth x ≤ n ∧ finite_ccs.depth y ≤ n
    · rw [if_pos hd] at hxy
      by_cases hd' : finite_ccs.depth y ≤ n ∧ finite_ccs.depth z ≤ n
      · rw [if_pos hd'] at hyz
        rw [if_pos ⟨hd.1, hd'.2⟩]
        exact htrans x y z hd.1 hd.2 hd'.2 hxy hyz
      · rw [if_neg hd'] at hyz
        simp only [Bool.and_eq_true, decide_eq_true_eq] at hyz
        omega
    · rw [if_neg hd] at hxy
      simp only [Bool.and_eq_true, decide_eq_true_eq] at hxy
      by_cases hd' : finite_ccs.depth y ≤ n ∧ finite_ccs.depth z ≤ n
      · omega
      · rw [if_neg hd'] at hyz
        simp only [Bool.and_eq_true, decide_eq_true_eq] at hyz
        rw [if_neg (fun h => by omega)]
        simp only [Bool.and_eq_true, decide_eq_true_eq]
        exact ⟨hxy.1, hyz.2⟩

theorem operator_eq_as_body (n : Nat) (x y : finite_ccs)
    (hx : finite_ccs.depth x ≤ n + 1) (hy : finite_ccs.depth y ≤ n + 1) :
    finite_ccs.operator_eq x y =
      finite_ccs.eq_body (finite_ccs.eq_upto finite_ccs.operator_eq n) x y := by
  rw [operator_eq_unfold]
  apply eq_body_congr
  intro v hv w hw
  have hvd : finite_ccs.depth_ptr v ≤ n := by
    rcases List.mem_append.1 hv with h | h
    · have := depth_ptr_children_lt x v h; omega
    · have := depth_ptr_children_lt y v h; omega
  have hwd : finite_ccs.depth_ptr w ≤ n := by
    rcases List.mem_append.1 hw with h | h
    · have := depth_ptr_children_lt x w h; omega
    · have := depth_ptr_children_lt y w h; omega
  exact eq_upto_agrees finite_ccs.operator_eq n v w hvd hwd

theorem operator_eq_equivalence_upto (n : Nat) :
    (∀ x, finite_ccs.depth x ≤ n → finite_ccs.operator_eq x x = true) ∧
    (∀ x y, finite_ccs.depth x ≤ n → finite_ccs.depth y ≤ n →
      finite_ccs.operator_eq x y = true → finite_ccs.operator_eq y x = true) ∧
    (∀ x y z, finite_ccs.depth x ≤ n → finite_ccs.depth y ≤ n → finite_ccs.depth z ≤ n →
      finite_ccs.operator_eq x y = true → finite_ccs.operator_eq y z = true →
      finite_ccs.operator_eq x z = true) := by
  induction n with
  | zero =>
    refine ⟨fun x hx => ?_, fun x y hx => ?_, fun x y z hx => ?_⟩ <;>
      · have := depth_pos x
        omega
  | succ n ih =>
    obtain ⟨hr, hs, ht⟩ := ih
    have hE := eq_upto_equivalence finite_ccs.operator_eq n hr hs ht
    refine ⟨fun x hx => ?_, fun x y hx hy hxy => ?_, fun x y z hx hy hz hxy hyz => ?_⟩
    · rw [operator_eq_as_body n x x hx hx, eq_body_iff_spec hE]
      exact eq_spec_refl hE x
    · rw [operator_eq_as_body n x y hx hy, eq_body_iff_spec hE] at hxy
      rw [operator_eq_as_body n y x hy hx, eq_body_iff_spec hE]
      exact eq_spec_symm hE x y hxy
    · rw [operator_eq_as_body n x y hx hy, eq_body_iff_spec hE] at hxy
      rw [operator_eq_as_body n y z hy hz, eq_body_iff_spec hE] at hyz
      rw [operator_eq_as_body n x z hx hz, eq_body_iff_spec hE]
      exact eq_spec_trans hE x y z hxy hyz

theorem operator_eq_is_equivalence : EqIsEquivalence finite_ccs.operator_eq where
  refl := fun x => (operator_eq_equivalence_upto (finite_ccs.depth x)).1 x le_rfl
  symm := fun x y hxy =>
    (operator_eq_equivalence_upto (max (finite_ccs.depth x) (finite_ccs.depth y))).2.1 x y
      (le_max_left _ _) (le_max_right _ _) hxy
  trans := fun x y z hxy hyz =>
    (operator_eq_equivalence_upto
      (max (finite_ccs.depth x) (max (finite_ccs.depth y) (finite_ccs.depth z)))).2.2 x y z
      (le_max_left _ _) (le_trans (le_max_left _ _) (le_max_right _ _))
      (le_trans (le_max_right _ _) (le_max_right _ _)) hxy hyz

/-- The operator `finite_ccs::operator==` decides the specification `eq_spec` of itself. -/
theorem operator_eq_iff_spec (x y : finite_ccs) :
    finite_ccs.operator_eq x y = true ↔ finite_ccs.eq_spec finite_ccs.operator_eq x y := by
  rw [operator_eq_unfold, eq_body_iff_spec operator_eq_is_equivalence]

end FiniteCCSEquivalence

/-! ## Theorems: syntactic equality of arithmetic expressions -/

theorem num_op_depth_pos (x : num_op) : 0 < num_op.depth x := by
  obtain ⟨v, l, r, c⟩ := x
  cases l <;> cases r <;> simp [num_op.depth]

theorem num_op_depth_left_lt (v : Nat) (l : num_op) (r : Option num_op) (c : op_type) :
    num_op.depth l < num_op.depth (num_op.mk v (some l) r c) := by
  cases r with
  | none => simp [num_op.depth]
  | some r =>
    simp only [num_op.depth]
    have := le_max_left (num_op.depth l) (num_op.depth r)
    omega

theorem num_op_depth_right_lt (v : Nat) (l : Option num_op) (r : num_op) (c : op_type) :
    num_op.depth r < num_op.depth (num_op.mk v l (some r) c) := by
  cases l with
  | none => simp [num_op.depth]
  | some l =>
    simp only [num_op.depth]
    have := le_max_right (num_op.depth l) (num_op.depth r)
    omega

theorem num_op_operator_eq_false_upto (n : Nat) :
    ∀ x y : num_op, num_op.depth x ≤ n → num_op.operator_eq x y = false := by
  induction n with
  | zero =>
    intro x y hx
    have := num_op_depth_pos x
    omega
  | succ n ih =>
    intro x y hx
    obtain ⟨v, l, r, c⟩ := x
    unfold num_op.operator_eq
    by_cases hc : (v == y.val && ((l.isSome == y.left.isSome) && l.isSome)) = true
    · rw [if_pos hc]
      cases l with
      | none => rfl
      | some l =>
        cases hyl : y.left with
        | none => rfl
        | some yl =>
          simp only []
          apply ih
          have := num_op_depth_left_lt v l r c
          omega
    · rw [if_neg hc]
      simp

/-- C13 (evaluation of the code at an input on which the claim fails): `num_op::operator==`
returns false on every pair of expressions, because of the way its expression groups; in
particular `num_op(1) == num_op(1)` is false, while two expressions with the same case tag,
the same value and no operands are syntactically equivalent. -/
theorem num_op_operator_eq_never_true :
    (∀ x y : num_op, num_op.operator_eq x y = false) ∧
    num_op.operator_eq (num_op.number 1) (num_op.number 1) = false :=
  ⟨fun x y => num_op_operator_eq_false_upto (num_op.depth x) x y le_rfl, rfl⟩

/-! ## Lemmas: the arithmetic dispatcher and its recursion depth -/

section ArithmeticLemmas

theorem num_op_depth_ptr_left_lt (t : num_op) :
    num_op.depth_ptr t.left < num_op.depth t := by
  obtain ⟨v, l, r, c⟩ := t
  cases l with
  | none =>
    simp only [num_op.left, num_op.depth_ptr]
    exact num_op_depth_pos _
  | some l => exact num_op_depth_left_lt v l r c

theorem num_op_depth_ptr_right_lt (t : num_op) :
    num_op.depth_ptr t.right < num_op.depth t := by
  obtain ⟨v, l, r, c⟩ := t
  cases r with
  | none =>
    simp only [num_op.right, num_op.depth_ptr]
    exact num_op_depth_pos _
  | some r => exact num_op_depth_right_lt v l r c

theorem transformer_operator_call_congr (rec rec' : RecHandle num_op String Nat) (t : num_op)
    (hl : rec t.left = rec' t.left) (hr : rec t.right = rec' t.right) :
    transformer_rules.operator_call rec (some t) =
      transformer_rules.operator_call rec' (some t) := by
  simp only [language_semantics.operator_call, transformer_rules, language_semantics.add_rule,
    language_semantics.fresh, List.nil_append, List.cons_append,
    language_semantics.scan_rules, none_transform, val_transform, expr_transform,
    plus_transform, times_transform, minus_transform, div_transform, hl, hr]

theorem transformer_fuel_stable (n : Nat) :
    ∀ (m : Nat) (t : Option num_op), num_op.depth_ptr t < n → num_op.depth_ptr t < m →
      transformer_fuel n t = transformer_fuel m t := by
  induction n with
  | zero => intro m t hn; cases hn
  | succ n ih =>
    intro m t hn hm
    cases m with
    | zero => cases hm
    | succ m =>
      cases t with
      | none => rfl
      | some t =>
        simp only [transformer_fuel]
        have hl := num_op_depth_ptr_left_lt t
        have hr := num_op_depth_ptr_right_lt t
        simp only [num_op.depth_ptr] at hn hm
        exact transformer_operator_call_congr _ _ t
          (ih m _ (by omega) (by omega)) (ih m _ (by omega) (by omega))

/-- The call `transformer(t)` is the dispatcher of the rule table of `main` handed to its own
transforms: the depth bound of `transformer` is never reached. -/
theorem transformer_unfold (t : Option num_op) :
    transformer t = transformer_rules.operator_call transformer t := by
  cases t with
  | none => rfl
  | some t =>
    simp only [transformer, transformer_fuel]
    have hl := num_op_depth_ptr_left_lt t
    have hr := num_op_depth_ptr_right_lt t
    simp only [num_op.depth_ptr]
    exact transformer_operator_call_congr _ _ t
      (transformer_fuel_stable _ _ _ (by omega) (by omega))
      (transformer_fuel_stable _ _ _ (by omega) (by omega))

theorem transformer_val (v : Nat) (l r : Option num_op) :
    transformer (some (num_op.mk v l r .VAL)) = [("val", some v)] := by
  rw [transformer_unfold]
  rfl

theorem transformer_expr (v : Nat) (l : num_op) (r : Option num_op) :
    transformer (some (num_op.mk v (some l) r .EXPR)) = transformer (some l) := by
  rw [transformer_unfold]
  rfl

theorem transformer_plus (v : Nat) (l r : num_op) :
    transformer (some (num_op.mk v (some l) (some r) .PLUS)) =
      if !(transformer (some l)).isEmpty && !(transformer (some r)).isEmpty then
        [("PLUS", some (wrap (first_value (transformer (some l)) +
          first_value (transformer (some r)))))]
      else [] := by
  rw [transformer_unfold]
  rfl

theorem transformer_times (v : Nat) (l r : num_op) :
    transformer (some (num_op.mk v (some l) (some r) .TIMES)) =
      if !(transformer (some l)).isEmpty && !(transformer (some r)).isEmpty then
        [("TIMES", some (wrap (first_value (transformer (some l)) *
          first_value (transformer (some r)))))]
      else [] := by
  rw [transformer_unfold]
  rfl

theorem transformer_minus (v : Nat) (l r : num_op) :
    transformer (some (num_op.mk v (some l) (some r) .MINUS)) =
      if !(transformer (some l)).isEmpty && !(transformer (some r)).isEmpty &&
          decide (first_value (transformer (some l)) ≥ first_value (transformer (some r))) then
        [("MINUS", some (first_value (transformer (some l)) -
          first_value (transformer (some r))))]
      else [] := by
  rw [transformer_unfold]
  rfl

theorem transformer_div (v : Nat) (l r : num_op) :
    transformer (some (num_op.mk v (some l) (some r) .DIV)) =
      if !(transformer (some l)).isEmpty && !(transformer (some r)).isEmpty &&
          decide (first_value (transformer (some r)) > 0) then
        [("MINUS", some (first_value (transformer (some l)) /
          first_value (transformer (some r))))]
      else [] := by
  rw [transformer_unfold]
  rfl

end ArithmeticLemmas

/-! ## Theorems: the arithmetic rule set -/

theorem transformer_computes_value_upto (n : Nat) :
    ∀ t : num_op, num_op.depth t ≤ n → num_op.well_formed t = true →
      transformer (some t) =
        match num_op.denote t with
        | none => []
        | some v => [(num_op.label t, some v)] := by
  induction n with
  | zero =>
    intro t ht
    have := num_op_depth_pos t
    omega
  | succ n ih =>
    intro t ht hwf
    obtain ⟨v, l, r, c⟩ := t
    cases l with
    | none =>
      cases r with
      | none =>
        simp only [num_op.well_formed, Bool.and_eq_true, beq_iff_eq] at hwf
        obtain ⟨rfl, _⟩ := hwf
        rw [transformer_val]
        rfl
      | some r => simp [num_op.well_formed] at hwf
    | some l =>
      have hl : num_op.depth l ≤ n := by
        have := num_op_depth_left_lt v l r c
        omega
      cases r with
      | none =>
        simp only [num_op.well_formed, Bool.and_eq_true, beq_iff_eq] at hwf
        obtain ⟨rfl, hwl⟩ := hwf
        rw [transformer_expr, ih l hl hwl]
        rfl
      | some r =>
        have hr : num_op.depth r ≤ n := by
          have := num_op_depth_right_lt v (some l) r c
          omega
        simp only [num_op.well_formed, Bool.and_eq_true] at hwf
        obtain ⟨⟨hc, hwl⟩, hwr⟩ := hwf
        have hL := ih l hl hwl
        have hR := ih r hr hwr
        cases c with
        | PLUS =>
          rw [transformer_plus, hL, hR]
          simp only [num_op.denote, num_op.label]
          cases num_op.denote l <;> cases num_op.denote r <;> simp [first_value, wrap]
        | TIMES =>
          rw [transformer_times, hL, hR]
          simp only [num_op.denote, num_op.label]
          cases num_op.denote l <;> cases num_op.denote r <;> simp [first_value, wrap]
        | MINUS =>
          rw [transformer_minus, hL, hR]
          simp only [num_op.denote, num_op.label]
          cases hdl : num_op.denote l <;> cases hdr : num_op.denote r <;>
            simp [first_value]
          rename_i x y
          by_cases hxy : y ≤ x <;> simp [hxy]
        | DIV =>
          rw [transformer_div, hL, hR]
          simp only [num_op.denote, num_op.label]
          cases hdl : num_op.denote l <;> cases hdr : num_op.denote r <;>
            simp [first_value]
          rename_i x y
          by_cases hy : 0 < y <;> simp [hy]
        | VAL => simp at hc
        | EXPR => simp at hc

/-- C14: for every well-formed expression `t` (numbers, parentheses with a present operand,
binary nodes with two present operands), `transformer(t)` is empty when the partial value of
`t` is undefined and is otherwise the single pair of the label of `t` and the value of `t`
in unsigned 64-bit arithmetic, the label of `DIV` being `"MINUS"`; and `(1 + 2) * 3`
evaluates to the single pair `("TIMES", 9)`. -/
theorem transformer_computes_value (t : num_op) (hwf : num_op.well_formed t = true) :
    (transformer (some t) =
      match num_op.denote t with
      | none => []
      | some v => [(num_op.label t, some v)]) ∧
    (∀ junk junk', transformer (op1 junk junk') = [("TIMES", some 9)]) :=
  ⟨transformer_computes_value_upto (num_op.depth t) t le_rfl hwf, fun _ _ => rfl⟩

/-- Witness of C14: the expression `(1 + 2) / 3`, which is well-formed, has the value `1` and
the label `"MINUS"`. -/
theorem transformer_computes_value_witness :
    num_op.well_formed (num_op.binary 0 (one_plus_two 0) .DIV three) = true ∧
    transformer (op2 0 0) = [("MINUS", some 1)] :=
  ⟨rfl, (transformer_computes_value (num_op.binary 0 (one_plus_two 0) .DIV three) rfl).1⟩

/-- C15: for every `DIV` term with two present operands, `transformer` returns a non-empty
result if and only if it returns a non-empty result on both operands and the first value of
the result of the divisor is greater than `0`, and the result is then the single pair of
`"MINUS"` and the integer quotient of the first values; `(1 + 2) / 0` yields the empty
sequence and `(1 + 2) / 3` yields the single value `1`. -/
theorem transformer_div_defined_iff (v : Nat) (l r : num_op) :
    (transformer (some (num_op.mk v (some l) (some r) .DIV)) ≠ [] ↔
      transformer (some l) ≠ [] ∧ transformer (some r) ≠ [] ∧
        0 < first_value (transformer (some r))) ∧
    (transformer (some (num_op.mk v (some l) (some r) .DIV)) ≠ [] →
      transformer (some (num_op.mk v (some l) (some r) .DIV)) =
        [("MINUS", some (first_value (transformer (some l)) /
          first_value (transformer (some r))))]) ∧
    (∀ junk junk', transformer (op5 junk junk') = []) ∧
    (∀ junk junk', transformer (op2 junk junk') = [("MINUS", some 1)]) := by
  refine ⟨?_, ?_, fun _ _ => rfl, fun junk junk' => ?_⟩
  · rw [transformer_div]
    cases hL : transformer (some l) <;> cases hR : transformer (some r) <;>
      simp [Nat.pos_iff_ne_zero]
  · rw [transformer_div]
    intro hne
    split
    · rfl
    · rename_i hc
      rw [if_neg hc] at hne
      exact absurd rfl hne
  · have h12 : transformer (some (num_op.binary junk one .PLUS two)) = [("PLUS", some 3)] :=
      rfl
    have h3 : transformer (some (num_op.number 3)) = [("val", some 3)] := rfl
    have hd := transformer_div junk' (num_op.binary junk one .PLUS two) (num_op.number 3)
    rw [h12, h3] at hd
    exact hd

/-- C16: for every `MINUS` term with two present operands, `transformer` returns a non-empty
result if and only if it returns a non-empty result on both operands and the first value of
the left result is greater than or equal to the first value of the right result, and the
result is then the single pair of `"MINUS"` and the exact difference `d`, for which `d` plus
the right value is the left value; `(1 + 2) - 3` yields the single value `0` and
`(1 + 2) - 4` yields the empty sequence. -/
theorem transformer_minus_defined_iff (v : Nat) (l r : num_op) :
    (transformer (some (num_op.mk v (some l) (some r) .MINUS)) ≠ [] ↔
      transformer (some l) ≠ [] ∧ transformer (some r) ≠ [] ∧
        first_value (transformer (some r)) ≤ first_value (transformer (some l))) ∧
    (transformer (some (num_op.mk v (some l) (some r) .MINUS)) ≠ [] →
      ∃ d, transformer (some (num_op.mk v (some l) (some r) .MINUS)) = [("MINUS", some d)] ∧
        d + first_value (transformer (some r)) = first_value (transformer (some l))) ∧
    (∀ junk junk', transformer (op3 junk junk') = [("MINUS", some 0)]) ∧
    (∀ junk junk', transformer (op4 junk junk') = []) := by
  refine ⟨?_, ?_, fun _ _ => rfl, fun _ _ => rfl⟩
  · rw [transformer_minus]
    cases hL : transformer (some l) <;> cases hR : transformer (some r) <;> simp
  · rw [transformer_minus]
    intro hne
    by_cases hc : (!(transformer (some l)).isEmpty && !(transformer (some r)).isEmpty &&
        decide (first_value (transformer (some l)) ≥ first_value (transformer (some r)))) = true
    · rw [if_pos hc]
      refine ⟨_, rfl, ?_⟩
      simp only [Bool.and_eq_true, decide_eq_true_eq] at hc
      omega
    · rw [if_neg hc] at hne
      exact absurd rfl hne

/-! ## Lemmas: the two phases of the parallel rule -/

section ParallelRuleLemmas

theorem foldl_flatMap_eq {α β γ : Type} (f : α → List β) (g : γ → β → γ) (l : List α) :
    ∀ init : γ, (l.flatMap f).foldl g init = l.foldl (fun acc i => (f i).foldl g acc) init := by
  induction l with
  | nil => intro init; rfl
  | cons x rest ih =>
    intro init
    simp only [List.flatMap_cons, List.foldl_append, List.foldl_cons]
    exact ih _

theorem parallel_interleave_as_fold (rec : RecHandle finite_ccs (Bool × String) finite_ccs)
    (t : finite_ccs) :
    parallel_interleave rec t =
      (parallel_offers rec t).foldl (fun acc o => parallel_outcome t o.1 acc o.2) ([], []) := by
  unfold parallel_interleave parallel_offers
  rw [foldl_flatMap_eq]
  congr 1
  funext acc i
  rw [List.foldl_map]

theorem parallel_fold_components (t : finite_ccs) (offers : List offer) :
    ∀ acc : offer_map × Outcomes (Bool × String) finite_ccs,
      offers.foldl (fun acc o => parallel_outcome t o.1 acc o.2) acc =
        (offers.foldl file_offer acc.1, acc.2 ++ interleavings t offers) := by
  induction offers with
  | nil => intro acc; simp [interleavings]
  | cons o rest ih =>
    intro acc
    simp only [List.foldl_cons]
    rw [ih]
    simp only [parallel_outcome, file_offer, interleavings, List.map_cons, List.append_assoc,
      List.singleton_append]

theorem offered_names_append (pre : List offer) (o : offer) :
    offered_names (pre ++ [o]) =
      if o.2.1.2 ≠ tau ∧ o.2.1.2 ∉ offered_names pre then offered_names pre ++ [o.2.1.2]
      else offered_names pre := by
  simp only [offered_names, List.foldl_append, List.foldl_cons, List.foldl_nil]

theorem offers_on_append (p : Bool) (n : String) (pre : List offer) (o : offer) :
    offers_on p n (pre ++ [o]) =
      offers_on p n pre ++ (if o.2.1 = (p, n) then [(o.1, o.2.2)] else []) := by
  unfold offers_on
  rw [List.filter_append, List.map_append]
  by_cases h : o.2.1 = (p, n)
  · simp [h]
  · simp [h]

theorem mem_offered_names (offers : List offer) :
    ∀ n, n ∈ offered_names offers ↔ n ≠ tau ∧ ∃ o ∈ offers, o.2.1.2 = n := by
  induction offers using List.reverseRecOn with
  | nil => intro n; simp [offered_names]
  | append_singleton pre o ih =>
    intro n
    rw [offered_names_append]
    by_cases hc : o.2.1.2 ≠ tau ∧ o.2.1.2 ∉ offered_names pre
    · rw [if_pos hc, List.mem_append, List.mem_singleton, ih]
      constructor
      · rintro (⟨h1, o', ho', h2⟩ | rfl)
        · exact ⟨h1, o', List.mem_append_left _ ho', h2⟩
        · exact ⟨hc.1, o, by simp, rfl⟩
      · rintro ⟨h1, o', ho', h2⟩
        rcases List.mem_append.1 ho' with h | h
        · exact Or.inl ⟨h1, o', h, h2⟩
        · rw [List.mem_singleton] at h
          subst h
          exact Or.inr h2.symm
    · rw [if_neg hc, ih]
      constructor
      · rintro ⟨h1, o', ho', h2⟩
        exact ⟨h1, o', List.mem_append_left _ ho', h2⟩
      · rintro ⟨h1, o', ho', h2⟩
        rcases List.mem_append.1 ho' with h | h
        · exact ⟨h1, o', h, h2⟩
        · rw [List.mem_singleton] at h
          subst h
          subst h2
          have hin : o'.2.1.2 ∈ offered_names pre := by
            by_contra hnot
            exact hc ⟨h1, hnot⟩
          exact (ih _).1 hin

theorem offered_names_nodup (offers : List offer) : (offered_names offers).Nodup := by
  induction offers using List.reverseRecOn with
  | nil => simp [offered_names]
  | append_singleton pre o ih =>
    rw [offered_names_append]
    by_cases hc : o.2.1.2 ≠ tau ∧ o.2.1.2 ∉ offered_names pre
    · rw [if_pos hc]
      rw [List.nodup_append]
      refine ⟨ih, List.nodup_singleton _, ?_⟩
      intro x hx hx'
      rw [List.mem_singleton] at hx'
      subst hx'
      exact hc.2 hx
    · rw [if_neg hc]
      exact ih

theorem offers_on_nil_of_not_mem (p : Bool) (n : String) (offers : List offer)
    (hn : n ≠ tau) (hnot : n ∉ offered_names offers) : offers_on p n offers = [] := by
  unfold offers_on
  rw [List.map_eq_nil_iff, List.filter_eq_nil_iff]
  intro o ho hpn
  simp only [decide_eq_true_eq] at hpn
  apply hnot
  rw [mem_offered_names]
  exact ⟨hn, o, ho, by rw [hpn]⟩

theorem map_update_map_of_not_mem {V : Type} (dflt : V) (f : V → V) (n : String)
    (g : String → V) (ns : List String) (hn : n ∉ ns) :
    map_update label_eq dflt f n (ns.map (fun x => (x, g x))) =
      ns.map (fun x => (x, g x)) ++ [(n, f dflt)] := by
  induction ns with
  | nil => rfl
  | cons x rest ih =>
    have hx : ¬ label_eq n x = true := by
      simp only [label_eq, decide_eq_true_eq]
      intro h
      exact hn (by rw [h]; exact List.mem_cons_self _ _)
    simp only [List.map_cons, List.cons_append]
    rw [map_update_cons_neg label_eq dflt f n x (g x) _ hx,
      ih (fun h => hn (List.mem_cons_of_mem _ h))]

theorem map_update_map_of_mem {V : Type} (dflt : V) (f : V → V) (n : String)
    (g : String → V) (ns : List String) (hn : n ∈ ns) (hnd : ns.Nodup) :
    map_update label_eq dflt f n (ns.map (fun x => (x, g x))) =
      ns.map (fun x => (x, if x = n then f (g x) else g x)) := by
  induction ns with
  | nil => cases hn
  | cons x rest ih =>
    rw [List.nodup_cons] at hnd
    simp only [List.map_cons]
    by_cases hx : n = x
    · subst hx
      have hpos : label_eq n n = true := by simp [label_eq]
      rw [map_update_cons_pos label_eq dflt f n n (g n) _ hpos]
      simp only [if_true, List.cons.injEq, true_and]
      apply List.map_congr_left
      intro y hy
      have : y ≠ n := fun h => hnd.1 (h ▸ hy)
      simp [this]
    · have hneg : ¬ label_eq n x = true := by
        simp only [label_eq, decide_eq_true_eq]
        exact hx
      have hmem : n ∈ rest := by
        rcases List.mem_cons.1 hn with h | h
        · exact absurd h hx
        · exact h
      rw [map_update_cons_neg label_eq dflt f n x (g x) _ hneg, ih hmem hnd.2]
      have : ¬ x = n := fun h => hx h.symm
      simp [this]

theorem file_offer_grouped (pre : List offer) (o : offer) :
    file_offer (grouped_offers pre) o = grouped_offers (pre ++ [o]) := by
  have hnotau : ∀ n ∈ offered_names pre, n ≠ tau := fun n hn =>
    ((mem_offered_names pre n).1 hn).1
  unfold file_offer
  by_cases htau : o.2.1.2 = tau
  · have h1 : ¬ (o.2.1.2 ≠ tau) := fun h => h htau
    rw [if_neg h1]
    unfold grouped_offers
    rw [offered_names_append, if_neg (fun h => h.1 htau)]
    apply List.map_congr_left
    intro n hn
    have hne : ∀ p, ¬ o.2.1 = (p, n) := by
      intro p h
      apply hnotau n hn
      rw [← htau, h]
    simp only [offers_on_append, hne, if_false, List.append_nil]
  · rw [if_pos htau]
    obtain ⟨i, ⟨p, n0⟩, val⟩ := o
    simp only at htau ⊢
    have hon : ∀ q n, offers_on q n (pre ++ [(i, (p, n0), val)]) =
        offers_on q n pre ++ (if q = p ∧ n = n0 then [(i, val)] else []) := by
      intro q n
      rw [offers_on_append]
      simp only [Prod.mk.injEq]
      by_cases hq : p = q ∧ n0 = n
      · rw [if_pos hq, if_pos ⟨hq.1.symm, hq.2.symm⟩]
      · rw [if_neg hq, if_neg (fun h => hq ⟨h.1.symm, h.2.symm⟩)]
    unfold grouped_offers
    rw [offered_names_append]
    simp only
    by_cases hmem : n0 ∈ offered_names pre
    · rw [if_neg (show ¬ (n0 ≠ tau ∧ n0 ∉ offered_names pre) from fun h => h.2 hmem)]
      cases p with
      | true =>
        rw [if_pos rfl]
        rw [map_update_map_of_mem _ _ n0
          (fun n => (offers_on true n pre, offers_on false n pre)) _ hmem
          (offered_names_nodup pre)]
        apply List.map_congr_left
        intro n _
        by_cases hn : n = n0
        · simp [hon, hn]
        · simp [hon, hn]
      | false =>
        rw [if_neg Bool.false_ne_true]
        rw [map_update_map_of_mem _ _ n0
          (fun n => (offers_on true n pre, offers_on false n pre)) _ hmem
          (offered_names_nodup pre)]
        apply List.map_congr_left
        intro n _
        by_cases hn : n = n0
        · simp [hon, hn]
        · simp [hon, hn]
    · rw [if_pos (show n0 ≠ tau ∧ n0 ∉ offered_names pre from ⟨htau, hmem⟩)]
      have hemp : ∀ q, offers_on q n0 pre = [] := fun q =>
        offers_on_nil_of_not_mem q n0 pre htau hmem
      have hold : ∀ n ∈ offered_names pre, ∀ q,
          offers_on q n (pre ++ [(i, (p, n0), val)]) = offers_on q n pre := by
        intro n hn q
        rw [hon]
        have : ¬ (q = p ∧ n = n0) := fun h => hmem (h.2 ▸ hn)
        rw [if_neg this, List.append_nil]
      cases p with
      | true =>
        rw [if_pos rfl]
        rw [map_update_map_of_not_mem _ _ n0
          (fun n => (offers_on true n pre, offers_on false n pre)) _ hmem]
        rw [List.map_append]
        congr 1
        · apply List.map_congr_left
          intro n hn
          rw [hold n hn true, hold n hn false]
        · simp [hon, hemp]
      | false =>
        rw [if_neg Bool.false_ne_true]
        rw [map_update_map_of_not_mem _ _ n0
          (fun n => (offers_on true n pre, offers_on false n pre)) _ hmem]
        rw [List.map_append]
        congr 1
        · apply List.map_congr_left
          intro n hn
          rw [hold n hn true, hold n hn false]
        · simp [hon, hemp]

theorem foldl_file_offer_grouped (offers : List offer) :
    ∀ pre : List offer,
      offers.foldl file_offer (grouped_offers pre) = grouped_offers (pre ++ offers) := by
  induction offers with
  | nil => intro pre; simp
  | cons o rest ih =>
    intro pre
    simp only [List.foldl_cons]
    rw [file_offer_grouped, ih]
    simp

theorem parallel_interleave_eq (rec : RecHandle finite_ccs (Bool × String) finite_ccs)
    (t : finite_ccs) :
    parallel_interleave rec t =
      (grouped_offers (parallel_offers rec t), interleavings t (parallel_offers rec t)) := by
  rw [parallel_interleave_as_fold, parallel_fold_components]
  have := foldl_file_offer_grouped (parallel_offers rec t) []
  simp only [List.nil_append] at this
  have hnil : grouped_offers [] = [] := rfl
  rw [hnil] at this
  rw [this]
  simp

theorem parallel_synchronise_grouped (t : finite_ccs) (offers : List offer) :
    parallel_synchronise t (grouped_offers offers) = synchronisations t offers := by
  unfold parallel_synchronise grouped_offers synchronisations
  rw [List.flatMap_map]

theorem parallel_transform_eq (rec : RecHandle finite_ccs (Bool × String) finite_ccs)
    (t : finite_ccs) :
    parallel_transform rec (some t) =
      interleavings t (parallel_offers rec t) ++
        synchronisations t (parallel_offers rec t) := by
  simp only [parallel_transform, parallel_interleave_eq, parallel_synchronise_grouped]

theorem finiteCCS_call_parallel (t : finite_ccs) (hc : t.casus = .ParallelComposition) :
    finiteCCS_call (some t) =
      interleavings t (parallel_offers finiteCCS_call t) ++
        synchronisations t (parallel_offers finiteCCS_call t) := by
  rw [finiteCCS_call_unfold]
  have h1 : multi_prefix_test (some t) = false := by
    simp [multi_prefix_test, hc]
  by_cases hne : t.parallel_compose = []
  · have h2 : parallel_test (some t) = false := by
      simp [parallel_test, hc, hne]
    have h3 : restriction_test (some t) = false := by
      simp [restriction_test, hc]
    have h4 : parallel_offers finiteCCS_call t = [] := by
      simp [parallel_offers, hne]
    rw [h4]
    simp [language_semantics.operator_call, finiteCCS_rules, language_semantics.add_rule,
      language_semantics.fresh, language_semantics.scan_rules, h1, h2, h3, interleavings,
      synchronisations, offered_names]
  · have h2 : parallel_test (some t) = true := by
      simp [parallel_test, hc, hne]
    rw [← parallel_transform_eq]
    simp [language_semantics.operator_call, finiteCCS_rules, language_semantics.add_rule,
      language_semantics.fresh, language_semantics.scan_rules, h1, h2]

end ParallelRuleLemmas

/-! ## Theorems: the finite CCS rule set -/

/-- C17: exploring `a.0 | b.0` with the finite CCS rules. The root has exactly the two
outcomes labelled `a`, to `0 | b.0`, and `b`, to `a.0 | 0`, and the graph holds exactly these
two edges for the root, none of them labelled with the synchronisation label; the
exploration visits the four states `a.0 | b.0`, `a.0 | 0`, `0 | 0` and `0 | b.0`; the state
`0 | 0` is the target of an edge from `a.0 | 0` and of an edge from `0 | b.0`, is recorded
once in `visited_nodes`, and has no outcome and no entry in the graph. -/
theorem visit_anil_parall_bnil :
    finiteCCS_call anil_parall_bnil = [(a, nil_parall_bnil), (b, anil_parall_nil)] ∧
    visit finiteCCS_call finite_ccs.operator_eq 5 small_step_semantics.fresh
        anil_parall_bnil =
      some { forward_transition_graph :=
               [(anil_parall_bnil, [(a, [nil_parall_bnil]), (b, [anil_parall_nil])]),
                (anil_parall_nil, [(a, [nil_parall_nil])]),
                (nil_parall_bnil, [(b, [nil_parall_nil])])]
             visited_nodes :=
               [anil_parall_bnil, anil_parall_nil, nil_parall_nil, nil_parall_bnil] } ∧
    has_label finite_ccs.operator_eq
      ([(anil_parall_bnil, [(a, [nil_parall_bnil]), (b, [anil_parall_nil])]),
        (anil_parall_nil, [(a, [nil_parall_nil])]),
        (nil_parall_bnil, [(b, [nil_parall_nil])])] :
        transition_graph finite_ccs (Bool × String)) anil_parall_bnil tauPair = false ∧
    List.Pairwise
      (fun x y => KeyEqualizer finite_ccs.operator_eq x y = false)
      [anil_parall_bnil, anil_parall_nil, nil_parall_nil, nil_parall_bnil] ∧
    List.countP (fun x => KeyEqualizer finite_ccs.operator_eq nil_parall_nil x)
      [anil_parall_bnil, anil_parall_nil, nil_parall_nil, nil_parall_bnil] = 1 ∧
    finiteCCS_call nil_parall_nil = [] ∧
    has_source finite_ccs.operator_eq
      ([(anil_parall_bnil, [(a, [nil_parall_bnil]), (b, [anil_parall_nil])]),
        (anil_parall_nil, [(a, [nil_parall_nil])]),
        (nil_parall_bnil, [(b, [nil_parall_nil])])] :
        transition_graph finite_ccs (Bool × String)) nil_parall_nil = false := by
  refine ⟨rfl, rfl, rfl, ?_, rfl, rfl, rfl⟩
  decide

/-- C18: for every MultiPrefix term with a non-empty branch list, the dispatcher returns the
branch list of the term, the same pairs in the same order; and `a.b.0 + b.a.0` yields
exactly the edge labelled `a` to `b.0` and the edge labelled `b` to `a.0`. -/
theorem multi_prefix_rule_returns_branches (t : finite_ccs)
    (hcasus : t.casus = .MultiPrefix) (hne : finite_ccs.multi_prefix t ≠ []) :
    finiteCCS_call (some t) = finite_ccs.multi_prefix t ∧
    finiteCCS_call abnil_banil = [(a, b_nil), (b, a_nil)] := by
  refine ⟨?_, rfl⟩
  rw [finiteCCS_call_unfold]
  have htest : multi_prefix_test (some t) = true := by
    simp only [multi_prefix_test, hcasus, beq_self_eq_true, Bool.true_and, Bool.not_eq_true',
      List.isEmpty_eq_false]
    exact hne
  simp only [language_semantics.operator_call, finiteCCS_rules, language_semantics.add_rule,
    language_semantics.fresh, List.nil_append, List.cons_append,
    language_semantics.scan_rules, htest, if_true, multi_prefix_transform]

/-- Witness of C18: the term `a.b.0 + b.a.0` of `main`. -/
theorem multi_prefix_rule_returns_branches_witness :
    finiteCCS_call abnil_banil = [(a, b_nil), (b, a_nil)] :=
  (multi_prefix_rule_returns_branches (finite_ccs.prefixes [(a, b_nil), (b, a_nil)]) rfl
    (List.cons_ne_nil _ _)).1

theorem mem_parallel_offers (rec : RecHandle finite_ccs (Bool × String) finite_ccs)
    (t : finite_ccs) (o : offer) :
    o ∈ parallel_offers rec t ↔
      o.1 < t.parallel_compose.length ∧
        o.2 ∈ rec (finite_ccs.component t.parallel_compose o.1) := by
  obtain ⟨i, e⟩ := o
  simp only [parallel_offers, List.mem_flatMap, List.mem_range, List.mem_map, Prod.mk.injEq]
  constructor
  · rintro ⟨j, hj, e', he', rfl, rfl⟩
    exact ⟨hj, he'⟩
  · rintro ⟨hi, he⟩
    exact ⟨i, hi, e, he, rfl, rfl⟩

theorem mem_offers_on (p : Bool) (n : String) (offers : List offer)
    (io : Nat × Option finite_ccs) :
    io ∈ offers_on p n offers ↔ (io.1, ((p, n), io.2)) ∈ offers := by
  obtain ⟨i, s⟩ := io
  simp only [offers_on, List.mem_map, List.mem_filter, decide_eq_true_eq, Prod.mk.injEq]
  constructor
  · rintro ⟨⟨j, k, s'⟩, ⟨hmem, hk⟩, rfl, rfl⟩
    simp only at hk
    subst hk
    exact hmem
  · intro hmem
    exact ⟨(i, (p, n), s), ⟨hmem, rfl⟩, rfl, rfl⟩

/-- C19: for every ParallelComposition term `t`, the dispatcher returns the interleaved
outcomes followed by the synchronisations, which are: for each channel name `n` other than
`tau` occurring in the offers (each name taken once), for each offer `((true, n), s_i)` of a
component `i` and each offer `((false, n), s_j)` of a component `j` different from `i`, one
outcome labelled `tauPair` whose successor is `t` with component `i` replaced by `s_i` and
component `j` replaced by `s_j`; the offers are the outcomes of the components, and
`a.0 | a'.0` has exactly three outcomes, the last one being the synchronisation to
`0 | 0`. -/
theorem parallel_rule_synchronisations (t : finite_ccs)
    (hc : t.casus = .ParallelComposition) :
    finiteCCS_call (some t) =
      interleavings t (parallel_offers finiteCCS_call t) ++
        synchronisations t (parallel_offers finiteCCS_call t) ∧
    (offered_names (parallel_offers finiteCCS_call t)).Nodup ∧
    (∀ n, n ∈ offered_names (parallel_offers finiteCCS_call t) ↔
      n ≠ tau ∧ ∃ o ∈ parallel_offers finiteCCS_call t, o.2.1.2 = n) ∧
    (∀ p n io, io ∈ offers_on p n (parallel_offers finiteCCS_call t) ↔
      (io.1, ((p, n), io.2)) ∈ parallel_offers finiteCCS_call t) ∧
    (∀ o, o ∈ parallel_offers finiteCCS_call t ↔
      o.1 < t.parallel_compose.length ∧
        o.2 ∈ finiteCCS_call (finite_ccs.component t.parallel_compose o.1)) ∧
    finiteCCS_call anil_parall_abarnil =
      [(a, nil_parall_abarnil), (a_bar, anil_parall_nil), (tauPair, nil_parall_nil)] :=
  ⟨finiteCCS_call_parallel t hc, offered_names_nodup _, mem_offered_names _,
   fun p n io => mem_offers_on p n _ io, fun o => mem_parallel_offers _ t o, rfl⟩

/-- Witness of C19: the composition `a.0 | a'.0`, whose offers are `a` from component `0`
and `a'` from component `1`. -/
theorem parallel_rule_synchronisations_witness :
    finiteCCS_call anil_parall_abarnil =
      interleavings (finite_ccs.parallel [a_nil, abar_nil])
        [(0, (a, nil)), (1, (a_bar, nil))] ++
      synchronisations (finite_ccs.parallel [a_nil, abar_nil])
        [(0, (a, nil)), (1, (a_bar, nil))] :=
  (parallel_rule_synchronisations (finite_ccs.parallel [a_nil, abar_nil]) rfl).1

/-! ## Theorems: hashing of shared pointers -/

/-- C20: when the hash of the key type is consistent with its `operator==` (equal keys have
equal hashes), `KeyHasher` is consistent with `KeyEqualizer`: two references that
`KeyEqualizer` accepts have the same `KeyHasher` value. -/
theorem KeyHasher_consistent {Key : Type} (eq : Key → Key → Bool) (hash : Key → Nat)
    (hcons : ∀ x y, eq x y = true → hash x = hash y) (x y : Option Key)
    (hxy : KeyEqualizer eq x y = true) : KeyHasher hash x = KeyHasher hash y := by
  cases x with
  | none =>
    cases y with
    | none => rfl
    | some v => simp [KeyEqualizer] at hxy
  | some u =>
    cases y with
    | none => simp [KeyEqualizer] at hxy
    | some v =>
      simp only [KeyEqualizer, derefEq, Option.isSome_some, beq_self_eq_true, Bool.not_true,
        Bool.false_or, Bool.true_and] at hxy
      simp only [KeyHasher, hcons u v hxy]

/-- Witness of C20: numbers compared by parity and hashed by their parity. -/
theorem KeyHasher_consistent_witness :
    (∀ x y, parity_eq x y = true → x % 2 = y % 2) ∧
    KeyEqualizer parity_eq (some 0) (some 2) = true ∧
    KeyHasher (fun n => n % 2) (some 0) = KeyHasher (fun n => n % 2) (some 2) :=
  ⟨fun x y h => by simpa [parity_eq] using h, rfl,
   KeyHasher_consistent parity_eq (fun n => n % 2)
     (fun x y h => by simpa [parity_eq] using h) (some 0) (some 2) rfl⟩

/-! ## Instances of the statements on division and subtraction -/

/-- Witness of C15: `(1 + 2) / 3`, whose divisor evaluates to `3`. -/
theorem transformer_div_defined_iff_witness :
    transformer (op2 0 0) ≠ [] ∧ transformer (op2 0 0) = [("MINUS", some (3 / 3))] :=
  ⟨by decide,
   (transformer_div_defined_iff 0 (num_op.binary 0 one .PLUS two) (num_op.number 3)).2.1
     (by decide)⟩

/-- Witness of C16: `(1 + 2) - 3`, whose operands both evaluate to `3`. -/
theorem transformer_minus_defined_iff_witness :
    transformer (op3 0 0) ≠ [] ∧
    ∃ d, transformer (op3 0 0) = [("MINUS", some d)] ∧ d + 3 = 3 :=
  ⟨by decide,
   (transformer_minus_defined_iff 0 (num_op.binary 0 one .PLUS two) (num_op.number 3)).2.1
     (by decide)⟩
/-! ## Theorems: the sentinel of `KeyHasher` -/

/-- C21: `KeyHasher` maps the null pointer to `0` and a present pointer `k` to
`(hash(*k) * 2 + 1)` modulo `2 ^ 64`; that value is odd whatever the hash of the pointee is,
also when the doubling overflows (a pointee hashing to `2 ^ 63` gives `1`), so that it differs
from the value of the null pointer. -/
theorem KeyHasher_sentinel {Key : Type} (hash : Key → Nat) :
    KeyHasher hash none = 0 ∧
    (∀ v, KeyHasher hash (some v) = (hash v * 2 + 1) % 2 ^ 64) ∧
    (∀ v, KeyHasher hash (some v) % 2 = 1) ∧
    (∀ v, KeyHasher hash (some v) ≠ KeyHasher hash none) ∧
    KeyHasher (fun _ : Unit => 2 ^ 63) (some ()) = 1 := by
  have hval : ∀ v, KeyHasher hash (some v) = (hash v * 2 + 1) % 2 ^ 64 := by
    intro v
    simp only [KeyHasher, wrap]
    omega
  have hodd : ∀ v, KeyHasher hash (some v) % 2 = 1 := by
    intro v
    rw [hval v]
    omega
  refine ⟨rfl, hval, hodd, ?_, by decide⟩
  intro v hv
  have h1 := hodd v
  rw [hv] at h1
  simp [KeyHasher] at h1

/-! ## Theorems: equality of parallel compositions -/

/-- C22 (evaluation of the code at an input on which the claim fails): the compositions
`0 | 0 | a.0` and `0 | 0 | 0`, of three components each, are equal for
`finite_ccs::operator==`, which reads the components `0` and `1` only, although their
components of index `2` are not equal; and `0 | 0` is equal to `0 | 0 | 0`, which has one
more component. -/
theorem parallel_eq_reads_two_components :
    (finite_ccs.parallel [nil, nil, a_nil]).casus = .ParallelComposition ∧
    (finite_ccs.parallel [nil, nil, nil]).casus = .ParallelComposition ∧
    (finite_ccs.parallel [nil, nil, a_nil]).parallel_compose.length = 3 ∧
    (finite_ccs.parallel [nil, nil, nil]).parallel_compose.length = 3 ∧
    finite_ccs.operator_eq (finite_ccs.parallel [nil, nil, a_nil])
      (finite_ccs.parallel [nil, nil, nil]) = true ∧
    KeyEqualizer finite_ccs.operator_eq
      (finite_ccs.component (finite_ccs.parallel [nil, nil, a_nil]).parallel_compose 2)
      (finite_ccs.component (finite_ccs.parallel [nil, nil, nil]).parallel_compose 2) = false ∧
    finite_ccs.operator_eq (finite_ccs.parallel [nil, nil])
      (finite_ccs.parallel [nil, nil, nil]) = true ∧
    (finite_ccs.parallel [nil, nil]).parallel_compose.length ≠
      (finite_ccs.parallel [nil, nil, nil]).parallel_compose.length :=
  ⟨rfl, rfl, rfl, rfl, rfl, rfl, rfl, by decide⟩
/-! ## Lemmas: replacing a component -/

section SetComponentLemmas

theorem set_component_frame (t : finite_ccs) (i : Nat) (s : Option finite_ccs) :
    (t.set_component i s).casus = t.casus ∧
    (t.set_component i s).restr_label = t.restr_label ∧
    finite_ccs.multi_prefix (t.set_component i s) = finite_ccs.multi_prefix t ∧
    (t.set_component i s).parallel_compose.length = t.parallel_compose.length := by
  simp [finite_ccs.set_component, finite_ccs.casus, finite_ccs.restr_label,
    finite_ccs.multi_prefix, finite_ccs.parallel_compose]

theorem set_component_same (t : finite_ccs) (i : Nat) (s : Option finite_ccs)
    (hi : i < t.parallel_compose.length) :
    finite_ccs.component (t.set_component i s).parallel_compose i = s := by
  obtain ⟨c, r, p, m⟩ := t
  simp only [finite_ccs.parallel_compose] at hi
  simp [finite_ccs.set_component, finite_ccs.parallel_compose, finite_ccs.component, hi]

theorem set_component_other (t : finite_ccs) (i j : Nat) (s : Option finite_ccs)
    (hij : j ≠ i) :
    finite_ccs.component (t.set_component i s).parallel_compose j =
      finite_ccs.component t.parallel_compose j := by
  have hne : i ≠ j := fun h => hij h.symm
  obtain ⟨c, r, p, m⟩ := t
  simp [finite_ccs.set_component, finite_ccs.parallel_compose, finite_ccs.component,
    List.getElem?_set_ne hne]

end SetComponentLemmas

/-! ## Theorems: the restriction rule -/

theorem finiteCCS_call_restriction (t : finite_ccs) (hc : t.casus = .Restriction)
    (hlen : t.parallel_compose.length = 1) (hne : t.restr_label ≠ []) :
    finiteCCS_call (some t) =
      ((finiteCCS_call (finite_ccs.component t.parallel_compose 0)).filter
        (fun e => decide (e.1.2 ∉ t.restr_label))).map
        (fun e => (e.1, some (t.set_component 0 e.2))) := by
  rw [finiteCCS_call_unfold]
  have h1 : multi_prefix_test (some t) = false := by
    simp [multi_prefix_test, hc]
  have h2 : parallel_test (some t) = false := by
    simp [parallel_test, hc]
  have h3 : restriction_test (some t) = true := by
    simp [restriction_test, hc, hlen, hne]
  have hf : (fun x : (Bool × String) × Option finite_ccs => !t.restr_label.contains x.1.2) =
      (fun e => decide (e.1.2 ∉ t.restr_label)) := by
    funext e
    simp
  simp only [language_semantics.operator_call, finiteCCS_rules, language_semantics.add_rule,
    language_semantics.fresh, List.nil_append, List.cons_append,
    language_semantics.scan_rules, h1, h2, h3, if_true, restriction_transform, hf]
  simp

/-- C23: for every Restriction term `t` with one body and a non-empty label list, the
dispatcher returns, in order, one pair `(l, t with its body replaced by s)` for each outcome
`(l, s)` of the body whose channel name `l.2` is not in `t.restr_label`, whatever the polarity
`l.1`, and nothing else; the successor has the one component `s` and the case tag, the label
list and the branch list of `t`; no outcome of `t` carries a restricted name; and
`(a.0 | a'.0) \ {a}` has the single outcome labelled `(false, ".")` to `(0 | 0) \ {a}`. -/
theorem restriction_rule_filters (t : finite_ccs) (hc : t.casus = .Restriction)
    (hlen : t.parallel_compose.length = 1) (hne : t.restr_label ≠ []) :
    finiteCCS_call (some t) =
      ((finiteCCS_call (finite_ccs.component t.parallel_compose 0)).filter
        (fun e => decide (e.1.2 ∉ t.restr_label))).map
        (fun e => (e.1, some (t.set_component 0 e.2))) ∧
    (∀ s, (t.set_component 0 s).parallel_compose = [s] ∧
      (t.set_component 0 s).casus = t.casus ∧
      (t.set_component 0 s).restr_label = t.restr_label ∧
      finite_ccs.multi_prefix (t.set_component 0 s) = finite_ccs.multi_prefix t) ∧
    (∀ e ∈ finiteCCS_call (some t), e.1.2 ∉ t.restr_label) ∧
    finiteCCS_call restricted_sync = [((false, "."), restricted_done)] := by
  refine ⟨finiteCCS_call_restriction t hc hlen hne, ?_, ?_, rfl⟩
  · intro s
    obtain ⟨c, r, p, m⟩ := t
    simp only [finite_ccs.parallel_compose] at hlen
    match p, hlen with
    | [x], _ =>
      simp [finite_ccs.set_component, finite_ccs.casus, finite_ccs.restr_label,
        finite_ccs.multi_prefix, finite_ccs.parallel_compose]
  · intro e he
    rw [finiteCCS_call_restriction t hc hlen hne] at he
    simp only [List.mem_map, List.mem_filter, decide_eq_true_eq] at he
    obtain ⟨e', ⟨_, hnot⟩, rfl⟩ := he
    exact hnot

/-- Witness of C23: the restriction `(a.0 | a'.0) \ {a}`, whose body has the three outcomes
`a`, `a'` and the synchronisation; the first two are on the restricted channel. -/
theorem restriction_rule_filters_witness :
    finiteCCS_call anil_parall_abarnil =
      [(a, nil_parall_abarnil), (a_bar, anil_parall_nil), (tauPair, nil_parall_nil)] ∧
    finiteCCS_call restricted_sync =
      ([(a, nil_parall_abarnil), (a_bar, anil_parall_nil), (tauPair, nil_parall_nil)].filter
        (fun e => decide (e.1.2 ∉ ["a"]))).map
        (fun e => (e.1, some ((finite_ccs.restriction ["a"] anil_parall_abarnil).set_component
          0 e.2))) :=
  ⟨rfl, (restriction_rule_filters (finite_ccs.restriction ["a"] anil_parall_abarnil) rfl rfl
    (List.cons_ne_nil _ _)).1⟩

/-! ## Theorems: interleaving in the parallel rule -/

theorem length_flatMap_sum {α β : Type} (f : α → List β) (l : List α) :
    (l.flatMap f).length = (l.map (fun x => (f x).length)).sum := by
  induction l with
  | nil => rfl
  | cons x l ih => simp [List.flatMap_cons, ih]

theorem interleavings_as_flatMap (rec : RecHandle finite_ccs (Bool × String) finite_ccs)
    (t : finite_ccs) :
    interleavings t (parallel_offers rec t) =
      (List.range t.parallel_compose.length).flatMap (fun i =>
        (rec (finite_ccs.component t.parallel_compose i)).map
          (fun e => (e.1, some (t.set_component i e.2)))) := by
  simp only [interleavings, parallel_offers, List.map_flatMap, List.map_map]
  rfl

/-- C24: for every ParallelComposition term `t` with `N` components, the first outcomes of the
dispatcher on `t` are, for `i` from `0` to `N - 1` and for each outcome `(l, s)` of component
`i` in order, the pair `(l, t')` where `t'` is `t` with component `i` replaced by `s`; their
number is the sum of the numbers of outcomes of the components; and replacing component `i`
(for `i < N`) leaves the case tag, the restriction labels, the branch list, the number of
components and every other component as they are in `t`. -/
theorem parallel_rule_interleaves (t : finite_ccs) (hc : t.casus = .ParallelComposition) :
    (finiteCCS_call (some t)).take
        ((List.range t.parallel_compose.length).map (fun i =>
          (finiteCCS_call (finite_ccs.component t.parallel_compose i)).length)).sum =
      (List.range t.parallel_compose.length).flatMap (fun i =>
        (finiteCCS_call (finite_ccs.component t.parallel_compose i)).map
          (fun e => (e.1, some (t.set_component i e.2)))) ∧
    ((List.range t.parallel_compose.length).flatMap (fun i =>
        (finiteCCS_call (finite_ccs.component t.parallel_compose i)).map
          (fun e => (e.1, some (t.set_component i e.2))))).length =
      ((List.range t.parallel_compose.length).map (fun i =>
          (finiteCCS_call (finite_ccs.component t.parallel_compose i)).length)).sum ∧
    (∀ e ∈ (finiteCCS_call (some t)).drop
        ((List.range t.parallel_compose.length).map (fun i =>
          (finiteCCS_call (finite_ccs.component t.parallel_compose i)).length)).sum,
      e.1 = tauPair) ∧
    (∀ i s, i < t.parallel_compose.length →
      (t.set_component i s).casus = t.casus ∧
      (t.set_component i s).restr_label = t.restr_label ∧
      finite_ccs.multi_prefix (t.set_component i s) = finite_ccs.multi_prefix t ∧
      (t.set_component i s).parallel_compose.length = t.parallel_compose.length ∧
      finite_ccs.component (t.set_component i s).parallel_compose i = s ∧
      ∀ j, j ≠ i → finite_ccs.component (t.set_component i s).parallel_compose j =
        finite_ccs.component t.parallel_compose j) := by
  have hlen : ((List.range t.parallel_compose.length).flatMap (fun i =>
        (finiteCCS_call (finite_ccs.component t.parallel_compose i)).map
          (fun e => (e.1, some (t.set_component i e.2))))).length =
      ((List.range t.parallel_compose.length).map (fun i =>
          (finiteCCS_call (finite_ccs.component t.parallel_compose i)).length)).sum := by
    rw [length_flatMap_sum]
    simp
  have hcall := finiteCCS_call_parallel t hc
  rw [interleavings_as_flatMap] at hcall
  refine ⟨?_, hlen, ?_, ?_⟩
  · rw [hcall, ← hlen, List.take_left]
  · intro e he
    rw [hcall, ← hlen, List.drop_left] at he
    simp only [synchronisations, List.mem_flatMap] at he
    obtain ⟨n, _, i, _, j, _, hmem⟩ := he
    by_cases hij : i.1 ≠ j.1
    · rw [if_pos hij] at hmem
      simp only [List.mem_singleton] at hmem
      rw [hmem]
    · rw [if_neg hij] at hmem
      cases hmem
  · intro i s hi
    obtain ⟨h1, h2, h3, h4⟩ := set_component_frame t i s
    exact ⟨h1, h2, h3, h4, set_component_same t i s hi,
      fun j hj => set_component_other t i j s hj⟩

/-- Witness of C24: the composition `a.0 | a'.0`, whose two first outcomes are the move of
the first component and the move of the second one. -/
theorem parallel_rule_interleaves_witness :
    (finiteCCS_call anil_parall_abarnil).take 2 =
      [(a, nil_parall_abarnil), (a_bar, anil_parall_nil)] :=
  (parallel_rule_interleaves (finite_ccs.parallel [a_nil, abar_nil]) rfl).1
/-! ## Lemmas: every step of the finite CCS rules makes the term smaller -/

section DecreaseLemmas

theorem branch_count_components_cons (c : Option finite_ccs)
    (rest : List (Option finite_ccs)) :
    finite_ccs.branch_count_components (c :: rest) =
      finite_ccs.branch_count_ptr c + finite_ccs.branch_count_components rest := by
  cases c <;> simp [finite_ccs.branch_count_components, finite_ccs.branch_count_ptr]

theorem branch_count_components_set (p : List (Option finite_ccs)) :
    ∀ (i : Nat) (s : Option finite_ccs), i < p.length →
      finite_ccs.branch_count_components (p.set i s) +
          finite_ccs.branch_count_ptr (finite_ccs.component p i) =
        finite_ccs.branch_count_components p + finite_ccs.branch_count_ptr s := by
  induction p with
  | nil => intro i s hi; simp at hi
  | cons c rest ih =>
    intro i s hi
    cases i with
    | zero =>
      simp only [List.set_cons_zero, branch_count_components_cons, finite_ccs.component,
        List.getElem?_cons_zero, Option.getD_some]
      omega
    | succ j =>
      have hj := ih j s (by simpa using hi)
      have hc : finite_ccs.component (c :: rest) (j + 1) = finite_ccs.component rest j := by
        simp [finite_ccs.component]
      rw [hc]
      simp only [List.set_cons_succ, branch_count_components_cons]
      omega

theorem branch_count_set_component (t : finite_ccs) (i : Nat) (s : Option finite_ccs)
    (hi : i < t.parallel_compose.length) :
    finite_ccs.branch_count (t.set_component i s) +
        finite_ccs.branch_count_ptr (finite_ccs.component t.parallel_compose i) =
      finite_ccs.branch_count t + finite_ccs.branch_count_ptr s := by
  obtain ⟨c, r, p, m⟩ := t
  simp only [finite_ccs.parallel_compose] at hi
  have := branch_count_components_set p i s hi
  simp only [finite_ccs.set_component, finite_ccs.parallel_compose, finite_ccs.casus,
    finite_ccs.restr_label, finite_ccs.multi_prefix, finite_ccs.branch_count]
  omega

theorem branch_count_ptr_lt_of_mem (m : List ((Bool × String) × Option finite_ccs))
    (e : (Bool × String) × Option finite_ccs) (he : e ∈ m) :
    finite_ccs.branch_count_ptr e.2 < finite_ccs.branch_count_branches m := by
  induction m with
  | nil => cases he
  | cons x rest ih =>
    obtain ⟨k, v⟩ := x
    rcases List.mem_cons.1 he with rfl | hmem
    · cases v
      · simp [finite_ccs.branch_count_branches, finite_ccs.branch_count_ptr]
      · simp only [finite_ccs.branch_count_branches, finite_ccs.branch_count_ptr]
        omega
    · have := ih hmem
      cases v <;> simp only [finite_ccs.branch_count_branches] <;> omega

theorem finiteCCS_call_none : finiteCCS_call none = [] := rfl

theorem finiteCCS_call_of_nil (t : finite_ccs) (hc : t.casus = .NIL) :
    finiteCCS_call (some t) = [] := by
  rw [finiteCCS_call_unfold]
  simp [language_semantics.operator_call, finiteCCS_rules, language_semantics.add_rule,
    language_semantics.fresh, language_semantics.scan_rules, multi_prefix_test, parallel_test,
    restriction_test, hc]

theorem finiteCCS_call_of_prefixes (t : finite_ccs) (hc : t.casus = .MultiPrefix) :
    finiteCCS_call (some t) = finite_ccs.multi_prefix t := by
  rw [finiteCCS_call_unfold]
  by_cases hne : finite_ccs.multi_prefix t = []
  · simp [language_semantics.operator_call, finiteCCS_rules, language_semantics.add_rule,
      language_semantics.fresh, language_semantics.scan_rules, multi_prefix_test, parallel_test,
      restriction_test, hc, hne]
  · simp [language_semantics.operator_call, finiteCCS_rules, language_semantics.add_rule,
      language_semantics.fresh, language_semantics.scan_rules, multi_prefix_test, hc, hne,
      multi_prefix_transform]

theorem finiteCCS_call_of_restriction (t : finite_ccs) (hc : t.casus = .Restriction) :
    ∀ e ∈ finiteCCS_call (some t), t.parallel_compose.length = 1 ∧
      ∃ e' ∈ finiteCCS_call (finite_ccs.component t.parallel_compose 0),
        e = (e'.1, some (t.set_component 0 e'.2)) := by
  intro e he
  by_cases htest : t.parallel_compose.length = 1 ∧ t.restr_label ≠ []
  · rw [finiteCCS_call_restriction t hc htest.1 htest.2] at he
    simp only [List.mem_map, List.mem_filter] at he
    obtain ⟨e', ⟨hmem, _⟩, rfl⟩ := he
    exact ⟨htest.1, e', hmem, rfl⟩
  · rw [finiteCCS_call_unfold] at he
    have h3 : restriction_test (some t) = false := by
      simp only [restriction_test, hc, beq_self_eq_true, Bool.true_and]
      by_cases hlen : t.parallel_compose.length = 1
      · have : t.restr_label = [] := by
          by_contra hne
          exact htest ⟨hlen, hne⟩
        simp [this]
      · simp [hlen]
    simp [language_semantics.operator_call, finiteCCS_rules, language_semantics.add_rule,
      language_semantics.fresh, language_semantics.scan_rules, multi_prefix_test, parallel_test,
      h3, hc] at he

theorem mem_interleavings (t : finite_ccs) (offers : List offer)
    (e : (Bool × String) × Option finite_ccs) :
    e ∈ interleavings t offers ↔
      ∃ o ∈ offers, e = (o.2.1, some (t.set_component o.1 o.2.2)) := by
  simp only [interleavings, List.mem_map]
  constructor
  · rintro ⟨o, ho, rfl⟩
    exact ⟨o, ho, rfl⟩
  · rintro ⟨o, ho, rfl⟩
    exact ⟨o, ho, rfl⟩

theorem mem_synchronisations (t : finite_ccs) (offers : List offer)
    (e : (Bool × String) × Option finite_ccs) (he : e ∈ synchronisations t offers) :
    ∃ (n : String) (i j : Nat × Option finite_ccs), (i.1, ((true, n), i.2)) ∈ offers ∧ (j.1, ((false, n), j.2)) ∈ offers ∧
      i.1 ≠ j.1 ∧ e = (tauPair, some ((t.set_component i.1 i.2).set_component j.1 j.2)) := by
  simp only [synchronisations, List.mem_flatMap] at he
  obtain ⟨n, _, i, hi, j, hj, hmem⟩ := he
  by_cases hij : i.1 ≠ j.1
  · rw [if_pos hij] at hmem
    simp only [List.mem_singleton] at hmem
    exact ⟨n, i, j, (mem_offers_on true n offers i).1 hi, (mem_offers_on false n offers j).1 hj,
      hij, hmem⟩
  · rw [if_neg hij] at hmem
    cases hmem

end DecreaseLemmas

/-! ## Lemmas: the size of a term decreases along the steps, and `visit` stops -/

section SizeLemmas

theorem component_some_of_call_ne (t : finite_ccs) (i : Nat)
    (e : (Bool × String) × Option finite_ccs)
    (he : e ∈ finiteCCS_call (finite_ccs.component t.parallel_compose i)) :
    ∃ c, finite_ccs.component t.parallel_compose i = some c ∧
      finite_ccs.depth c < finite_ccs.depth t := by
  cases hcomp : finite_ccs.component t.parallel_compose i with
  | none =>
    rw [hcomp, finiteCCS_call_none] at he
    cases he
  | some c =>
    have hlt := depth_ptr_component_lt t i
    rw [hcomp] at hlt
    exact ⟨c, rfl, hlt⟩

theorem finiteCCS_call_decreases_upto (n : Nat) :
    ∀ t : finite_ccs, finite_ccs.depth t ≤ n → ∀ e ∈ finiteCCS_call (some t),
      finite_ccs.branch_count_ptr e.2 < finite_ccs.branch_count t := by
  induction n with
  | zero =>
    intro t ht
    have := depth_pos t
    omega
  | succ n ih =>
    intro t ht e he
    have hcomp : ∀ (i : Nat) (e' : (Bool × String) × Option finite_ccs),
        e' ∈ finiteCCS_call (finite_ccs.component t.parallel_compose i) →
        finite_ccs.branch_count_ptr e'.2 <
          finite_ccs.branch_count_ptr (finite_ccs.component t.parallel_compose i) := by
      intro i e' he'
      obtain ⟨c, hc, hlt⟩ := component_some_of_call_ne t i e' he'
      rw [hc] at he' ⊢
      exact ih c (by omega) e' he'
    cases hcasus : t.casus with
    | NIL =>
      rw [finiteCCS_call_of_nil t hcasus] at he
      cases he
    | MultiPrefix =>
      rw [finiteCCS_call_of_prefixes t hcasus] at he
      have := branch_count_ptr_lt_of_mem _ e he
      obtain ⟨c, r, p, m⟩ := t
      simp only [finite_ccs.multi_prefix] at this
      simp only [finite_ccs.branch_count]
      omega
    | ParallelComposition =>
      rw [finiteCCS_call_parallel t hcasus, List.mem_append] at he
      rcases he with he | he
      · obtain ⟨o, ho, rfl⟩ := (mem_interleavings t _ e).1 he
        obtain ⟨hi, hmem⟩ := (mem_parallel_offers finiteCCS_call t o).1 ho
        have h1 := hcomp o.1 o.2 hmem
        have h2 := branch_count_set_component t o.1 o.2.2 hi
        simp only [finite_ccs.branch_count_ptr]
        omega
      · obtain ⟨k, i, j, hi, hj, hij, rfl⟩ := mem_synchronisations t _ e he
        obtain ⟨hilt, himem⟩ := (mem_parallel_offers finiteCCS_call t _).1 hi
        obtain ⟨hjlt, hjmem⟩ := (mem_parallel_offers finiteCCS_call t _).1 hj
        simp only at hilt himem hjlt hjmem
        have h1 := hcomp i.1 _ himem
        have h2 := hcomp j.1 _ hjmem
        have h3 := branch_count_set_component t i.1 i.2 hilt
        have hlen := (set_component_frame t i.1 i.2).2.2.2
        have h4 := branch_count_set_component (t.set_component i.1 i.2) j.1 j.2
          (by rw [hlen]; exact hjlt)
        rw [set_component_other t i.1 j.1 i.2 (fun h => hij h.symm)] at h4
        simp only at h1 h2
        simp only [finite_ccs.branch_count_ptr]
        omega
    | Restriction =>
      obtain ⟨hlen, e', he', rfl⟩ := finiteCCS_call_of_restriction t hcasus e he
      have h1 := hcomp 0 e' he'
      have h2 := branch_count_set_component t 0 e'.2 (by omega)
      simp only [finite_ccs.branch_count_ptr]
      omega

theorem finiteCCS_call_decreases (t : Option finite_ccs)
    (e : (Bool × String) × Option finite_ccs) (he : e ∈ finiteCCS_call t) :
    finite_ccs.branch_count_ptr e.2 < finite_ccs.branch_count_ptr t := by
  cases t with
  | none =>
    rw [finiteCCS_call_none] at he
    cases he
  | some t => exact finiteCCS_call_decreases_upto (finite_ccs.depth t) t le_rfl e he

theorem reach_branch_count_le (s u : Option finite_ccs) (h : Reach finiteCCS_call s u) :
    finite_ccs.branch_count_ptr u ≤ finite_ccs.branch_count_ptr s := by
  induction h with
  | root => exact le_rfl
  | step _ hstep ih =>
    have := finiteCCS_call_decreases _ _ hstep
    simp only at this
    omega

end SizeLemmas

section MeasureTermination

variable {TransitionNode TransitionLabel : Type} [DecidableEq TransitionLabel]
variable {eq : TransitionNode → TransitionNode → Bool}
variable {dispatch : RecHandle TransitionNode TransitionLabel TransitionNode}

theorem visit_edge_fold_S (top : Option TransitionNode)
    (es : List (TransitionLabel × Option TransitionNode))
    (st : visit_state TransitionNode TransitionLabel) :
    (es.foldl (visit_edge eq top) st).S = (es.map Prod.snd).reverse ++ st.S := by
  induction es generalizing st with
  | nil => rfl
  | cons e es ih =>
    rw [List.foldl_cons, ih]
    simp [visit_edge]

theorem visit_step_S (st : visit_state TransitionNode TransitionLabel)
    (top : Option TransitionNode) (rest : List (Option TransitionNode))
    (hS : st.S = top :: rest) :
    (visit_step dispatch eq st).S = rest ∨
    (visit_step dispatch eq st).S = ((dispatch top).map Prod.snd).reverse ++ rest := by
  unfold visit_step visit_iteration
  rw [hS]
  by_cases hc : transition_node_set.contains eq st.visited_nodes top = true
  · left
    simp [hc]
  · right
    simp only [if_neg hc]
    rw [visit_edge_fold_S]

/-- When every outcome of the dispatcher is smaller than the term it comes from, for a
measure `size` on the terms, the loop of `visit` stops from every state, whatever the
equality of the terms is. -/
theorem visit_loop_terminates_of_measure (size : Option TransitionNode → Nat)
    (hdec : ∀ t, ∀ e ∈ dispatch t, size e.2 < size t) :
    ∀ st : visit_state TransitionNode TransitionLabel,
      ∃ fuel res, visit_loop dispatch eq fuel st = some res := by
  have hwf : WellFounded (Relation.CutExpand (InvImage (fun x y : Nat => x < y) size)) :=
    (InvImage.wf size Nat.lt_wfRel.wf).cutExpand
  have key : ∀ (s : Multiset (Option TransitionNode))
      (st : visit_state TransitionNode TransitionLabel), (st.S : Multiset _) = s →
      ∃ fuel res, visit_loop dispatch eq fuel st = some res := by
    intro s
    induction s using hwf.induction with
    | _ s ih =>
      intro st hs
      cases hS : st.S with
      | nil => exact ⟨0, st, by simp [visit_loop, hS]⟩
      | cons top rest =>
        have hcut : Relation.CutExpand (InvImage (fun x y : Nat => x < y) size)
            ((visit_step dispatch eq st).S : Multiset _) s := by
          rw [← hs, hS]
          rcases @visit_step_S TransitionNode TransitionLabel _ eq dispatch st top rest hS with h | h
          · rw [h]
            refine ⟨0, top, ?_, ?_⟩
            · intro a ha
              simp at ha
            · rw [add_zero, ← Multiset.coe_singleton, Multiset.coe_add, Multiset.coe_eq_coe]
              exact List.perm_append_singleton _ _
          · rw [h]
            refine ⟨(((dispatch top).map Prod.snd : List _) : Multiset _), top, ?_, ?_⟩
            · intro a ha
              simp only [Multiset.mem_coe, List.mem_map] at ha
              obtain ⟨e, he, rfl⟩ := ha
              exact hdec top e he
            · rw [← Multiset.coe_singleton, Multiset.coe_add, Multiset.coe_add,
                Multiset.coe_eq_coe]
              have h1 : ((((dispatch top).map Prod.snd).reverse ++ rest) ++ [top]).Perm
                  (top :: (((dispatch top).map Prod.snd).reverse ++ rest)) :=
                List.perm_append_singleton _ _
              have h2 : (((dispatch top).map Prod.snd).reverse ++ rest).Perm
                  (rest ++ (dispatch top).map Prod.snd) :=
                List.perm_append_comm.trans
                  (List.Perm.append_left _ (List.reverse_perm _))
              exact h1.trans (List.Perm.cons _ h2)
        obtain ⟨fuel, res, hres⟩ := ih _ hcut (visit_step dispatch eq st) rfl
        refine ⟨fuel + 1, res, ?_⟩
        rw [visit_loop]
        simp [hS, hres]
  intro st
  exact key _ st rfl

end MeasureTermination

/-! ## Theorems: termination of the exploration of finite CCS -/

/-- C25: every transition of the finite CCS rule set makes the term strictly smaller. For
every well-formed term `t` and every outcome `(l, s)` of the dispatcher on `t`, the number of
prefix branches occurring in `s` is smaller than the number of those occurring in `t`; the
same holds from any term, so that no term is reachable in one or more steps from itself;
and `visit` on the root `t` returns: some number of iterations empties the worklist. -/
theorem finiteCCS_steps_decrease (t : finite_ccs) (hwf : finite_ccs.well_formed t = true) :
    (∀ e ∈ finiteCCS_call (some t),
      finite_ccs.branch_count_ptr e.2 < finite_ccs.branch_count t) ∧
    (∀ (u : Option finite_ccs), ∀ e ∈ finiteCCS_call u,
      finite_ccs.branch_count_ptr e.2 < finite_ccs.branch_count_ptr u ∧
      ¬ Reach finiteCCS_call e.2 u) ∧
    (∀ self : small_step_semantics finite_ccs (Bool × String),
      ∃ fuel res, visit finiteCCS_call finite_ccs.operator_eq fuel self (some t) =
        some res) := by
  have _ := hwf
  refine ⟨fun e he => finiteCCS_call_decreases (some t) e he, ?_, ?_⟩
  · intro u e he
    have hlt := finiteCCS_call_decreases u e he
    refine ⟨hlt, fun hreach => ?_⟩
    have hle := reach_branch_count_le e.2 u hreach
    omega
  · intro self
    obtain ⟨fuel, res, hres⟩ :=
      @visit_loop_terminates_of_measure finite_ccs (Bool × String) _ finite_ccs.operator_eq
        finiteCCS_call finite_ccs.branch_count_ptr finiteCCS_call_decreases
        (visit_init self (some t))
    refine ⟨fuel, { forward_transition_graph := res.forward_transition_graph
                    visited_nodes := res.visited_nodes }, ?_⟩
    unfold visit visit_run
    rw [hres]
    rfl

/-- Witness of C25: the well-formed term `a.0 | b.0`, which has two prefix branches; its
successor `0 | b.0` has one, and five iterations explore it. -/
theorem finiteCCS_steps_decrease_witness :
    finite_ccs.well_formed (finite_ccs.parallel [a_nil, b_nil]) = true ∧
    finite_ccs.branch_count (finite_ccs.parallel [a_nil, b_nil]) = 2 ∧
    (a, nil_parall_bnil) ∈ finiteCCS_call anil_parall_bnil ∧
    finite_ccs.branch_count_ptr nil_parall_bnil < 2 ∧
    (visit finiteCCS_call finite_ccs.operator_eq 5 small_step_semantics.fresh
      anil_parall_bnil).isSome = true :=
  ⟨rfl, rfl, List.mem_cons_self _ _,
   (finiteCCS_steps_decrease (finite_ccs.parallel [a_nil, b_nil]) rfl).1
     (a, nil_parall_bnil) (List.mem_cons_self _ _),
   rfl⟩

/-! ## Lemmas: permuting the branches of a MultiPrefix term -/

section PermutationLemmas

theorem hash_branches_cons (H : String → Nat) (base_case : Nat)
    (e : (Bool × String) × Option finite_ccs)
    (rest : List ((Bool × String) × Option finite_ccs)) :
    finite_ccs.hash_branches H base_case (e :: rest) =
      finite_ccs.hash_branches H (wrap (base_case + finite_ccs.branch_term H e)) rest := by
  obtain ⟨k, v⟩ := e
  cases v <;> simp [finite_ccs.hash_branches, finite_ccs.branch_term, finite_ccs.hash_ptr]

/-- The loop of the MultiPrefix case of the hash gives the same value on two branch lists
that are permutations of each other. -/
theorem hash_branches_perm (H : String → Nat)
    (mp mp' : List ((Bool × String) × Option finite_ccs)) (hperm : mp.Perm mp') :
    ∀ base_case, finite_ccs.hash_branches H base_case mp =
      finite_ccs.hash_branches H base_case mp' := by
  induction hperm with
  | nil => intro b; rfl
  | cons x _ ih =>
    intro b
    rw [hash_branches_cons, hash_branches_cons, ih]
  | swap x y l =>
    intro b
    rw [hash_branches_cons, hash_branches_cons, hash_branches_cons, hash_branches_cons]
    congr 1
    unfold wrap
    omega
  | trans _ _ ih1 ih2 =>
    intro b
    rw [ih1, ih2]

/-- The hash of a MultiPrefix term does not depend on the order of its branches. -/
theorem hash_perm (H : String → Nat) (r : List String) (p : List (Option finite_ccs))
    (mp mp' : List ((Bool × String) × Option finite_ccs)) (hperm : mp.Perm mp') :
    finite_ccs.hash H (finite_ccs.mk .MultiPrefix r p mp) =
      finite_ccs.hash H (finite_ccs.mk .MultiPrefix r p mp') := by
  simp only [finite_ccs.hash, hash_branches_perm H mp mp' hperm]

/-- Up to the terms pointed to, `operator==` does not depend on the order of the branches:
the comparison that takes two successor sets to be equal when they hold structurally equal
terms accepts a MultiPrefix term and the term with its branches permuted. -/
theorem operator_eq_perm (r r' : List String) (p p' : List (Option finite_ccs))
    (mp mp' : List ((Bool × String) × Option finite_ccs)) (hperm : mp.Perm mp') :
    finite_ccs.operator_eq (finite_ccs.mk .MultiPrefix r p mp)
      (finite_ccs.mk .MultiPrefix r' p' mp') = true := by
  rw [operator_eq_iff_spec]
  refine ⟨rfl, ?_, ?_⟩
  · intro e he
    exact ⟨e, hperm.mem_iff.1 he, rfl, KeyEqualizer_refl operator_eq_is_equivalence e.2⟩
  · intro e he
    exact ⟨e, hperm.mem_iff.2 he, rfl, KeyEqualizer_refl operator_eq_is_equivalence e.2⟩

end PermutationLemmas

/-! ## Lemmas: the comparison with addresses and the comparison of the terms pointed to -/

section LocatedLemmas

variable (e : finite_ccs → finite_ccs → Bool)

theorem any_map_eq {α β : Type} (f : α → β) (p : β → Bool) (l : List α) :
    (l.map f).any p = l.any (fun x => p (f x)) := by
  induction l with
  | nil => rfl
  | cons x rest ih => simp only [List.map_cons, List.any_cons, ih]

theorem all_map_eq {α β : Type} (f : α → β) (p : β → Bool) (l : List α) :
    (l.map f).all p = l.all (fun x => p (f x)) := by
  induction l with
  | nil => rfl
  | cons x rest ih => simp only [List.map_cons, List.all_cons, ih]

theorem located_emplace_forget (s : List located_ptr) (x : located_ptr) :
    (located_emplace e s x).map Prod.snd =
      transition_node_set.emplace e (s.map Prod.snd) x.2 := by
  have hany : transition_node_set.contains e (s.map Prod.snd) x.2 =
      s.any (fun y => KeyEqualizer e x.2 y.2) := by
    unfold transition_node_set.contains
    rw [any_map_eq]
  unfold located_emplace transition_node_set.emplace
  rw [hany]
  by_cases h : s.any (fun y => KeyEqualizer e x.2 y.2) = true
  · rw [if_pos h, if_pos h]
  · rw [if_neg h, if_neg h]
    simp

theorem map_update_map_values {K V W : Type} (g : V → W) (keq : K → K → Bool) (dflt : V)
    (f : V → V) (f' : W → W) (k : K) (hfg : ∀ v, g (f v) = f' (g v)) (m : List (K × V)) :
    (map_update keq dflt f k m).map (fun kv => (kv.1, g kv.2)) =
      map_update keq (g dflt) f' k (m.map (fun kv => (kv.1, g kv.2))) := by
  induction m with
  | nil => simp [map_update, hfg]
  | cons a rest ih =>
    obtain ⟨k0, v⟩ := a
    by_cases h0 : keq k k0 = true
    · simp [map_update, h0, hfg]
    · simp only [map_update, h0, List.map_cons, Bool.false_eq_true, if_false]
      rw [ih]

theorem map_find_map_values {K V W : Type} (g : V → W) (keq : K → K → Bool) (k : K)
    (m : List (K × V)) :
    map_find keq k (m.map (fun kv => (kv.1, g kv.2))) = (map_find keq k m).map g := by
  induction m with
  | nil => rfl
  | cons a rest ih =>
    obtain ⟨k0, v⟩ := a
    rw [List.map_cons, map_find_cons, map_find_cons, ih]
    by_cases h0 : keq k k0 = true
    · rw [if_pos h0, if_pos h0]
      rfl
    · rw [if_neg h0, if_neg h0]

theorem located_multimap_fold_forget (mp : located_branches) :
    ∀ m : List ((Bool × String) × List located_ptr),
      (mp.foldl (fun m x => map_update label_eq []
          (fun set => located_emplace e set x.2) x.1 m) m).map
        (fun kv => (kv.1, kv.2.map Prod.snd)) =
      (forget_addresses mp).foldl (fun m x => map_update label_eq []
          (fun set => transition_node_set.emplace e set x.2) x.1 m)
        (m.map (fun kv => (kv.1, kv.2.map Prod.snd))) := by
  induction mp with
  | nil => intro m; rfl
  | cons x rest ih =>
    intro m
    simp only [forget_addresses, List.map_cons, List.foldl_cons] at ih ⊢
    rw [ih]
    congr 1
    exact map_update_map_values (fun v : List located_ptr => v.map Prod.snd) label_eq []
      (fun set => located_emplace e set x.2)
      (fun set => transition_node_set.emplace e set x.2.2) x.1
      (fun v => located_emplace_forget e v x.2) m

theorem located_multimap_forget (mp : located_branches) :
    (located_multimap e mp).map (fun kv => (kv.1, kv.2.map Prod.snd)) =
      finite_ccs.multimap e (forget_addresses mp) :=
  located_multimap_fold_forget e mp []

theorem located_emplace_mem (s : List located_ptr) (x z : located_ptr)
    (hz : z ∈ located_emplace e s x) : z ∈ s ∨ z = x := by
  unfold located_emplace at hz
  by_cases h : s.any (fun y => KeyEqualizer e x.2 y.2) = true
  · rw [if_pos h] at hz
    exact Or.inl hz
  · rw [if_neg h] at hz
    simpa using hz

theorem located_multimap_fold_mem (Q : located_ptr → Prop) (mp : located_branches)
    (hmp : ∀ x ∈ mp, Q x.2) :
    ∀ m : List ((Bool × String) × List located_ptr), (∀ kv ∈ m, ∀ z ∈ kv.2, Q z) →
      ∀ kv ∈ mp.foldl (fun m x => map_update label_eq []
          (fun set => located_emplace e set x.2) x.1 m) m, ∀ z ∈ kv.2, Q z := by
  induction mp with
  | nil => intro m hm; exact hm
  | cons x rest ih =>
    intro m hm
    rw [List.foldl_cons]
    apply ih (fun y hy => hmp y (List.mem_cons_of_mem _ hy))
    have hx : Q x.2 := hmp x (List.mem_cons_self _ _)
    apply map_update_values (fun v : List located_ptr => ∀ z ∈ v, Q z) label_eq []
      (fun set => located_emplace e set x.2) x.1 m hm
    · intro z hz
      rcases located_emplace_mem e [] x.2 z hz with h | h
      · cases h
      · rw [h]; exact hx
    · intro v hv z hz
      rcases located_emplace_mem e v x.2 z hz with h | h
      · exact hv z h
      · rw [h]; exact hx

theorem located_lookup_mem (mp : located_branches) (k : Bool × String) :
    ∀ z ∈ (map_find label_eq k (located_multimap e mp)).getD [], z ∈ mp.map Prod.snd := by
  have hall := located_multimap_fold_mem e (fun z => z ∈ mp.map Prod.snd) mp
    (fun x hx => List.mem_map_of_mem _ hx) [] (by intro kv hkv; cases hkv)
  unfold map_find
  cases hfind : (located_multimap e mp).find? (fun x => label_eq k x.1) with
  | none => intro z hz; simp at hz
  | some kv =>
    intro z hz
    simp only [Option.map_some', Option.getD_some] at hz
    exact hall kv (List.mem_of_find?_eq_some hfind) z hz

theorem located_lookup_forget (mp : located_branches) (k : Bool × String) :
    (map_find label_eq k (finite_ccs.multimap e (forget_addresses mp))).getD [] =
      ((map_find label_eq k (located_multimap e mp)).getD []).map Prod.snd := by
  rw [← located_multimap_forget, map_find_map_values]
  cases map_find label_eq k (located_multimap e mp) <;> rfl

theorem located_set_eq_forget (A B : List located_ptr)
    (hshared : ∀ x ∈ A, ∀ y ∈ B, KeyEqualizer e x.2 y.2 = true → x.1 = y.1) :
    located_set_eq e A B = finite_ccs.node_set_eq e (A.map Prod.snd) (B.map Prod.snd) := by
  unfold located_set_eq finite_ccs.node_set_eq transition_node_set.contains
  rw [List.length_map, List.length_map, all_map_eq]
  congr 1
  apply all_congr_on
  intro x hx
  rw [any_map_eq]
  induction B with
  | nil => rfl
  | cons y rest ih =>
    simp only [List.any_cons]
    rw [ih (fun x hx y hy => hshared x hx y (List.mem_cons_of_mem _ hy))]
    congr 1
    by_cases hk : KeyEqualizer e x.2 y.2 = true
    · have := hshared x hx y (List.mem_cons_self _ _) hk
      simp [hk, this]
    · simp [hk]

/-- When any two continuations of the two branch lists that point to structurally equal
terms are one pointer, the MultiPrefix case of `operator==` evaluated with the addresses is
the body of `operator==` of this development on the two MultiPrefix terms. -/
theorem located_multi_prefix_eq_of_shared (lhs rhs : located_branches)
    (hshared : ∀ x ∈ lhs, ∀ y ∈ rhs,
      KeyEqualizer e x.2.2 y.2.2 = true → x.2.1 = y.2.1) :
    located_multi_prefix_eq e lhs rhs =
      finite_ccs.eq_body e (finite_ccs.prefixes (forget_addresses lhs))
        (finite_ccs.prefixes (forget_addresses rhs)) := by
  simp only [located_multi_prefix_eq, finite_ccs.eq_body, finite_ccs.prefixes,
    finite_ccs.casus, finite_ccs.multi_prefix, ne_eq, not_true_eq_false, if_false]
  by_cases hls : (!finite_ccs.label_set_eq (finite_ccs.label_set (forget_addresses lhs))
      (finite_ccs.label_set (forget_addresses rhs))) = true
  · rw [if_pos hls, if_pos hls]
  · rw [if_neg hls, if_neg hls]
    apply all_congr_on
    intro k _
    rw [located_lookup_forget, located_lookup_forget]
    apply located_set_eq_forget
    intro x hx y hy hk
    have hx' := located_lookup_mem e lhs k x hx
    have hy' := located_lookup_mem e rhs k y hy
    simp only [List.mem_map] at hx' hy'
    obtain ⟨x0, hx0, rfl⟩ := hx'
    obtain ⟨y0, hy0, rfl⟩ := hy'
    exact hshared x0 hx0 y0 hy0 hk

/-- With the addresses, `operator==` accepts a MultiPrefix term and the term with its branches
permuted when any two continuations of the term that point to structurally equal terms are
one pointer. -/
theorem located_multi_prefix_eq_perm (lhs rhs : located_branches) (hperm : lhs.Perm rhs)
    (hshared : ∀ x ∈ lhs, ∀ y ∈ lhs,
      KeyEqualizer finite_ccs.operator_eq x.2.2 y.2.2 = true → x.2.1 = y.2.1) :
    located_multi_prefix_eq finite_ccs.operator_eq lhs rhs = true := by
  rw [located_multi_prefix_eq_of_shared finite_ccs.operator_eq lhs rhs
    (fun x hx y hy => hshared x hx y (hperm.mem_iff.2 hy)), ← operator_eq_unfold]
  exact operator_eq_perm [] [] [] [] _ _ (hperm.map _)

end LocatedLemmas

/-! ## Theorems: permuting the branches of a MultiPrefix term -/

/-- C26 (evaluation of the code at an input on which the claim fails): the term `a.0 + a.0`
whose two continuations are two deadlock terms at the addresses `1` and `2`, and the term
with the two branches swapped. The branch lists are permutations of each other and the two
terms have the same hash; the comparison of the sets of continuations for the label `a`,
which hold the first continuation of each list, looks for the address `1` in a set that
holds the address `2`, so that the MultiPrefix case of `operator==` returns false on the
term and the permuted term, while it returns true on the term and itself. -/
theorem multi_prefix_permutation_compares_addresses (H : String → Nat) :
    List.Perm
      ([(a, (1, nil)), (a, (2, nil))] : located_branches)
      [(a, (2, nil)), (a, (1, nil))] ∧
    located_multimap finite_ccs.operator_eq [(a, (1, nil)), (a, (2, nil))] =
      [(a, [(1, nil)])] ∧
    located_multimap finite_ccs.operator_eq [(a, (2, nil)), (a, (1, nil))] =
      [(a, [(2, nil)])] ∧
    located_multi_prefix_eq finite_ccs.operator_eq
      [(a, (1, nil)), (a, (2, nil))] [(a, (2, nil)), (a, (1, nil))] = false ∧
    located_multi_prefix_eq finite_ccs.operator_eq
      [(a, (1, nil)), (a, (2, nil))] [(a, (1, nil)), (a, (2, nil))] = true ∧
    finite_ccs.hash H (finite_ccs.prefixes
        (forget_addresses [(a, (1, nil)), (a, (2, nil))])) =
      finite_ccs.hash H (finite_ccs.prefixes
        (forget_addresses [(a, (2, nil)), (a, (1, nil))])) :=
  ⟨List.Perm.swap _ _ _, rfl, rfl, rfl, rfl, rfl⟩

/-! ## Theorems: subscripts of the component list -/

/-- C27 (evaluation of the code at an input on which the claim fails): the composition of the
single component `a.0` is accepted by the test of the parallel rule, which produces for it the
one successor `0` alone in a composition; hashing either of the two terms reads the component
of index `1`, past the end of the component list, and so does comparing either of them with
itself, whereas on the composition `a.0 | b.0` of two components both calls stay within the
list. -/
theorem parallel_rule_accepts_single_component (H : String → Nat) :
    parallel_test single_anil = true ∧
    (finite_ccs.parallel [a_nil]).parallel_compose.length = 1 ∧
    finiteCCS_call single_anil = [(a, single_nil)] ∧
    finite_ccs.hash_checked H (finite_ccs.parallel [a_nil]) = none ∧
    finite_ccs.eq_checked (finite_ccs.parallel [a_nil]) (finite_ccs.parallel [a_nil]) = none ∧
    finite_ccs.hash_checked H (finite_ccs.parallel [nil]) = none ∧
    finite_ccs.eq_checked (finite_ccs.parallel [nil]) (finite_ccs.parallel [nil]) = none ∧
    finite_ccs.hash_checked H (finite_ccs.parallel [a_nil, b_nil]) =
      some (finite_ccs.hash H (finite_ccs.parallel [a_nil, b_nil])) ∧
    finite_ccs.eq_checked (finite_ccs.parallel [a_nil, b_nil])
      (finite_ccs.parallel [a_nil, b_nil]) = some true :=
  ⟨rfl, rfl, rfl, rfl, rfl, rfl, rfl, rfl, rfl⟩

/-! ## Lemmas: looking keys up by hash code -/

section HashedLemmas

variable {Key : Type}

theorem KeyEqualizer_hashed_eq (hash : Key → Nat) (eq : Key → Key → Bool) (x y : Option Key) :
    KeyEqualizer (hashed_eq hash eq) x y =
      ((KeyHasher hash x == KeyHasher hash y) && KeyEqualizer eq x y) := by
  cases x <;> cases y <;> simp [KeyEqualizer, derefEq, hashed_eq, KeyHasher]

theorem hashed_eq_equivalence (hash : Key → Nat) (eq : Key → Key → Bool)
    (h : EqIsEquivalence eq) : EqIsEquivalence (hashed_eq hash eq) where
  refl := fun a => by simp [hashed_eq, h.refl a]
  symm := fun a b hab => by
    simp only [hashed_eq, Bool.and_eq_true, beq_iff_eq] at hab ⊢
    exact ⟨hab.1.symm, h.symm a b hab.2⟩
  trans := fun a b c hab hbc => by
    simp only [hashed_eq, Bool.and_eq_true, beq_iff_eq] at hab hbc ⊢
    exact ⟨hab.1.trans hbc.1, h.trans a b c hab.2 hbc.2⟩

end HashedLemmas

/-! ## Lemmas: the explorer reads the key equality on the terms it meets only -/

section CongruenceLemmas

variable {TransitionNode TransitionLabel : Type} [DecidableEq TransitionLabel]
variable {eq eq' : TransitionNode → TransitionNode → Bool}
variable {dispatch : RecHandle TransitionNode TransitionLabel TransitionNode}
variable {push : List (Option TransitionNode) → Option TransitionNode →
  List (Option TransitionNode)}

theorem contains_congr_of_agree (s : transition_node_set TransitionNode)
    (x : Option TransitionNode)
    (h : ∀ y ∈ s, KeyEqualizer eq x y = KeyEqualizer eq' x y) :
    transition_node_set.contains eq s x = transition_node_set.contains eq' s x := by
  unfold transition_node_set.contains
  induction s with
  | nil => rfl
  | cons y rest ih =>
    simp only [List.any_cons]
    rw [h y (List.mem_cons_self _ _), ih (fun z hz => h z (List.mem_cons_of_mem _ hz))]

theorem emplace_congr_of_agree (s : transition_node_set TransitionNode)
    (x : Option TransitionNode)
    (h : ∀ y ∈ s, KeyEqualizer eq x y = KeyEqualizer eq' x y) :
    transition_node_set.emplace eq s x = transition_node_set.emplace eq' s x := by
  unfold transition_node_set.emplace
  rw [contains_congr_of_agree s x h]

theorem emplace_mem_cases (s : transition_node_set TransitionNode)
    (x z : Option TransitionNode) (hz : z ∈ transition_node_set.emplace eq s x) :
    z ∈ s ∨ z = x := by
  unfold transition_node_set.emplace at hz
  by_cases hc : transition_node_set.contains eq s x = true
  · rw [if_pos hc] at hz; exact Or.inl hz
  · rw [if_neg hc] at hz
    simpa using hz

theorem map_update_congr_keys {K V : Type} (keq keq' : K → K → Bool) (dflt : V)
    (f f' : V → V) (k : K) (m : List (K × V))
    (hk : ∀ e ∈ m, keq k e.1 = keq' k e.1) (hm : ∀ e ∈ m, f e.2 = f' e.2)
    (hd : f dflt = f' dflt) :
    map_update keq dflt f k m = map_update keq' dflt f' k m := by
  induction m with
  | nil => simp [map_update, hd]
  | cons e rest ih =>
    obtain ⟨k0, v⟩ := e
    have hk0 := hk (k0, v) (List.mem_cons_self _ _)
    have hv := hm (k0, v) (List.mem_cons_self _ _)
    simp only at hk0 hv
    simp only [map_update, ← hk0, hv,
      ih (fun e he => hk e (List.mem_cons_of_mem _ he))
        (fun e he => hm e (List.mem_cons_of_mem _ he))]


theorem record_edge_congr (D : List (Option TransitionNode))
    (hagree : ∀ x ∈ D, ∀ y ∈ D, KeyEqualizer eq x y = KeyEqualizer eq' x y)
    (g : transition_graph TransitionNode TransitionLabel) (hg : graph_within D g)
    (top : Option TransitionNode) (l : TransitionLabel) (dst : Option TransitionNode)
    (htop : top ∈ D) (hdst : dst ∈ D) :
    record_edge eq g top l dst = record_edge eq' g top l dst := by
  unfold record_edge
  apply map_update_congr_keys
  · intro e he
    exact hagree top htop e.1 (hg e he).1
  · intro e he
    apply map_update_congr_keys
    · intro a _; rfl
    · intro a ha
      exact emplace_congr_of_agree a.2 dst
        (fun y hy => hagree dst hdst y ((hg e he).2 a ha y hy))
    · rfl
  · rfl

theorem record_edge_within (D : List (Option TransitionNode))
    (g : transition_graph TransitionNode TransitionLabel) (hg : graph_within D g)
    (top : Option TransitionNode) (l : TransitionLabel) (dst : Option TransitionNode)
    (htop : top ∈ D) (hdst : dst ∈ D) :
    graph_within D (record_edge eq g top l dst) := by
  have hset : ∀ v : transition_node_set TransitionNode, (∀ z ∈ v, z ∈ D) →
      ∀ z ∈ transition_node_set.emplace eq v dst, z ∈ D := by
    intro v hv z hz
    rcases emplace_mem_cases v dst z hz with h | h
    · exact hv z h
    · rw [h]; exact hdst
  have hadj : ∀ adj : adjacency TransitionNode TransitionLabel,
      (∀ a ∈ adj, ∀ z ∈ a.2, z ∈ D) →
      ∀ a ∈ map_update label_eq [] (fun set => transition_node_set.emplace eq set dst) l adj,
        ∀ z ∈ a.2, z ∈ D := by
    intro adj hadj
    exact map_update_values (fun v : transition_node_set TransitionNode => ∀ z ∈ v, z ∈ D)
      label_eq [] _ l adj hadj (hset [] (fun z hz => by cases hz)) hset
  unfold record_edge
  intro e he
  have hk := map_update_mem_key (KeyEqualizer eq) []
    (fun adjList => map_update label_eq []
      (fun dstPlace => transition_node_set.emplace eq dstPlace dst) l adjList) top g e he
  have hv := map_update_values
    (fun adj : adjacency TransitionNode TransitionLabel => ∀ a ∈ adj, ∀ z ∈ a.2, z ∈ D)
    (KeyEqualizer eq) []
    (fun adjList => map_update label_eq []
      (fun dstPlace => transition_node_set.emplace eq dstPlace dst) l adjList) top g
    (fun e he => (hg e he).2) (hadj [] (fun a ha => by cases ha)) hadj e he
  refine ⟨?_, hv⟩
  rcases hk with hk | hk
  · rw [hk]; exact htop
  · obtain ⟨e0, he0, hkey⟩ := hk
    rw [← hkey]
    exact (hg e0 he0).1


theorem worklist_fold_congr (D : List (Option TransitionNode))
    (hagree : ∀ x ∈ D, ∀ y ∈ D, KeyEqualizer eq x y = KeyEqualizer eq' x y)
    (hpush : ∀ w d x, x ∈ push w d ↔ x = d ∨ x ∈ w)
    (top : Option TransitionNode) (htop : top ∈ D)
    (es : List (TransitionLabel × Option TransitionNode)) (hes : ∀ e ∈ es, e.2 ∈ D) :
    ∀ st : visit_state TransitionNode TransitionLabel, state_within D st →
      es.foldl (worklist_edge push eq top) st = es.foldl (worklist_edge push eq' top) st ∧
      state_within D (es.foldl (worklist_edge push eq top) st) := by
  induction es with
  | nil => intro st hst; exact ⟨rfl, hst⟩
  | cons e rest ih =>
    intro st hst
    have he : e.2 ∈ D := hes e (List.mem_cons_self _ _)
    have hstep : worklist_edge push eq top st e = worklist_edge push eq' top st e := by
      unfold worklist_edge
      rw [record_edge_congr D hagree st.forward_transition_graph hst.2.2 top e.1 e.2 htop he]
    have hin : state_within D (worklist_edge push eq top st e) := by
      refine ⟨?_, hst.2.1, ?_⟩
      · intro x hx
        simp only [worklist_edge] at hx
        rcases (hpush _ _ _).1 hx with h | h
        · rw [h]; exact he
        · exact hst.1 x h
      · exact record_edge_within D st.forward_transition_graph hst.2.2 top e.1 e.2 htop he
    simp only [List.foldl_cons]
    rw [← hstep]
    exact ih (fun e' he' => hes e' (List.mem_cons_of_mem _ he')) _ hin

theorem worklist_step_congr (D : List (Option TransitionNode))
    (hagree : ∀ x ∈ D, ∀ y ∈ D, KeyEqualizer eq x y = KeyEqualizer eq' x y)
    (hclosed : ∀ x ∈ D, ∀ e ∈ dispatch x, e.2 ∈ D)
    (hpush : ∀ w d x, x ∈ push w d ↔ x = d ∨ x ∈ w)
    (st : visit_state TransitionNode TransitionLabel) (hst : state_within D st) :
    worklist_step push dispatch eq st = worklist_step push dispatch eq' st ∧
    state_within D (worklist_step push dispatch eq st) := by
  unfold worklist_step
  cases hS : st.S with
  | nil => exact ⟨rfl, hst⟩
  | cons top rest =>
    have htop : top ∈ D := hst.1 top (by rw [hS]; exact List.mem_cons_self _ _)
    have hrest : ∀ x ∈ rest, x ∈ D :=
      fun x hx => hst.1 x (by rw [hS]; exact List.mem_cons_of_mem _ hx)
    have hcont : transition_node_set.contains eq st.visited_nodes top =
        transition_node_set.contains eq' st.visited_nodes top :=
      contains_congr_of_agree _ _ (fun y hy => hagree top htop y (hst.2.1 y hy))
    have hemp : transition_node_set.emplace eq st.visited_nodes top =
        transition_node_set.emplace eq' st.visited_nodes top :=
      emplace_congr_of_agree _ _ (fun y hy => hagree top htop y (hst.2.1 y hy))
    simp only []
    rw [← hcont, ← hemp]
    by_cases hc : transition_node_set.contains eq st.visited_nodes top = true
    · rw [if_pos hc, if_pos hc]
      exact ⟨rfl, hrest, hst.2.1, hst.2.2⟩
    · rw [if_neg hc, if_neg hc]
      apply worklist_fold_congr D hagree hpush top htop (dispatch top) (hclosed top htop)
      refine ⟨hrest, ?_, hst.2.2⟩
      intro x hx
      rcases emplace_mem_cases st.visited_nodes top x hx with h | h
      · exact hst.2.1 x h
      · rw [h]; exact htop

theorem worklist_loop_congr (D : List (Option TransitionNode))
    (hagree : ∀ x ∈ D, ∀ y ∈ D, KeyEqualizer eq x y = KeyEqualizer eq' x y)
    (hclosed : ∀ x ∈ D, ∀ e ∈ dispatch x, e.2 ∈ D)
    (hpush : ∀ w d x, x ∈ push w d ↔ x = d ∨ x ∈ w) (fuel : Nat) :
    ∀ st : visit_state TransitionNode TransitionLabel, state_within D st →
      worklist_loop push dispatch eq fuel st = worklist_loop push dispatch eq' fuel st := by
  induction fuel with
  | zero => intro st _; rfl
  | succ n ih =>
    intro st hst
    obtain ⟨h1, h2⟩ := worklist_step_congr D hagree hclosed hpush st hst
    rw [worklist_loop, worklist_loop, ← h1, ih _ h2]

/-- On a list of terms that holds the root and the outcomes of its members, two key
equalities that agree on the members give the same exploration, with the stack and with the
queue. -/
theorem visit_congr (D : List (Option TransitionNode))
    (hagree : ∀ x ∈ D, ∀ y ∈ D, KeyEqualizer eq x y = KeyEqualizer eq' x y)
    (hclosed : ∀ x ∈ D, ∀ e ∈ dispatch x, e.2 ∈ D)
    (root : Option TransitionNode) (hroot : root ∈ D) (fuel : Nat)
    (self : small_step_semantics TransitionNode TransitionLabel) :
    visit_run dispatch eq fuel self root = visit_run dispatch eq' fuel self root ∧
    visit dispatch eq fuel self root = visit dispatch eq' fuel self root ∧
    visit_fifo dispatch eq fuel self root = visit_fifo dispatch eq' fuel self root := by
  have hinit : state_within D
      (visit_init self root : visit_state TransitionNode TransitionLabel) := by
    refine ⟨?_, ?_, ?_⟩
    · intro x hx
      simp only [visit_init, List.mem_singleton] at hx
      rw [hx]; exact hroot
    · intro x hx
      simp [visit_init] at hx
    · intro e he
      simp [visit_init] at he
  have hrun : visit_run dispatch eq fuel self root = visit_run dispatch eq' fuel self root := by
    unfold visit_run
    rw [visit_loop_eq_worklist, visit_loop_eq_worklist,
      worklist_loop_congr D hagree hclosed push_front_mem fuel _ hinit]
  refine ⟨hrun, ?_, ?_⟩
  · unfold visit
    rw [hrun]
  · unfold visit_fifo
    rw [visit_loop_fifo_eq_worklist, visit_loop_fifo_eq_worklist,
      worklist_loop_congr D hagree hclosed push_back_mem fuel _ hinit]

end CongruenceLemmas

/-! ## Lemmas: hash codes of the finite CCS terms the explorer is evaluated on -/

section FiniteCCSHashLemmas

theorem hashed_agree_of_imp {Key : Type} (hash : Key → Nat) (eq : Key → Key → Bool)
    (x y : Option Key)
    (h : KeyEqualizer eq x y = true → KeyHasher hash x = KeyHasher hash y) :
    KeyEqualizer (hashed_eq hash eq) x y = KeyEqualizer eq x y := by
  rw [KeyEqualizer_hashed_eq]
  by_cases hk : KeyEqualizer eq x y = true
  · rw [hk, h hk]
    simp
  · simp [hk]

/-- On the terms reachable from `x.(0 | 0 | a.0) + y.(0 | 0 | 0)`, terms that `operator==`
accepts have the same hash code. -/
theorem hashed_agree_compositions (H : String → Nat) :
    ∀ x ∈ [choice_of_compositions, nil_nil_anil, nil_nil_nil],
    ∀ y ∈ [choice_of_compositions, nil_nil_anil, nil_nil_nil],
      KeyEqualizer (hashed_eq (finite_ccs.hash H) finite_ccs.operator_eq) x y =
        KeyEqualizer finite_ccs.operator_eq x y := by
  intro x hx y hy
  apply hashed_agree_of_imp
  intro hk
  simp only [List.mem_cons, List.mem_singleton, List.not_mem_nil, or_false] at hx hy
  rcases hx with rfl | rfl | rfl <;> rcases hy with rfl | rfl | rfl <;>
    first
    | exact Bool.noConfusion (hk : false = true)
    | rfl

theorem closed_compositions :
    ∀ x ∈ [choice_of_compositions, nil_nil_anil, nil_nil_nil],
    ∀ e ∈ finiteCCS_call x, e.2 ∈ [choice_of_compositions, nil_nil_anil, nil_nil_nil] := by
  intro x hx e he
  simp only [List.mem_cons, List.mem_singleton, List.not_mem_nil, or_false] at hx
  rcases hx with rfl | rfl | rfl
  · rw [show finiteCCS_call choice_of_compositions =
      [(x_label, nil_nil_anil), (y_label, nil_nil_nil)] from rfl] at he
    simp only [List.mem_cons, List.mem_singleton, List.not_mem_nil, or_false] at he
    rcases he with rfl | rfl <;> simp
  · rw [show finiteCCS_call nil_nil_anil = [(a, nil_nil_nil)] from rfl] at he
    simp only [List.mem_singleton] at he
    rw [he]; simp
  · rw [show finiteCCS_call nil_nil_nil = [] from rfl] at he
    cases he

end FiniteCCSHashLemmas

/-! ## Theorems: the explorer with keys looked up by hash code -/

section HashedExplorerTheorems

variable {TransitionNode TransitionLabel : Type} [DecidableEq TransitionLabel]
variable {eq : TransitionNode → TransitionNode → Bool}
variable {dispatch : RecHandle TransitionNode TransitionLabel TransitionNode}

end HashedExplorerTheorems

/-! ## Theorems: the explorer on finite CCS, keys looked up by hash code -/

section LocatedDepthLemmas

theorem located_depth_pos (t : located_ccs) : 0 < located_ccs.depth t := by
  obtain ⟨c, r, p, m⟩ := t
  simp only [located_ccs.depth]
  omega

theorem located_depth_component_le (pc : List (Option (Nat × located_ccs))) :
    ∀ i, located_ccs.depth_ptr (located_ccs.component pc i) ≤
      located_ccs.depth_components pc := by
  induction pc with
  | nil => intro i; simp [located_ccs.component, located_ccs.depth_ptr]
  | cons c rest ih =>
    intro i
    cases i with
    | zero =>
      cases c with
      | none => simp [located_ccs.component, located_ccs.depth_ptr]
      | some nt =>
        obtain ⟨n, t⟩ := nt
        simp [located_ccs.component, located_ccs.depth_ptr, located_ccs.depth_components]
    | succ j =>
      have hj := ih j
      have hc : located_ccs.component (c :: rest) (j + 1) = located_ccs.component rest j := by
        simp [located_ccs.component]
      rw [hc]
      cases c with
      | none => simpa [located_ccs.depth_components] using hj
      | some nt =>
        obtain ⟨n, t⟩ := nt
        simp only [located_ccs.depth_components]
        exact le_trans hj (le_max_right _ _)

theorem located_depth_branch_le (mp : List ((Bool × String) × Option (Nat × located_ccs))) :
    ∀ e ∈ mp, located_ccs.depth_ptr e.2 ≤ located_ccs.depth_branches mp := by
  induction mp with
  | nil => intro e he; cases he
  | cons x rest ih =>
    obtain ⟨k, v⟩ := x
    intro e he
    rcases List.mem_cons.1 he with rfl | he
    · cases v with
      | none => simp [located_ccs.depth_ptr]
      | some nt =>
        obtain ⟨n, t⟩ := nt
        simp [located_ccs.depth_ptr, located_ccs.depth_branches]
    · have := ih e he
      cases v with
      | none => simpa [located_ccs.depth_branches] using this
      | some nt =>
        obtain ⟨n, t⟩ := nt
        simp only [located_ccs.depth_branches]
        exact le_trans this (le_max_right _ _)

theorem located_depth_children_lt (t : located_ccs) :
    ∀ v ∈ t.children, located_ccs.depth_ptr v < located_ccs.depth t := by
  intro v hv
  unfold located_ccs.children at hv
  obtain ⟨c, r, p, m⟩ := t
  simp only [located_ccs.parallel_compose, located_ccs.multi_prefix] at hv
  simp only [located_ccs.depth]
  rcases List.mem_append.1 hv with h | h
  · have hcomp : ∃ i, v = located_ccs.component p i := by
      simp only [List.mem_cons, List.mem_singleton, List.not_mem_nil, or_false] at h
      rcases h with h | h
      · exact ⟨0, h⟩
      · exact ⟨1, h⟩
    obtain ⟨i, rfl⟩ := hcomp
    have := located_depth_component_le p i
    have h2 : located_ccs.depth_components p ≤
        max (located_ccs.depth_components p) (located_ccs.depth_branches m) := le_max_left _ _
    omega
  · obtain ⟨e, he, rfl⟩ := List.mem_map.1 h
    have := located_depth_branch_le m e he
    have h2 : located_ccs.depth_branches m ≤
        max (located_ccs.depth_components p) (located_ccs.depth_branches m) := le_max_right _ _
    omega

end LocatedDepthLemmas

/-! ## Lemmas: `operator==` on terms with addresses reads its recursive calls on the children -/

section LocatedCongruence

variable (H : String → Nat)

theorem located_lookup_agree (e e' : located_ccs → located_ccs → Bool)
    (v w : Option (Nat × located_ccs))
    (h : KeyEqualizer (located_ccs.pointee_eq e) v w =
      KeyEqualizer (located_ccs.pointee_eq e') v w) :
    KeyEqualizer (hashed_eq (located_ccs.pointee_hash H) (located_ccs.pointee_eq e)) v w =
      KeyEqualizer (hashed_eq (located_ccs.pointee_hash H) (located_ccs.pointee_eq e')) v w := by
  rw [KeyEqualizer_hashed_eq, KeyEqualizer_hashed_eq, h]

theorem located_multimap_fold_congr (e e' : located_ccs → located_ccs → Bool)
    (D : List (Option (Nat × located_ccs)))
    (hagree : ∀ v ∈ D, ∀ w ∈ D, KeyEqualizer (located_ccs.pointee_eq e) v w =
      KeyEqualizer (located_ccs.pointee_eq e') v w)
    (mp : List ((Bool × String) × Option (Nat × located_ccs))) :
    ∀ m : List ((Bool × String) × transition_node_set (Nat × located_ccs)),
      (∀ x ∈ mp, x.2 ∈ D) → (∀ entry ∈ m, ∀ z ∈ entry.2, z ∈ D) →
      mp.foldl (fun m x => map_update label_eq []
          (fun set => transition_node_set.emplace
            (hashed_eq (located_ccs.pointee_hash H) (located_ccs.pointee_eq e)) set x.2)
          x.1 m) m =
        mp.foldl (fun m x => map_update label_eq []
          (fun set => transition_node_set.emplace
            (hashed_eq (located_ccs.pointee_hash H) (located_ccs.pointee_eq e')) set x.2)
          x.1 m) m ∧
      ∀ entry ∈ mp.foldl (fun m x => map_update label_eq []
          (fun set => transition_node_set.emplace
            (hashed_eq (located_ccs.pointee_hash H) (located_ccs.pointee_eq e)) set x.2)
          x.1 m) m,
        ∀ z ∈ entry.2, z ∈ D := by
  induction mp with
  | nil => intro m _ hm; exact ⟨rfl, hm⟩
  | cons x rest ih =>
    intro m hmp hm
    have hx : x.2 ∈ D := hmp x (List.mem_cons_self _ _)
    have hstep : map_update label_eq []
          (fun set => transition_node_set.emplace
            (hashed_eq (located_ccs.pointee_hash H) (located_ccs.pointee_eq e)) set x.2)
          x.1 m =
        map_update label_eq []
          (fun set => transition_node_set.emplace
            (hashed_eq (located_ccs.pointee_hash H) (located_ccs.pointee_eq e')) set x.2)
          x.1 m := by
      apply map_update_congr
      · intro entry hentry
        exact emplace_congr_of_agree entry.2 x.2
          (fun y hy => located_lookup_agree H e e' x.2 y
            (hagree x.2 hx y (hm entry hentry y hy)))
      · rfl
    have hP : ∀ entry ∈ map_update label_eq []
          (fun set => transition_node_set.emplace
            (hashed_eq (located_ccs.pointee_hash H) (located_ccs.pointee_eq e)) set x.2)
          x.1 m,
        ∀ z ∈ entry.2, z ∈ D := by
      apply map_update_values
        (fun set : transition_node_set (Nat × located_ccs) => ∀ z ∈ set, z ∈ D)
      · exact hm
      · intro z hz
        rcases emplace_mem_cases [] x.2 z hz with h | h
        · cases h
        · rw [h]; exact hx
      · intro v hv z hz
        rcases emplace_mem_cases v x.2 z hz with h | h
        · exact hv z h
        · rw [h]; exact hx
    simp only [List.foldl_cons]
    have := ih _ (fun x' hx' => hmp x' (List.mem_cons_of_mem _ hx')) hP
    rw [← hstep]
    exact this

theorem located_lookup_subset (k : Bool × String)
    (m : List ((Bool × String) × transition_node_set (Nat × located_ccs)))
    (P : transition_node_set (Nat × located_ccs) → Prop) (hnil : P [])
    (hm : ∀ entry ∈ m, P entry.2) : P ((map_find label_eq k m).getD []) := by
  unfold map_find
  cases hfind : m.find? (fun x => label_eq k x.1) with
  | none => exact hnil
  | some x => exact hm x (List.mem_of_find?_eq_some hfind)

theorem located_node_set_eq_congr (e e' : located_ccs → located_ccs → Bool)
    (D : List (Option (Nat × located_ccs)))
    (hagree : ∀ v ∈ D, ∀ w ∈ D, KeyEqualizer (located_ccs.pointee_eq e) v w =
      KeyEqualizer (located_ccs.pointee_eq e') v w)
    (a b : transition_node_set (Nat × located_ccs))
    (ha : ∀ z ∈ a, z ∈ D) (hb : ∀ z ∈ b, z ∈ D) :
    located_ccs.node_set_eq e a b = located_ccs.node_set_eq e' a b := by
  unfold located_ccs.node_set_eq
  congr 1
  apply all_congr_on
  intro x hx
  induction b with
  | nil => rfl
  | cons y rest ih =>
    simp only [List.any_cons]
    rw [ih (fun z hz => hb z (List.mem_cons_of_mem _ hz)),
      hagree x (ha x hx) y (hb y (List.mem_cons_self _ _))]

theorem located_eq_body_congr (e e' : located_ccs → located_ccs → Bool)
    (lhs rhs : located_ccs)
    (hagree : ∀ v ∈ lhs.children ++ rhs.children, ∀ w ∈ lhs.children ++ rhs.children,
      KeyEqualizer (located_ccs.pointee_eq e) v w =
        KeyEqualizer (located_ccs.pointee_eq e') v w) :
    located_ccs.eq_body H e lhs rhs = located_ccs.eq_body H e' lhs rhs := by
  have hl : ∀ i, i < 2 → located_ccs.component lhs.parallel_compose i ∈
      lhs.children ++ rhs.children := by
    intro i hi
    apply List.mem_append_left
    unfold located_ccs.children
    apply List.mem_append_left
    interval_cases i <;> simp
  have hr : ∀ i, i < 2 → located_ccs.component rhs.parallel_compose i ∈
      lhs.children ++ rhs.children := by
    intro i hi
    apply List.mem_append_right
    unfold located_ccs.children
    apply List.mem_append_left
    interval_cases i <;> simp
  have hml : ∀ x ∈ located_ccs.multi_prefix lhs, x.2 ∈ lhs.children ++ rhs.children := by
    intro x hx
    apply List.mem_append_left
    unfold located_ccs.children
    apply List.mem_append_right
    exact List.mem_map_of_mem _ hx
  have hmr : ∀ x ∈ located_ccs.multi_prefix rhs, x.2 ∈ lhs.children ++ rhs.children := by
    intro x hx
    apply List.mem_append_right
    unfold located_ccs.children
    apply List.mem_append_right
    exact List.mem_map_of_mem _ hx
  obtain ⟨hL, hLD⟩ := located_multimap_fold_congr H e e' _ hagree _ [] hml
    (fun entry hentry => by cases hentry)
  obtain ⟨hR, hRD⟩ := located_multimap_fold_congr H e e' _ hagree _ [] hmr
    (fun entry hentry => by cases hentry)
  have hsets : ∀ k, located_ccs.node_set_eq e
        ((map_find label_eq k
          (located_ccs.multimap H e ( located_ccs.multi_prefix lhs))).getD [])
        ((map_find label_eq k
          (located_ccs.multimap H e ( located_ccs.multi_prefix rhs))).getD []) =
      located_ccs.node_set_eq e'
        ((map_find label_eq k
          (located_ccs.multimap H e' ( located_ccs.multi_prefix lhs))).getD [])
        ((map_find label_eq k
          (located_ccs.multimap H e' ( located_ccs.multi_prefix rhs))).getD []) := by
    intro k
    have hL' : located_ccs.multimap H e ( located_ccs.multi_prefix lhs) =
        located_ccs.multimap H e' ( located_ccs.multi_prefix lhs) := hL
    have hR' : located_ccs.multimap H e ( located_ccs.multi_prefix rhs) =
        located_ccs.multimap H e' ( located_ccs.multi_prefix rhs) := hR
    rw [← hL', ← hR']
    exact located_node_set_eq_congr e e' _ hagree _ _
      (located_lookup_subset k _ (fun set => ∀ z ∈ set, z ∈ lhs.children ++ rhs.children)
        (fun z hz => by cases hz) hLD)
      (located_lookup_subset k _ (fun set => ∀ z ∈ set, z ∈ lhs.children ++ rhs.children)
        (fun z hz => by cases hz) hRD)
  unfold located_ccs.eq_body
  simp only [hsets, hagree _ (hl 0 (by omega)) _ (hr 0 (by omega)),
    hagree _ (hl 1 (by omega)) _ (hr 1 (by omega))]

theorem located_agree_of_depth (f g : located_ccs → located_ccs → Bool) (n : Nat)
    (hfg : ∀ a b, located_ccs.depth a ≤ n → located_ccs.depth b ≤ n → f a b = g a b)
    (v w : Option (Nat × located_ccs))
    (hv : located_ccs.depth_ptr v ≤ n) (hw : located_ccs.depth_ptr w ≤ n) :
    KeyEqualizer (located_ccs.pointee_eq f) v w =
      KeyEqualizer (located_ccs.pointee_eq g) v w := by
  cases v with
  | none => cases w <;> rfl
  | some a =>
    cases w with
    | none => rfl
    | some b =>
      obtain ⟨na, ta⟩ := a
      obtain ⟨nb, tb⟩ := b
      simp only [located_ccs.depth_ptr] at hv hw
      simp only [KeyEqualizer, derefEq, located_ccs.pointee_eq]
      rw [hfg ta tb hv hw]

theorem located_children_depth (x y : located_ccs) :
    ∀ v ∈ x.children ++ y.children,
      located_ccs.depth_ptr v < max (located_ccs.depth x) (located_ccs.depth y) := by
  intro v hv
  rcases List.mem_append.1 hv with h | h
  · exact lt_of_lt_of_le (located_depth_children_lt x v h) (le_max_left _ _)
  · exact lt_of_lt_of_le (located_depth_children_lt y v h) (le_max_right _ _)

theorem located_eq_fuel_stable (n : Nat) :
    ∀ (m : Nat) (x y : located_ccs),
      max (located_ccs.depth x) (located_ccs.depth y) ≤ n →
      max (located_ccs.depth x) (located_ccs.depth y) ≤ m →
      located_ccs.eq_fuel H n x y = located_ccs.eq_fuel H m x y := by
  induction n with
  | zero =>
    intro m x y hn
    have := located_depth_pos x
    omega
  | succ n ih =>
    intro m x y hn hm
    cases m with
    | zero =>
      have := located_depth_pos x
      omega
    | succ m =>
      simp only [located_ccs.eq_fuel]
      apply located_eq_body_congr
      intro v hv w hw
      have hvd := located_children_depth x y v hv
      have hwd := located_children_depth x y w hw
      apply located_agree_of_depth _ _
        (max (located_ccs.depth x) (located_ccs.depth y) - 1) _ v w (by omega) (by omega)
      intro a b ha hb
      exact ih m a b (by omega) (by omega)

/-- The operator `finite_ccs::operator==` on terms with addresses satisfies the recursive
equation of the source: it is its body with the recursive calls made to the operator itself,
so that the depth bound of `operator_eq` is never reached. -/
theorem located_operator_eq_unfold (lhs rhs : located_ccs) :
    located_ccs.operator_eq H lhs rhs =
      located_ccs.eq_body H (located_ccs.operator_eq H) lhs rhs := by
  unfold located_ccs.operator_eq
  have hpos := located_depth_pos lhs
  obtain ⟨k, hk⟩ : ∃ k, max (located_ccs.depth lhs) (located_ccs.depth rhs) = k + 1 :=
    ⟨max (located_ccs.depth lhs) (located_ccs.depth rhs) - 1, by omega⟩
  rw [hk]
  simp only [located_ccs.eq_fuel]
  apply located_eq_body_congr
  intro v hv w hw
  have hvd := located_children_depth lhs rhs v hv
  have hwd := located_children_depth lhs rhs w hw
  apply located_agree_of_depth _ _ k _ v w (by omega) (by omega)
  intro a b ha hb
  exact located_eq_fuel_stable H k (max (located_ccs.depth a) (located_ccs.depth b)) a b
    (by omega) le_rfl

end LocatedCongruence

/-! ## Lemmas: what `operator==` decides on terms with addresses -/

section LocatedSpec

variable (H : String → Nat) (e : located_ccs → located_ccs → Bool)

theorem located_eq_body_iff_spec (lhs rhs : located_ccs) :
    located_ccs.eq_body H e lhs rhs = true ↔ located_ccs.eq_spec H e lhs rhs := by
  unfold located_ccs.eq_body located_ccs.eq_spec located_ccs.successor_set
  by_cases hc : lhs.casus = rhs.casus
  · simp only [hc, ne_eq, not_true_eq_false, if_false, true_and]
    cases hr : rhs.casus with
    | NIL => simp
    | MultiPrefix =>
      simp only []
      rw [← label_set_eq_iff]
      cases hls : finite_ccs.label_set_eq
        (located_ccs.label_set ( located_ccs.multi_prefix lhs))
        (located_ccs.label_set ( located_ccs.multi_prefix rhs)) <;> simp
    | ParallelComposition =>
      simp only []
      cases h0 : KeyEqualizer (located_ccs.pointee_eq e)
        (located_ccs.component lhs.parallel_compose 0)
        (located_ccs.component rhs.parallel_compose 0) <;> simp
    | Restriction =>
      simp only []
      by_cases hlab : lhs.restr_label = rhs.restr_label <;> simp [hlab]
  · simp [hc]

theorem located_node_set_eq_iff (A B : transition_node_set (Nat × located_ccs)) :
    located_ccs.node_set_eq e A B = true ↔
      A.length = B.length ∧ ∀ x ∈ A, ∃ y ∈ B,
        KeyEqualizer (located_ccs.pointee_eq e) x y = true ∧
          located_ccs.address x = located_ccs.address y := by
  simp only [located_ccs.node_set_eq, Bool.and_eq_true, beq_iff_eq, List.all_eq_true,
    List.any_eq_true]

theorem pointee_eq_equivalence (he : EqIsEquivalence e) :
    EqIsEquivalence (located_ccs.pointee_eq e) where
  refl := fun a => he.refl a.2
  symm := fun a b hab => he.symm a.2 b.2 hab
  trans := fun a b c hab hbc => he.trans a.2 b.2 c.2 hab hbc

theorem located_node_set_eq_refl (he : EqIsEquivalence e)
    (A : transition_node_set (Nat × located_ccs)) :
    located_ccs.node_set_eq e A A = true := by
  rw [located_node_set_eq_iff]
  exact ⟨rfl, fun x hx => ⟨x, hx, KeyEqualizer_refl (pointee_eq_equivalence e he) x, rfl⟩⟩

theorem located_node_set_eq_trans (he : EqIsEquivalence e)
    (A B C : transition_node_set (Nat × located_ccs))
    (hAB : located_ccs.node_set_eq e A B = true)
    (hBC : located_ccs.node_set_eq e B C = true) :
    located_ccs.node_set_eq e A C = true := by
  rw [located_node_set_eq_iff] at hAB hBC ⊢
  refine ⟨hAB.1.trans hBC.1, fun x hx => ?_⟩
  obtain ⟨y, hy, hxy, haxy⟩ := hAB.2 x hx
  obtain ⟨z, hz, hyz, hayz⟩ := hBC.2 y hy
  exact ⟨z, hz, KeyEqualizer_trans (pointee_eq_equivalence e he) hxy hyz, haxy.trans hayz⟩

/-- Two sets of the same size whose stored pointers hold pairwise different addresses: when
each pointer of the first one is matched in the second one, each pointer of the second one
is matched in the first one. -/
theorem located_node_set_eq_symm (he : EqIsEquivalence e)
    (A B : transition_node_set (Nat × located_ccs))
    (hA : (A.map located_ccs.address).Nodup) (hB : (B.map located_ccs.address).Nodup)
    (hAB : located_ccs.node_set_eq e A B = true) :
    located_ccs.node_set_eq e B A = true := by
  rw [located_node_set_eq_iff] at hAB ⊢
  obtain ⟨hlen, hmatch⟩ := hAB
  refine ⟨hlen.symm, fun y hy => ?_⟩
  have hsub : A.map located_ccs.address ⊆ B.map located_ccs.address := by
    intro n hn
    obtain ⟨x, hx, rfl⟩ := List.mem_map.1 hn
    obtain ⟨y', hy', _, hax⟩ := hmatch x hx
    rw [hax]
    exact List.mem_map_of_mem _ hy'
  have hperm : (A.map located_ccs.address).Perm (B.map located_ccs.address) :=
    (List.subperm_of_subset hA hsub).perm_of_length_le (by simp [hlen])
  have hyA : located_ccs.address y ∈ A.map located_ccs.address :=
    hperm.mem_iff.2 (List.mem_map_of_mem _ hy)
  obtain ⟨x, hx, hxy⟩ := List.mem_map.1 hyA
  obtain ⟨y', hy', hkey, hax⟩ := hmatch x hx
  have hyy : y' = y :=
    List.inj_on_of_nodup_map hB hy' hy (hax.symm.trans hxy)
  rw [hyy] at hkey
  exact ⟨x, hx, KeyEqualizer_symm (pointee_eq_equivalence e he) hkey, hxy.symm⟩

end LocatedSpec

/-! ## Lemmas: the successor sets hold pointers of pairwise different addresses -/

section LocatedSets

variable (H : String → Nat) (e : located_ccs → located_ccs → Bool)

theorem located_multimap_fold_inv (he : EqIsEquivalence e)
    (D : List (Option (Nat × located_ccs)))
    (mp : List ((Bool × String) × Option (Nat × located_ccs))) (hmp : ∀ x ∈ mp, x.2 ∈ D) :
    ∀ m : List ((Bool × String) × transition_node_set (Nat × located_ccs)),
      (∀ entry ∈ m, (∀ z ∈ entry.2, z ∈ D) ∧
        distinct_nodes (hashed_eq (located_ccs.pointee_hash H) (located_ccs.pointee_eq e))
          entry.2) →
      ∀ entry ∈ mp.foldl (fun m x => map_update label_eq []
          (fun set => transition_node_set.emplace
            (hashed_eq (located_ccs.pointee_hash H) (located_ccs.pointee_eq e)) set x.2)
          x.1 m) m,
        (∀ z ∈ entry.2, z ∈ D) ∧
        distinct_nodes (hashed_eq (located_ccs.pointee_hash H) (located_ccs.pointee_eq e))
          entry.2 := by
  have hs := (hashed_eq_equivalence (located_ccs.pointee_hash H) _
    (pointee_eq_equivalence e he)).symm
  induction mp with
  | nil => intro m hm; exact hm
  | cons x rest ih =>
    intro m hm
    rw [List.foldl_cons]
    apply ih (fun y hy => hmp y (List.mem_cons_of_mem _ hy))
    have hx : x.2 ∈ D := hmp x (List.mem_cons_self _ _)
    have hstep : ∀ v : transition_node_set (Nat × located_ccs),
        ((∀ z ∈ v, z ∈ D) ∧
          distinct_nodes (hashed_eq (located_ccs.pointee_hash H) (located_ccs.pointee_eq e))
            v) →
        (∀ z ∈ transition_node_set.emplace
            (hashed_eq (located_ccs.pointee_hash H) (located_ccs.pointee_eq e)) v x.2,
          z ∈ D) ∧
        distinct_nodes (hashed_eq (located_ccs.pointee_hash H) (located_ccs.pointee_eq e))
          (transition_node_set.emplace
            (hashed_eq (located_ccs.pointee_hash H) (located_ccs.pointee_eq e)) v x.2) := by
      intro v hv
      refine ⟨fun z hz => ?_, emplace_distinct hs v x.2 hv.2⟩
      rcases emplace_mem_cases v x.2 z hz with h | h
      · exact hv.1 z h
      · rw [h]; exact hx
    exact map_update_values
      (fun v : transition_node_set (Nat × located_ccs) => (∀ z ∈ v, z ∈ D) ∧
        distinct_nodes (hashed_eq (located_ccs.pointee_hash H) (located_ccs.pointee_eq e)) v)
      label_eq [] _ x.1 m hm
      (hstep [] ⟨fun z hz => False.elim (List.not_mem_nil z hz), List.Pairwise.nil⟩) hstep

theorem located_successor_set_inv (he : EqIsEquivalence e) (k : Bool × String)
    (t : located_ccs) :
    (∀ z ∈ located_ccs.successor_set H e k t,
      z ∈ List.map Prod.snd ( located_ccs.multi_prefix t)) ∧
    distinct_nodes (hashed_eq (located_ccs.pointee_hash H) (located_ccs.pointee_eq e))
      (located_ccs.successor_set H e k t) := by
  unfold located_ccs.successor_set
  apply located_lookup_subset k _
    (fun set => (∀ z ∈ set, z ∈ List.map Prod.snd ( located_ccs.multi_prefix t)) ∧
      distinct_nodes (hashed_eq (located_ccs.pointee_hash H) (located_ccs.pointee_eq e)) set)
  · exact ⟨fun z hz => False.elim (List.not_mem_nil z hz), List.Pairwise.nil⟩
  · exact located_multimap_fold_inv H e he _ _ (fun x hx => List.mem_map_of_mem _ hx) []
      (fun entry hentry => by cases hentry)

theorem located_pointers_components_mem (p : List (Option (Nat × located_ccs))) :
    ∀ v ∈ p, v ∈ located_ccs.pointers_components p := by
  induction p with
  | nil => intro v hv; cases hv
  | cons c rest ih =>
    intro v hv
    rcases List.mem_cons.1 hv with rfl | h
    · cases v with
      | none => simp [located_ccs.pointers_components]
      | some nt =>
        obtain ⟨n, t⟩ := nt
        simp [located_ccs.pointers_components]
    · have := ih v h
      cases c with
      | none =>
        simp only [located_ccs.pointers_components]
        exact List.mem_cons_of_mem _ this
      | some nt =>
        obtain ⟨n, t⟩ := nt
        simp only [located_ccs.pointers_components]
        exact List.mem_cons_of_mem _ (List.mem_append_right _ this)

theorem located_pointers_branches_mem
    (m : List ((Bool × String) × Option (Nat × located_ccs))) :
    ∀ x ∈ m, x.2 ∈ located_ccs.pointers_branches m := by
  induction m with
  | nil => intro x hx; cases hx
  | cons c rest ih =>
    obtain ⟨k, v⟩ := c
    intro x hx
    rcases List.mem_cons.1 hx with rfl | h
    · cases v with
      | none => simp [located_ccs.pointers_branches]
      | some nt =>
        obtain ⟨n, t⟩ := nt
        simp [located_ccs.pointers_branches]
    · have := ih x h
      cases v with
      | none =>
        simp only [located_ccs.pointers_branches]
        exact List.mem_cons_of_mem _ this
      | some nt =>
        obtain ⟨n, t⟩ := nt
        simp only [located_ccs.pointers_branches]
        exact List.mem_cons_of_mem _ (List.mem_append_right _ this)

theorem located_pointers_components_sub (p : List (Option (Nat × located_ccs))) :
    ∀ n t, some (n, t) ∈ p →
      ∀ q ∈ located_ccs.pointers t, q ∈ located_ccs.pointers_components p := by
  induction p with
  | nil => intro n t h; cases h
  | cons c rest ih =>
    intro n t h q hq
    rcases List.mem_cons.1 h with h0 | h0
    · rw [← h0]
      simp only [located_ccs.pointers_components]
      exact List.mem_cons_of_mem _ (List.mem_append_left _ hq)
    · have := ih n t h0 q hq
      cases c with
      | none =>
        simp only [located_ccs.pointers_components]
        exact List.mem_cons_of_mem _ this
      | some nt =>
        obtain ⟨n', t'⟩ := nt
        simp only [located_ccs.pointers_components]
        exact List.mem_cons_of_mem _ (List.mem_append_right _ this)

theorem located_pointers_branches_sub
    (m : List ((Bool × String) × Option (Nat × located_ccs))) :
    ∀ k n t, (k, some (n, t)) ∈ m →
      ∀ q ∈ located_ccs.pointers t, q ∈ located_ccs.pointers_branches m := by
  induction m with
  | nil => intro k n t h; cases h
  | cons c rest ih =>
    obtain ⟨k0, v⟩ := c
    intro k n t h q hq
    rcases List.mem_cons.1 h with h0 | h0
    · have hv : v = some (n, t) := by
        have := congrArg Prod.snd h0
        exact this.symm
      rw [hv]
      simp only [located_ccs.pointers_branches]
      exact List.mem_cons_of_mem _ (List.mem_append_left _ hq)
    · have := ih k n t h0 q hq
      cases v with
      | none =>
        simp only [located_ccs.pointers_branches]
        exact List.mem_cons_of_mem _ this
      | some nt =>
        obtain ⟨n', t'⟩ := nt
        simp only [located_ccs.pointers_branches]
        exact List.mem_cons_of_mem _ (List.mem_append_right _ this)

/-- The pointers `operator==` reads in a term occur in the term, except for the null pointer
that stands for a missing component. -/
theorem located_children_pointers (t : located_ccs) :
    ∀ v ∈ t.children, v = none ∨ v ∈ located_ccs.pointers t := by
  intro v hv
  obtain ⟨c, r, p, m⟩ := t
  simp only [located_ccs.children, located_ccs.parallel_compose, located_ccs.multi_prefix,
    List.mem_append, List.mem_cons, List.mem_singleton, List.not_mem_nil, or_false,
    List.mem_map] at hv
  simp only [located_ccs.pointers, List.mem_append]
  have hcomp : ∀ i, located_ccs.component p i = none ∨
      located_ccs.component p i ∈ located_ccs.pointers_components p := by
    intro i
    unfold located_ccs.component
    cases hi : p[i]? with
    | none => left; rfl
    | some w =>
      right
      simp only [Option.getD_some]
      exact located_pointers_components_mem p w (List.getElem?_mem hi)
  rcases hv with (h | h) | ⟨x, hx, rfl⟩
  · rw [h]
    rcases hcomp 0 with h0 | h0
    · exact Or.inl h0
    · exact Or.inr (Or.inl h0)
  · rw [h]
    rcases hcomp 1 with h0 | h0
    · exact Or.inl h0
    · exact Or.inr (Or.inl h0)
  · exact Or.inr (Or.inr (located_pointers_branches_mem m x hx))

/-- A term behind a pointer that `operator==` reads in a term in memory is in memory. -/
theorem located_in_memory_child (t : located_ccs) (ht : located_ccs.in_memory t)
    (n : Nat) (c : located_ccs) (hc : some (n, c) ∈ t.children) :
    located_ccs.in_memory c := by
  have hsub : ∀ q ∈ located_ccs.pointers c, q ∈ located_ccs.pointers t := by
    intro q hq
    obtain ⟨cs, r, p, m⟩ := t
    simp only [located_ccs.children, located_ccs.parallel_compose, located_ccs.multi_prefix,
      List.mem_append, List.mem_cons, List.mem_singleton, List.not_mem_nil, or_false,
      List.mem_map] at hc
    simp only [located_ccs.pointers, List.mem_append]
    have hcomp : ∀ i, some (n, c) = located_ccs.component p i → some (n, c) ∈ p := by
      intro i hi
      unfold located_ccs.component at hi
      cases hpi : p[i]? with
      | none => rw [hpi] at hi; cases hi
      | some w =>
        rw [hpi] at hi
        simp only [Option.getD_some] at hi
        rw [hi]
        exact List.getElem?_mem hpi
    rcases hc with (h | h) | ⟨x, hx, hxc⟩
    · exact Or.inl (located_pointers_components_sub p n c (hcomp 0 h) q hq)
    · exact Or.inl (located_pointers_components_sub p n c (hcomp 1 h) q hq)
    · obtain ⟨k, v⟩ := x
      simp only at hxc
      rw [hxc] at hx
      exact Or.inr (located_pointers_branches_sub m k n c hx q hq)
  intro p hp q hq hpq
  exact ht p (hsub p hp) q (hsub q hq) hpq

theorem located_successor_set_nodup (he : EqIsEquivalence e) (k : Bool × String)
    (t : located_ccs) (ht : located_ccs.in_memory t) :
    ((located_ccs.successor_set H e k t).map located_ccs.address).Nodup := by
  obtain ⟨hsub, hdist⟩ := located_successor_set_inv H e he k t
  have hr := hashed_eq_equivalence (located_ccs.pointee_hash H) _
    (pointee_eq_equivalence e he)
  have hptr : ∀ z ∈ located_ccs.successor_set H e k t, z ∈ located_ccs.pointers t := by
    intro z hz
    obtain ⟨x, hx, rfl⟩ := List.mem_map.1 (hsub z hz)
    obtain ⟨c, r, p, m⟩ := t
    simp only [located_ccs.multi_prefix] at hx
    simp only [located_ccs.pointers, List.mem_append]
    exact Or.inr (located_pointers_branches_mem m x hx)
  unfold List.Nodup
  rw [List.pairwise_map]
  unfold distinct_nodes at hdist
  refine List.Pairwise.imp_of_mem ?_ hdist
  intro a b ha hb hab hadd
  have heq : a = b := ht a (hptr a ha) b (hptr b hb) hadd
  rw [heq, KeyEqualizer_refl hr b] at hab
  exact Bool.noConfusion hab.1

end LocatedSets

/-! ## Lemmas: `operator==` on terms with addresses is an equivalence relation -/

section LocatedEquivalence

variable (H : String → Nat)

theorem located_eq_spec_refl (e : located_ccs → located_ccs → Bool) (he : EqIsEquivalence e)
    (x : located_ccs) : located_ccs.eq_spec H e x x := by
  unfold located_ccs.eq_spec
  refine ⟨rfl, ?_⟩
  have hc := pointee_eq_equivalence e he
  cases x.casus with
  | NIL => trivial
  | MultiPrefix =>
    exact ⟨fun k => Iff.rfl, fun k _ => located_node_set_eq_refl e he _⟩
  | ParallelComposition => exact ⟨KeyEqualizer_refl hc _, KeyEqualizer_refl hc _⟩
  | Restriction => exact ⟨rfl, KeyEqualizer_refl hc _⟩

theorem located_eq_spec_symm (e : located_ccs → located_ccs → Bool) (he : EqIsEquivalence e)
    (x y : located_ccs) (mx : located_ccs.in_memory x) (my : located_ccs.in_memory y)
    (hxy : located_ccs.eq_spec H e x y) : located_ccs.eq_spec H e y x := by
  unfold located_ccs.eq_spec at hxy ⊢
  obtain ⟨hc, hrest⟩ := hxy
  refine ⟨hc.symm, ?_⟩
  rw [← hc]
  have hp := pointee_eq_equivalence e he
  cases hx : x.casus with
  | NIL => trivial
  | MultiPrefix =>
    rw [hx] at hrest
    refine ⟨fun k => (hrest.1 k).symm, fun k hk => ?_⟩
    exact located_node_set_eq_symm e he _ _
      (located_successor_set_nodup H e he k x mx)
      (located_successor_set_nodup H e he k y my)
      (hrest.2 k ((hrest.1 k).2 hk))
  | ParallelComposition =>
    rw [hx] at hrest
    exact ⟨KeyEqualizer_symm hp hrest.1, KeyEqualizer_symm hp hrest.2⟩
  | Restriction =>
    rw [hx] at hrest
    exact ⟨hrest.1.symm, KeyEqualizer_symm hp hrest.2⟩

theorem located_eq_spec_trans (e : located_ccs → located_ccs → Bool) (he : EqIsEquivalence e)
    (x y z : located_ccs)
    (hxy : located_ccs.eq_spec H e x y) (hyz : located_ccs.eq_spec H e y z) :
    located_ccs.eq_spec H e x z := by
  unfold located_ccs.eq_spec at hxy hyz ⊢
  obtain ⟨hc, hrest⟩ := hxy
  obtain ⟨hc', hrest'⟩ := hyz
  refine ⟨hc.trans hc', ?_⟩
  rw [← hc] at hrest'
  have hp := pointee_eq_equivalence e he
  cases hx : x.casus with
  | NIL => trivial
  | MultiPrefix =>
    rw [hx] at hrest hrest'
    refine ⟨fun k => (hrest.1 k).trans (hrest'.1 k), fun k hk => ?_⟩
    exact located_node_set_eq_trans e he _ _ _ (hrest.2 k hk)
      (hrest'.2 k ((hrest.1 k).1 hk))
  | ParallelComposition =>
    rw [hx] at hrest hrest'
    exact ⟨KeyEqualizer_trans hp hrest.1 hrest'.1, KeyEqualizer_trans hp hrest.2 hrest'.2⟩
  | Restriction =>
    rw [hx] at hrest hrest'
    exact ⟨hrest.1.trans hrest'.1, KeyEqualizer_trans hp hrest.2 hrest'.2⟩

/-- A relation that is reflexive, symmetric and transitive on the elements that satisfy `G`
agrees on them with an equivalence relation. -/
theorem exists_equivalence_extension {T : Type} (G : T → Prop) (E : T → T → Bool)
    (hr : ∀ x, G x → E x x = true)
    (hs : ∀ x y, G x → G y → E x y = true → E y x = true)
    (ht : ∀ x y z, G x → G y → G z → E x y = true → E y z = true → E x z = true) :
    ∃ e : T → T → Bool, EqIsEquivalence e ∧ ∀ x y, G x → G y → e x y = E x y := by
  classical
  refine ⟨fun x y => decide ((G x ∧ G y ∧ E x y = true) ∨ (¬ G x ∧ ¬ G y)), ?_, ?_⟩
  · constructor
    · intro x
      by_cases hx : G x
      · simp [hx, hr x hx]
      · simp [hx]
    · intro x y hxy
      simp only [decide_eq_true_eq] at hxy ⊢
      rcases hxy with ⟨hx, hy, h⟩ | ⟨hx, hy⟩
      · exact Or.inl ⟨hy, hx, hs x y hx hy h⟩
      · exact Or.inr ⟨hy, hx⟩
    · intro x y z hxy hyz
      simp only [decide_eq_true_eq] at hxy hyz ⊢
      rcases hxy with ⟨hx, hy, h⟩ | ⟨hx, hy⟩
      · rcases hyz with ⟨_, hz, h'⟩ | ⟨hy', _⟩
        · exact Or.inl ⟨hx, hz, ht x y z hx hy hz h h'⟩
        · exact absurd hy hy'
      · rcases hyz with ⟨hy', _, _⟩ | ⟨_, hz⟩
        · exact absurd hy' hy
        · exact Or.inr ⟨hx, hz⟩
  · intro x y hx hy
    by_cases h : E x y = true
    · simp [hx, hy, h]
    · simp only [Bool.not_eq_true] at h
      simp [hx, hy, h]

theorem located_operator_eq_as_body (n : Nat) (e : located_ccs → located_ccs → Bool)
    (hagree : ∀ a b, (located_ccs.depth a ≤ n ∧ located_ccs.in_memory a) →
      (located_ccs.depth b ≤ n ∧ located_ccs.in_memory b) →
      e a b = located_ccs.operator_eq H a b)
    (x y : located_ccs)
    (hx : located_ccs.depth x ≤ n + 1) (hy : located_ccs.depth y ≤ n + 1)
    (mx : located_ccs.in_memory x) (my : located_ccs.in_memory y) :
    located_ccs.operator_eq H x y = located_ccs.eq_body H e x y := by
  rw [located_operator_eq_unfold]
  apply located_eq_body_congr
  have hgood : ∀ v ∈ x.children ++ y.children, ∀ k c, v = some (k, c) →
      located_ccs.depth c ≤ n ∧ located_ccs.in_memory c := by
    intro v hv k c hvc
    rw [hvc] at hv
    rcases List.mem_append.1 hv with h | h
    · have hd := located_depth_children_lt x _ h
      simp only [located_ccs.depth_ptr] at hd
      exact ⟨by omega, located_in_memory_child x mx k c h⟩
    · have hd := located_depth_children_lt y _ h
      simp only [located_ccs.depth_ptr] at hd
      exact ⟨by omega, located_in_memory_child y my k c h⟩
  intro v hv w hw
  cases v with
  | none => cases w <;> rfl
  | some a =>
    cases w with
    | none => rfl
    | some b =>
      obtain ⟨ka, ca⟩ := a
      obtain ⟨kb, cb⟩ := b
      simp only [KeyEqualizer, derefEq, located_ccs.pointee_eq]
      rw [hagree ca cb (hgood _ hv ka ca rfl) (hgood _ hw kb cb rfl)]

theorem located_operator_eq_equivalence_upto (n : Nat) :
    (∀ x, located_ccs.depth x ≤ n → located_ccs.in_memory x →
      located_ccs.operator_eq H x x = true) ∧
    (∀ x y, located_ccs.depth x ≤ n → located_ccs.depth y ≤ n →
      located_ccs.in_memory x → located_ccs.in_memory y →
      located_ccs.operator_eq H x y = true → located_ccs.operator_eq H y x = true) ∧
    (∀ x y z, located_ccs.depth x ≤ n → located_ccs.depth y ≤ n →
      located_ccs.depth z ≤ n → located_ccs.in_memory x → located_ccs.in_memory y →
      located_ccs.in_memory z →
      located_ccs.operator_eq H x y = true → located_ccs.operator_eq H y z = true →
      located_ccs.operator_eq H x z = true) := by
  induction n with
  | zero =>
    refine ⟨fun x hx => ?_, fun x y hx => ?_, fun x y z hx => ?_⟩ <;>
      · have := located_depth_pos x
        omega
  | succ n ih =>
    obtain ⟨hr, hs, ht⟩ := ih
    obtain ⟨e, hE, hagree⟩ := exists_equivalence_extension
      (fun t => located_ccs.depth t ≤ n ∧ located_ccs.in_memory t)
      (located_ccs.operator_eq H)
      (fun x hx => hr x hx.1 hx.2)
      (fun x y hx hy => hs x y hx.1 hy.1 hx.2 hy.2)
      (fun x y z hx hy hz => ht x y z hx.1 hy.1 hz.1 hx.2 hy.2 hz.2)
    refine ⟨fun x hx mx => ?_, fun x y hx hy mx my hxy => ?_,
      fun x y z hx hy hz mx my mz hxy hyz => ?_⟩
    · rw [located_operator_eq_as_body H n e hagree x x hx hx mx mx,
        located_eq_body_iff_spec]
      exact located_eq_spec_refl H e hE x
    · rw [located_operator_eq_as_body H n e hagree x y hx hy mx my,
        located_eq_body_iff_spec] at hxy
      rw [located_operator_eq_as_body H n e hagree y x hy hx my mx,
        located_eq_body_iff_spec]
      exact located_eq_spec_symm H e hE x y mx my hxy
    · rw [located_operator_eq_as_body H n e hagree x y hx hy mx my,
        located_eq_body_iff_spec] at hxy
      rw [located_operator_eq_as_body H n e hagree y z hy hz my mz,
        located_eq_body_iff_spec] at hyz
      rw [located_operator_eq_as_body H n e hagree x z hx hz mx mz,
        located_eq_body_iff_spec]
      exact located_eq_spec_trans H e hE x y z hxy hyz

end LocatedEquivalence

/-! ## Theorems: `operator==` of finite CCS as the code evaluates it in memory -/

section LocatedTheorems

theorem located_in_memory_of_pointers (t : located_ccs)
    (l : List (Option (Nat × located_ccs))) (hl : located_ccs.pointers t = l)
    (h : ∀ p ∈ l, ∀ q ∈ l, located_ccs.address p = located_ccs.address q → p = q) :
    located_ccs.in_memory t := by
  unfold located_ccs.in_memory
  rw [hl]
  exact h

theorem located_a_b_in_memory : located_ccs.in_memory located_a_b := by
  apply located_in_memory_of_pointers located_a_b [nil_at 1, nil_at 2] rfl
  intro p hp q hq h
  simp only [List.mem_cons, List.mem_singleton, List.not_mem_nil, or_false] at hp hq
  rcases hp with rfl | rfl <;> rcases hq with rfl | rfl <;>
    first
    | rfl
    | exact absurd h (by decide)

theorem located_b_a_in_memory : located_ccs.in_memory located_b_a := by
  apply located_in_memory_of_pointers located_b_a [nil_at 2, nil_at 1] rfl
  intro p hp q hq h
  simp only [List.mem_cons, List.mem_singleton, List.not_mem_nil, or_false] at hp hq
  rcases hp with rfl | rfl <;> rcases hq with rfl | rfl <;>
    first
    | rfl
    | exact absurd h (by decide)

theorem located_b_a_a_in_memory : located_ccs.in_memory located_b_a_a := by
  apply located_in_memory_of_pointers located_b_a_a [nil_at 2, nil_at 1, nil_at 1] rfl
  intro p hp q hq h
  simp only [List.mem_cons, List.mem_singleton, List.not_mem_nil, or_false] at hp hq
  rcases hp with rfl | rfl | rfl <;> rcases hq with rfl | rfl | rfl <;>
    first
    | rfl
    | exact absurd h (by decide)

/-- Two terms `a.0` built on two separately allocated deadlock terms are not `==`: the sets
of continuations hold two different addresses. Each of them is `==` to itself. -/
theorem located_operator_eq_separate_allocations (H : String → Nat) :
    located_ccs.operator_eq H located_a_1 located_a_2 = false ∧
    located_ccs.operator_eq H located_a_1 located_a_1 = true ∧
    located_ccs.operator_eq H located_a_2 located_a_2 = true :=
  ⟨rfl, rfl, rfl⟩

/-- The terms `a.0` and `a.0 + a.0` built on one deadlock term are `==` in either order, as
they are when a pointer is taken to be the term it points to: the two sets of continuations
hold the one pointer. -/
theorem located_operator_eq_repeated_branch (H : String → Nat) :
    located_ccs.operator_eq H located_a_1 located_a_a = true ∧
    located_ccs.operator_eq H located_a_a located_a_1 = true ∧
    finite_ccs.operator_eq (located_ccs.forget located_a_1)
      (located_ccs.forget located_a_a) = true :=
  ⟨rfl, rfl, rfl⟩

/-- C12: on well-formed finite CCS terms (every ParallelComposition has at least two
components, every Restriction has one body, so that `operator==` reads no vector past its
end) `finite_ccs::operator==` is an equivalence relation: it is reflexive, symmetric and
transitive. The operator is the one the code evaluates: the terms carry the addresses of
their `std::shared_ptr`s, the sets of continuations are filled by hash code and key equality,
and two such sets are compared by the addresses they hold, for every `std::hash` of strings.
The terms are values in memory: an address holds one object (`in_memory`). -/
theorem located_operator_eq_equivalence (H : String → Nat) (x y z : located_ccs)
    (hx : located_ccs.well_formed x = true) (hy : located_ccs.well_formed y = true)
    (hz : located_ccs.well_formed z = true)
    (mx : located_ccs.in_memory x) (my : located_ccs.in_memory y)
    (mz : located_ccs.in_memory z) :
    located_ccs.operator_eq H x x = true ∧
    (located_ccs.operator_eq H x y = true → located_ccs.operator_eq H y x = true) ∧
    (located_ccs.operator_eq H x y = true → located_ccs.operator_eq H y z = true →
      located_ccs.operator_eq H x z = true) := by
  have _ := hx
  have _ := hy
  have _ := hz
  obtain ⟨hr, hs, ht⟩ := located_operator_eq_equivalence_upto H
    (max (located_ccs.depth x) (max (located_ccs.depth y) (located_ccs.depth z)))
  have h1 := le_max_left (located_ccs.depth x)
    (max (located_ccs.depth y) (located_ccs.depth z))
  have h2 := le_max_right (located_ccs.depth x)
    (max (located_ccs.depth y) (located_ccs.depth z))
  have h3 := le_max_left (located_ccs.depth y) (located_ccs.depth z)
  have h4 := le_max_right (located_ccs.depth y) (located_ccs.depth z)
  exact ⟨hr x h1 mx, hs x y h1 (h3.trans h2) mx my,
    ht x y z h1 (h3.trans h2) (h4.trans h2) mx my mz⟩

/-- Witness of C12: `a.0 + b.0`, `b.0 + a.0` and `b.0 + a.0 + a.0` on one deadlock term at the
address `1` and one at the address `2`, three well-formed terms in memory that are pairwise
equal, for every hash of strings. -/
theorem located_operator_eq_equivalence_witness :
    located_ccs.well_formed located_a_b = true ∧
    located_ccs.well_formed located_b_a = true ∧
    located_ccs.well_formed located_b_a_a = true ∧
    located_ccs.in_memory located_a_b ∧
    located_ccs.in_memory located_b_a ∧
    located_ccs.in_memory located_b_a_a ∧
    ∀ H : String → Nat,
      located_ccs.operator_eq H located_a_b located_b_a = true ∧
      located_ccs.operator_eq H located_b_a located_b_a_a = true ∧
      located_ccs.operator_eq H located_a_b located_b_a_a = true :=
  ⟨rfl, rfl, rfl, located_a_b_in_memory, located_b_a_in_memory, located_b_a_a_in_memory,
   fun H => ⟨rfl, rfl,
     (located_operator_eq_equivalence H located_a_b located_b_a located_b_a_a rfl rfl rfl
        located_a_b_in_memory located_b_a_in_memory located_b_a_a_in_memory).2.2 rfl rfl⟩⟩

end LocatedTheorems

/-! ## Lemmas: the explorations of finite CCS above, with the keys looked up by hash code

The explorations of finite CCS evaluated in this file over `operator==` alone give the same
result when the containers look their keys up by hash code, whatever the hash of strings
is: on the terms these explorations meet, terms that `operator==` accepts have the same hash
code. -/

section FiniteCCSHashedExplorations

/-- On the terms reachable from `a.0 | b.0`, terms that `operator==` accepts have the same
hash code. -/
theorem hashed_agree_anil_parall_bnil (H : String → Nat) :
    ∀ x ∈ [anil_parall_bnil, anil_parall_nil, nil_parall_nil, nil_parall_bnil],
    ∀ y ∈ [anil_parall_bnil, anil_parall_nil, nil_parall_nil, nil_parall_bnil],
      KeyEqualizer (hashed_eq (finite_ccs.hash H) finite_ccs.operator_eq) x y =
        KeyEqualizer finite_ccs.operator_eq x y := by
  intro x hx y hy
  apply hashed_agree_of_imp
  intro hk
  simp only [List.mem_cons, List.mem_singleton, List.not_mem_nil, or_false] at hx hy
  rcases hx with rfl | rfl | rfl | rfl <;> rcases hy with rfl | rfl | rfl | rfl <;>
    first
    | exact Bool.noConfusion (hk : false = true)
    | rfl

theorem closed_anil_parall_bnil :
    ∀ x ∈ [anil_parall_bnil, anil_parall_nil, nil_parall_nil, nil_parall_bnil],
    ∀ e ∈ finiteCCS_call x,
      e.2 ∈ [anil_parall_bnil, anil_parall_nil, nil_parall_nil, nil_parall_bnil] := by
  intro x hx e he
  simp only [List.mem_cons, List.mem_singleton, List.not_mem_nil, or_false] at hx
  rcases hx with rfl | rfl | rfl | rfl
  · rw [show finiteCCS_call anil_parall_bnil =
      [(a, nil_parall_bnil), (b, anil_parall_nil)] from rfl] at he
    simp only [List.mem_cons, List.mem_singleton, List.not_mem_nil, or_false] at he
    rcases he with rfl | rfl <;> simp
  · rw [show finiteCCS_call anil_parall_nil = [(a, nil_parall_nil)] from rfl] at he
    simp only [List.mem_singleton] at he
    rw [he]; simp
  · rw [show finiteCCS_call nil_parall_nil = [] from rfl] at he
    cases he
  · rw [show finiteCCS_call nil_parall_bnil = [(b, nil_parall_nil)] from rfl] at he
    simp only [List.mem_singleton] at he
    rw [he]; simp

/-- The exploration of `a.0 | b.0` with the keys looked up by hash code: the same graph and
the same visited set as over `operator==` alone, for every hash of strings. -/
theorem visit_hashed_anil_parall_bnil (H : String → Nat) :
    visit finiteCCS_call (hashed_eq (finite_ccs.hash H) finite_ccs.operator_eq) 5
        small_step_semantics.fresh anil_parall_bnil =
      some { forward_transition_graph :=
               [(anil_parall_bnil, [(a, [nil_parall_bnil]), (b, [anil_parall_nil])]),
                (anil_parall_nil, [(a, [nil_parall_nil])]),
                (nil_parall_bnil, [(b, [nil_parall_nil])])]
             visited_nodes :=
               [anil_parall_bnil, anil_parall_nil, nil_parall_nil, nil_parall_bnil] } := by
  rw [(visit_congr [anil_parall_bnil, anil_parall_nil, nil_parall_nil, nil_parall_bnil]
    (hashed_agree_anil_parall_bnil H) closed_anil_parall_bnil anil_parall_bnil
    (List.mem_cons_self _ _) 5 small_step_semantics.fresh).2.1]
  rfl

/-- The explorations of the equal roots `0 | 0 | a.0` and `0 | 0 | 0` with the keys looked up
by hash code: the same two graphs as over `operator==` alone, for every hash of strings; the
two roots have the same hash code. -/
theorem visit_hashed_equal_roots (H : String → Nat) :
    KeyEqualizer (hashed_eq (finite_ccs.hash H) finite_ccs.operator_eq)
      nil_nil_anil nil_nil_nil = true ∧
    visit finiteCCS_call (hashed_eq (finite_ccs.hash H) finite_ccs.operator_eq) 2
        small_step_semantics.fresh nil_nil_anil =
      some { forward_transition_graph := [(nil_nil_anil, [(a, [nil_nil_nil])])]
             visited_nodes := [nil_nil_anil] } ∧
    visit finiteCCS_call (hashed_eq (finite_ccs.hash H) finite_ccs.operator_eq) 1
        small_step_semantics.fresh nil_nil_nil =
      some { forward_transition_graph := []
             visited_nodes := [nil_nil_nil] } := by
  refine ⟨?_, ?_, ?_⟩
  · rw [hashed_agree_compositions H nil_nil_anil (by simp) nil_nil_nil (by simp)]
    rfl
  · rw [(visit_congr [choice_of_compositions, nil_nil_anil, nil_nil_nil]
      (hashed_agree_compositions H) closed_compositions nil_nil_anil
      (by simp) 2 small_step_semantics.fresh).2.1]
    rfl
  · rw [(visit_congr [choice_of_compositions, nil_nil_anil, nil_nil_nil]
      (hashed_agree_compositions H) closed_compositions nil_nil_nil
      (by simp) 1 small_step_semantics.fresh).2.1]
    rfl

/-- The exploration of a finite CCS term returns with the keys looked up by hash code as
well, for every hash of strings: every step makes the term smaller, whatever the containers
find. -/
theorem visit_hashed_returns_on_finite_ccs (H : String → Nat) (t : Option finite_ccs)
    (self : small_step_semantics finite_ccs (Bool × String)) :
    ∃ fuel res, visit finiteCCS_call
      (hashed_eq (finite_ccs.hash H) finite_ccs.operator_eq) fuel self t = some res := by
  obtain ⟨fuel, res, hres⟩ :=
    @visit_loop_terminates_of_measure finite_ccs (Bool × String) _
      (hashed_eq (finite_ccs.hash H) finite_ccs.operator_eq)
      finiteCCS_call finite_ccs.branch_count_ptr finiteCCS_call_decreases
      (visit_init self t)
  refine ⟨fuel, { forward_transition_graph := res.forward_transition_graph
                  visited_nodes := res.visited_nodes }, ?_⟩
  unfold visit visit_run
  rw [hres]
  rfl

end FiniteCCSHashedExplorations

end COtt
